import Mathlib

/-!
# mn: ring buffer, typed channels and compute dispatch

A shallow embedding of `mn/Ring.h` and of the channel, `Auto_Chan`, compute-dispatch,
`go` and `worker_block_on_with_timeout` parts of `mn/Fabric.h`.

* `size_t` values are natural numbers; every `size_t` operation that can wrap is
  written with an explicit reduction modulo `2 ^ 64` (`sz`, `sz_sub`).
* `int32_t` values (the channel's `atomic_limit` and `atomic_arc`) are integers; the
  atomic read-modify-write operations wrap in two's complement (`wrap32`).
* The ring's buffer `T* ptr` is the list of the `cap` slots it points to; a slot that
  was allocated but never written reads as `default` (which is also `T{}`).
* A call that waits on a condition variable whose predicate is false is reported as
  `blocked`; `panic` ends the call and reports the state at that point.
* A function that calls a callback `fn` is the list of the arguments of its calls of
  `fn`, in call order.
-/

namespace mn

/-! ## Machine integers -/

/-- The value of a `size_t` expression: unsigned 64-bit arithmetic wraps. -/
def sz (n : Nat) : Nat := n % 2 ^ 64

/-- The `size_t` difference `a - b` of two `size_t` values, wrapping below zero. -/
def sz_sub (a b : Nat) : Nat := (a + 2 ^ 64 - b) % 2 ^ 64

/-- Two's complement wrap of an integer into the `int32_t` range, the result of
`std::atomic<int32_t>::fetch_add` and `fetch_sub` arithmetic. -/
def wrap32 (x : Int) : Int := (x + 2 ^ 31) % 2 ^ 32 - 2 ^ 31

/-- The integer is a value of type `int32_t`. -/
def is_int32 (x : Int) : Prop := -2 ^ 31 ≤ x ∧ x < 2 ^ 31

instance (x : Int) : Decidable (is_int32 x) := by
  unfold is_int32; infer_instance

/-- The conversion `size_t(x)` of an `int32_t`: sign extension, then reinterpretation
as an unsigned 64-bit value. -/
def size_t_of_int32 (x : Int) : Nat := (x % 2 ^ 64).toNat

/-- Number of binary digits of `n`, for `n < 2 ^ fuel`. -/
def bit_length : Nat → Nat → Nat
  | 0, _ => 0
  | fuel + 1, n => if n = 0 then 0 else bit_length fuel (n / 2) + 1

/-- Rounding of a natural number to 24 significant bits, ties to even: the value of
the number as an IEEE binary32 `float`. -/
def f32_round (n : Nat) : Nat :=
  let bits := bit_length 128 n
  if bits ≤ 24 then n
  else
    let e := bits - 24
    let q := n / 2 ^ e
    let r := n % 2 ^ e
    let half := 2 ^ (e - 1)
    if half < r ∨ (r = half ∧ q % 2 = 1) then (q + 1) * 2 ^ e else q * 2 ^ e

/-- The expression `size_t(cap * 1.5f)` of `ring_reserve`: `cap` is converted to
`float`, the product with `1.5f` is rounded to `float` (rounding commutes with the
division by two), and the conversion to `size_t` truncates. A product of `2^64` or
more, whose conversion C++ leaves undefined, is reduced modulo `2^64`; no result
below depends on the value of this expression. -/
def next_cap_f32 (cap : Nat) : Nat := sz (f32_round (3 * f32_round cap) / 2)

/-! ## Ring.h -/

/-- The struct `Ring<T>` (the allocator is not modelled). -/
structure Ring (T : Type) where
  ptr : List T
  count : Nat
  cap : Nat
  head : Nat
  deriving DecidableEq

/-- `Ring::operator[]`: asserts `ix < count`, then reads `ptr[(head + ix) % cap]`.
`none` is a failed assertion or a read outside the buffer. -/
def Ring.index {T : Type} (self : Ring T) (ix : Nat) : Option T :=
  if ix < self.count then self.ptr[sz (self.head + ix) % self.cap]? else none

/-- `ring_new`: the zero-initialised ring. -/
def ring_new {T : Type} : Ring T :=
  { ptr := [], count := 0, cap := 0, head := 0 }

/-- `::memcpy(dst + off, src, n)` on buffers of `T` slots. -/
def memcpy {T : Type} (dst : List T) (off : Nat) (src : List T) (n : Nat) : List T :=
  dst.take off ++ src.take n ++ dst.drop (off + n)

/-- `ring_reserve`, with the new block taken to have `request_cap` slots: the byte
count `request_cap * sizeof(T)` of the allocation is taken not to wrap, which holds for
every request that fits in memory. `ring_reserve_bytes` counts the bytes. -/
def ring_reserve {T : Type} [Inhabited T] (self : Ring T) (added_size : Nat) : Ring T :=
  if sz (self.count + added_size) ≤ self.cap then self
  else
    let next_cap := next_cap_f32 self.cap
    let accurate_cap := sz (self.count + added_size)
    let request_cap := if next_cap > accurate_cap then next_cap else accurate_cap
    let new_block : List T := List.replicate request_cap default
    let new_block :=
      if self.count ≠ 0 then
        let first_copy_size := sz_sub self.cap self.head
        memcpy (memcpy new_block 0 (self.ptr.drop self.head) first_copy_size)
          first_copy_size self.ptr self.head
      else new_block
    { ptr := new_block, count := self.count, cap := request_cap, head := 0 }

/-- The local `request_cap` of `ring_reserve`: the larger of `size_t(cap * 1.5f)` and
`count + added_size`, the sum taken in `size_t`. -/
def request_cap {T : Type} (self : Ring T) (added_size : Nat) : Nat :=
  let next_cap := next_cap_f32 self.cap
  let accurate_cap := sz (self.count + added_size)
  if next_cap > accurate_cap then next_cap else accurate_cap

/-- `alloc_from(allocator, size, alignof(T))` as a buffer of `T` slots, `size_of` being
`sizeof(T)`: a block of `size` bytes has room for `size / sizeof(T)` values. The
allocation is taken to succeed. -/
def alloc_from {T : Type} [Inhabited T] (size size_of : Nat) : List T :=
  List.replicate (size / size_of) default

/-- `ring_reserve` with the size of the new block counted in bytes, as the source
does: the request is `request_cap * sizeof(T)` in `size_t`, which wraps for a large
`request_cap`, and the block then has fewer than `request_cap` slots. The two `memcpy`
calls copy the `cap - head` slots from `head` on and the `head` slots before it
(their byte counts are sizes inside the old buffer and do not wrap); `none` is a copy
that runs past the end of the new block, which is undefined behaviour. -/
def ring_reserve_bytes {T : Type} [Inhabited T] (size_of : Nat) (self : Ring T)
    (added_size : Nat) : Option (Ring T) :=
  if sz (self.count + added_size) ≤ self.cap then some self
  else
    let request := request_cap self added_size
    let new_block : List T := alloc_from (sz (request * size_of)) size_of
    if self.count ≠ 0 then
      let first_copy_size := sz_sub self.cap self.head
      if new_block.length < first_copy_size + self.head then none
      else
        some
          { ptr := memcpy (memcpy new_block 0 (self.ptr.drop self.head) first_copy_size)
              first_copy_size self.ptr self.head
            count := self.count, cap := request, head := 0 }
    else some { ptr := new_block, count := self.count, cap := request, head := 0 }

/-- `ring_push_back`. -/
def ring_push_back {T : Type} [Inhabited T] (self : Ring T) (value : T) : Ring T :=
  let self := if self.count = self.cap then ring_reserve self (if self.cap ≠ 0 then 1 else 8)
    else self
  { self with
    ptr := self.ptr.set (sz (self.head + self.count) % self.cap) value
    count := sz (self.count + 1) }

/-- `ring_push_front`. -/
def ring_push_front {T : Type} [Inhabited T] (self : Ring T) (value : T) : Ring T :=
  let self := if self.count = self.cap then ring_reserve self (if self.cap ≠ 0 then 1 else 8)
    else self
  let head := if self.head ≠ 0 then self.head - 1 else sz_sub self.cap 1
  { self with
    head := head
    ptr := self.ptr.set head value
    count := sz (self.count + 1) }

/-- `ring_back`: asserts `count > 0`. -/
def ring_back {T : Type} (self : Ring T) : Option T :=
  if 0 < self.count then self.ptr[sz_sub (sz (self.head + self.count)) 1 % self.cap]? else none

/-- `ring_front`: asserts `count > 0`. -/
def ring_front {T : Type} (self : Ring T) : Option T :=
  if 0 < self.count then self.ptr[self.head]? else none

/-- `ring_pop_back`: asserts `count > 0`. -/
def ring_pop_back {T : Type} (self : Ring T) : Option (Ring T) :=
  if 0 < self.count then some { self with count := self.count - 1 } else none

/-- `ring_pop_front`: asserts `count > 0`. -/
def ring_pop_front {T : Type} (self : Ring T) : Option (Ring T) :=
  if 0 < self.count then
    some { self with head := sz (self.head + 1) % self.cap, count := self.count - 1 }
  else none

/-- `ring_empty`. -/
def ring_empty {T : Type} (self : Ring T) : Bool := self.count == 0

/-- The logical contents of a ring, front to back: `ptr[(head + i) % cap]` for
`i < count`. -/
def ring_items {T : Type} [Inhabited T] (self : Ring T) : List T :=
  (List.range self.count).map fun i => self.ptr.getD ((self.head + i) % self.cap) default

/-- Representation invariant of a ring: the buffer has `cap` slots, `count <= cap`,
`head` is inside a non-empty buffer, and the buffer is no larger than the largest
object an allocator hands out (`PTRDIFF_MAX` bytes). -/
def ring_wf {T : Type} (self : Ring T) : Prop :=
  self.ptr.length = self.cap ∧ self.count ≤ self.cap ∧
    (0 < self.cap → self.head < self.cap) ∧ self.cap < 2 ^ 63

instance {T : Type} (self : Ring T) : Decidable (ring_wf self) := by
  unfold ring_wf; infer_instance

/-! ## Fabric.h: typed channels -/

/-- The struct `IChan<T>`. The mutex and the two condition variables carry no data:
every operation below runs its critical section atomically. -/
structure IChan (T : Type) where
  r : Ring T
  atomic_limit : Int
  atomic_arc : Int
  deriving DecidableEq

/-- A channel handle `Chan<T>` as a call returns it, together with the object behind
it: `obj self` is the handle to the live object in state `self`; `nullptr last` is the
null handle returned after the object was destroyed, `last` being the state in which
`chan_unref` tore it down. -/
inductive Chan (T : Type) where
  | obj (self : IChan T)
  | nullptr (last : IChan T)
  deriving DecidableEq

/-- The state of the object behind a handle (its last state, once destroyed). -/
def Chan.state {T : Type} : Chan T → IChan T
  | .obj self => self
  | .nullptr last => last

/-- The object behind the handle has been destroyed. -/
def Chan.destroyed {T : Type} : Chan T → Bool
  | .obj _ => false
  | .nullptr _ => true

/-- The struct `Recv_Result<T>`. -/
structure Recv_Result (T : Type) where
  res : T
  more : Bool
  deriving DecidableEq

/-- How a call of a blocking channel operation ends: it returns a value and leaves
the handle `chan`; or it waits on a condition variable whose predicate is false
(`blocked`, with the state it waits in); or it reaches `panic(msg)`; or an
`mn_assert` fails. -/
inductive Call (R T : Type) where
  | returned (value : R) (chan : Chan T)
  | blocked (self : IChan T)
  | panicked (msg : String) (self : IChan T)
  | asserted (self : IChan T)
  deriving DecidableEq

/-- `chan_new(limit)`: `mn_assert(limit != 0)`, then a ring with `limit` slots
reserved, `atomic_limit = limit`, `atomic_arc = 1`. `none` is the failed assertion. -/
def chan_new {T : Type} [Inhabited T] (limit : Int) : Option (IChan T) :=
  if limit ≠ 0 then
    some { r := ring_reserve ring_new (size_t_of_int32 limit)
           atomic_limit := limit
           atomic_arc := 1 }
  else none

/-- `chan_ref`: `atomic_arc.fetch_add(1)`. -/
def chan_ref {T : Type} (self : IChan T) : IChan T :=
  { self with atomic_arc := wrap32 (self.atomic_arc + 1) }

/-- `chan_closed`: `atomic_limit.load() == 0`. -/
def chan_closed {T : Type} (self : IChan T) : Bool :=
  decide (self.atomic_limit = 0)

/-- `chan_close`: `atomic_limit.exchange(0)` under the mutex. -/
def chan_close {T : Type} (self : IChan T) : IChan T :=
  { self with atomic_limit := 0 }

/-- `chan_unref`: `atomic_arc.fetch_sub(1)`; when the value before the decrement was
1 the channel is closed, then destroyed, and `nullptr` is returned. -/
def chan_unref {T : Type} (self : IChan T) : Chan T :=
  let old := self.atomic_arc
  let self := { self with atomic_arc := wrap32 (old - 1) }
  if old = 1 then .nullptr (chan_close self) else .obj self

/-- The limit that `chan_send_try` compares the count with. The source spells the read
`self->limit`, a name `IChan<T>` does not declare (`IChan.member`); the channel keeps
its limit in `atomic_limit`, which `chan_send` reads at the same place, and that value
is used where `chan_send_try` is a step of a sequence of calls. -/
def IChan.limit {T : Type} (self : IChan T) : Int := self.atomic_limit

/-- `chan_send_try`: `if (self->r.count < self->limit)` compares a `size_t` with the
limit, which is converted to `size_t`. -/
def chan_send_try {T : Type} [Inhabited T] (self : IChan T) (v : T) : Bool × IChan T :=
  if self.r.count < size_t_of_int32 self.limit then
    (true, { self with r := ring_push_back self.r v })
  else (false, self)

/-- The names of the data members that `struct IChan` declares, in order. -/
def IChan.members : List String :=
  ["r", "mtx", "read_cv", "write_cv", "atomic_limit", "atomic_arc"]

/-- The member access `self->name` where an integer is read: the stored value of the
atomic member of that name, and `none` when `IChan` declares no such member, in which
case the expression is ill-formed. -/
def IChan.member {T : Type} (self : IChan T) (name : String) : Option Int :=
  if name = "atomic_limit" then some self.atomic_limit
  else if name = "atomic_arc" then some self.atomic_arc
  else none

/-- `chan_send_try` letter by letter: the condition is `self->r.count < self->limit`,
the member looked up by the name the source uses. `none`: the body is ill-formed, so
that the function template has no instantiation and a program that calls it does not
compile. -/
def chan_send_try_as_written {T : Type} [Inhabited T] (self : IChan T) (v : T) :
    Option (Bool × IChan T) :=
  match self.member "limit" with
  | none => none
  | some limit =>
    if self.r.count < size_t_of_int32 limit then
      some (true, { self with r := ring_push_back self.r v })
    else some (false, self)

/-- `chan_send`. -/
def chan_send {T : Type} [Inhabited T] (self : IChan T) (v : T) : Call Unit T :=
  let self := chan_ref self
  if ¬ (self.r.count < size_t_of_int32 self.atomic_limit ∨ chan_closed self = true) then
    .blocked self
  else if chan_closed self = true then
    .panicked "cannot send in a closed channel" self
  else
    .returned () (chan_unref { self with r := ring_push_back self.r v })

/-- `chan_can_recv`. -/
def chan_can_recv {T : Type} (self : IChan T) : Bool :=
  decide (0 < self.r.count) && (chan_closed self == false)

/-- `chan_recv_try`. `none` is a failed assertion of `ring_front` or
`ring_pop_front`. -/
def chan_recv_try {T : Type} [Inhabited T] (self : IChan T) :
    Option (Recv_Result T × IChan T) :=
  if 0 < self.r.count then
    match ring_front self.r, ring_pop_front self.r with
    | some res, some r => some ({ res := res, more := true }, { self with r := r })
    | _, _ => none
  else some ({ res := default, more := false }, self)

/-- `chan_recv`. -/
def chan_recv {T : Type} [Inhabited T] (self : IChan T) : Call (Recv_Result T) T :=
  let self := chan_ref self
  if ¬ (0 < self.r.count ∨ chan_closed self = true) then
    .blocked self
  else if 0 < self.r.count then
    match ring_front self.r, ring_pop_front self.r with
    | some res, some r =>
      .returned { res := res, more := true } (chan_unref { self with r := r })
    | _, _ => .asserted self
  else if chan_closed self = true then
    .returned { res := default, more := false } (chan_unref self)
  else
    .panicked "unreachable" self

/-! ## Sequences of calls on one channel -/

/-- One call on a channel. -/
inductive Chan_Op (T : Type) where
  | send (v : T)
  | send_try (v : T)
  | recv
  | recv_try
  | close
  deriving DecidableEq

/-- A channel with the history of its use: the values its sends accepted, in
acceptance order, the values its receives returned with `more = true`, in return
order, and whether a call ended in a panic or a failed assertion. -/
structure Chan_Trace (T : Type) where
  chan : Chan T
  sent : List T
  received : List T
  failed : Bool
  deriving DecidableEq

/-- The history of a channel on which no call was made yet. -/
def chan_trace_new {T : Type} (c : IChan T) : Chan_Trace T :=
  { chan := .obj c, sent := [], received := [], failed := false }

/-- One call on the channel of a history. `none` means the call is not taken: it
would block, or the program has ended already (a panic, or the channel is gone). -/
def chan_apply {T : Type} [Inhabited T] (s : Chan_Trace T) (op : Chan_Op T) :
    Option (Chan_Trace T) :=
  if s.failed then none
  else
    match s.chan with
    | .nullptr _ => none
    | .obj c =>
      match op with
      | .send v =>
        match chan_send c v with
        | .returned _ ch => some { s with chan := ch, sent := s.sent ++ [v] }
        | .blocked _ => none
        | .panicked _ c1 => some { s with chan := .obj c1, failed := true }
        | .asserted c1 => some { s with chan := .obj c1, failed := true }
      | .send_try v =>
        match chan_send_try c v with
        | (true, c1) => some { s with chan := .obj c1, sent := s.sent ++ [v] }
        | (false, c1) => some { s with chan := .obj c1 }
      | .recv =>
        match chan_recv c with
        | .returned rr ch =>
          some { s with chan := ch
                        received := if rr.more then s.received ++ [rr.res] else s.received }
        | .blocked _ => none
        | .panicked _ c1 => some { s with chan := .obj c1, failed := true }
        | .asserted c1 => some { s with chan := .obj c1, failed := true }
      | .recv_try =>
        match chan_recv_try c with
        | some (rr, c1) =>
          some { s with chan := .obj c1
                        received := if rr.more then s.received ++ [rr.res] else s.received }
        | none => some { s with failed := true }
      | .close => some { s with chan := .obj (chan_close c) }

/-- A sequence of calls, each taken when it does not block. -/
def chan_run {T : Type} [Inhabited T] (s : Chan_Trace T) : List (Chan_Op T) →
    Option (Chan_Trace T)
  | [] => some s
  | op :: ops =>
    match chan_apply s op with
    | some s1 => chan_run s1 ops
    | none => none

/-- The first `n` results of calling `chan_recv` again and again, with the channel
after them; `none` when one of the calls does not return or destroys the channel. -/
def chan_recv_n {T : Type} [Inhabited T] : Nat → IChan T →
    Option (List (Recv_Result T) × IChan T)
  | 0, c => some ([], c)
  | n + 1, c =>
    match chan_recv c with
    | .returned rr (.obj c1) =>
      match chan_recv_n n c1 with
      | some (rs, c2) => some (rr :: rs, c2)
      | none => none
    | _ => none

/-! ## Reference counting -/

/-- A call of `chan_ref` or of `chan_unref`. -/
inductive Arc_Op where
  | ref
  | unref
  deriving DecidableEq

/-- One reference-counting call on a live channel, with the handle it returns. -/
def arc_apply {T : Type} (c : IChan T) : Arc_Op → Chan T
  | .ref => .obj (chan_ref c)
  | .unref => chan_unref c

/-- A sequence of reference-counting calls; `none` when a call follows the
destruction of the channel. -/
def arc_run {T : Type} : Chan T → List Arc_Op → Option (Chan T)
  | ch, [] => some ch
  | .obj c, op :: ops => arc_run (arc_apply c op) ops
  | .nullptr _, _ :: _ => none

/-- The number of `chan_ref` calls minus the number of `chan_unref` calls. -/
def arc_delta : List Arc_Op → Int
  | [] => 0
  | .ref :: ops => arc_delta ops + 1
  | .unref :: ops => arc_delta ops - 1

/-! ## A producer and a consumer -/

/-- The two tasks that share the channel. -/
inductive Actor where
  | producer
  | consumer
  deriving DecidableEq

/-- A producer that sends the elements of a list in order and then closes the
channel, interleaved with a consumer that receives until `more = false`:
`todo` are the values still to send, `closed` says the producer has called
`chan_close`, `producer_failed` that a call of the producer ended in a panic,
`received` are the values the consumer got, `last` is the result with `more = false`
once the consumer has seen it, `consumer_failed` says that a call of the consumer
ended in a panic. -/
structure Pipeline (T : Type) where
  chan : Chan T
  todo : List T
  closed : Bool
  producer_failed : Bool
  received : List T
  last : Option (Recv_Result T)
  consumer_failed : Bool
  deriving DecidableEq

/-- The pipeline before its first step. -/
def pipeline_new {T : Type} (c : IChan T) (xs : List T) : Pipeline T :=
  { chan := .obj c, todo := xs, closed := false, producer_failed := false,
    received := [], last := none, consumer_failed := false }

/-- One step of one task. `none` means the step is disabled: the call would block,
or the task has finished or failed, or the channel is gone. -/
def pipeline_step {T : Type} [Inhabited T] (s : Pipeline T) : Actor → Option (Pipeline T)
  | .producer =>
    if s.producer_failed then none
    else
      match s.chan with
      | .nullptr _ => none
      | .obj c =>
        match s.todo with
        | x :: rest =>
          match chan_send c x with
          | .returned _ ch => some { s with chan := ch, todo := rest }
          | .blocked _ => none
          | .panicked _ c1 => some { s with chan := .obj c1, producer_failed := true }
          | .asserted c1 => some { s with chan := .obj c1, producer_failed := true }
        | [] =>
          if s.closed then none
          else some { s with chan := .obj (chan_close c), closed := true }
  | .consumer =>
    if s.consumer_failed || s.last.isSome then none
    else
      match s.chan with
      | .nullptr _ => none
      | .obj c =>
        match chan_recv c with
        | .returned rr ch =>
          if rr.more then some { s with chan := ch, received := s.received ++ [rr.res] }
          else some { s with chan := ch, last := some rr }
        | .blocked _ => none
        | .panicked _ c1 => some { s with chan := .obj c1, consumer_failed := true }
        | .asserted c1 => some { s with chan := .obj c1, consumer_failed := true }

/-- The steps of a schedule, in order; `none` when the schedule asks for a disabled
step. -/
def pipeline_run {T : Type} [Inhabited T] (s : Pipeline T) : List Actor →
    Option (Pipeline T)
  | [] => some s
  | a :: sched =>
    match pipeline_step s a with
    | some s1 => pipeline_run s1 sched
    | none => none

/-! ## Fabric.h: compute dispatch -/

/-- The struct `Compute_Dims`; the fields are `size_t` values. -/
structure Compute_Dims where
  x : Nat
  y : Nat
  z : Nat
  deriving DecidableEq

/-- The struct `Compute_Args`. -/
structure Compute_Args where
  workgroup_size : Compute_Dims
  workgroup_num : Compute_Dims
  workgroup_id : Compute_Dims
  local_invocation_id : Compute_Dims
  global_invocation_id : Compute_Dims
  deriving DecidableEq

/-- The `Compute_Args` that the innermost loop body of `_single_threaded_compute` and
of `_single_threaded_compute_sized` fills in; the products and sums are `size_t`
operations. -/
def compute_args (global local_ : Compute_Dims)
    (global_x global_y global_z local_x local_y local_z : Nat) : Compute_Args :=
  { workgroup_size := local_
    workgroup_num := global
    workgroup_id := { x := global_x, y := global_y, z := global_z }
    local_invocation_id := { x := local_x, y := local_y, z := local_z }
    global_invocation_id :=
      { x := sz (sz (global_x * local_.x) + local_x)
        y := sz (sz (global_y * local_.y) + local_y)
        z := sz (sz (global_z * local_.z) + local_z) } }

/-- `_single_threaded_compute`: the arguments of the calls of `fn`, in the order in
which the six nested loops make them. A loop `for (size_t i = 0; i < n; ++i)` runs
its body for `i = 0, ..., n - 1`. -/
def _single_threaded_compute (global local_ : Compute_Dims) : List Compute_Args :=
  (List.range global.z).flatMap fun global_z =>
  (List.range global.y).flatMap fun global_y =>
  (List.range global.x).flatMap fun global_x =>
  (List.range local_.z).flatMap fun local_z =>
  (List.range local_.y).flatMap fun local_y =>
  (List.range local_.x).flatMap fun local_x =>
    [compute_args global local_ global_x global_y global_z local_x local_y local_z]

/-- `_single_threaded_compute_sized`: as `_single_threaded_compute`, but an invocation
whose `global_invocation_id` reaches `size` on some axis is skipped (`continue`). -/
def _single_threaded_compute_sized (global size local_ : Compute_Dims) :
    List Compute_Args :=
  (List.range global.z).flatMap fun global_z =>
  (List.range global.y).flatMap fun global_y =>
  (List.range global.x).flatMap fun global_x =>
  (List.range local_.z).flatMap fun local_z =>
  (List.range local_.y).flatMap fun local_y =>
  (List.range local_.x).flatMap fun local_x =>
    let args := compute_args global local_ global_x global_y global_z local_x local_y local_z
    if args.global_invocation_id.x ≥ size.x ∨ args.global_invocation_id.y ≥ size.y ∨
        args.global_invocation_id.z ≥ size.z then []
    else [args]

/-- `_single_threaded_compute_tiled`: one call of `fn` per workgroup; `args` is
zero-initialised, so `local_invocation_id` stays `(0, 0, 0)`. -/
def _single_threaded_compute_tiled (total_size tile_size : Compute_Dims) :
    List Compute_Args :=
  (List.range total_size.z).flatMap fun global_z =>
  (List.range total_size.y).flatMap fun global_y =>
  (List.range total_size.x).flatMap fun global_x =>
    [{ workgroup_size := tile_size
       workgroup_num := total_size
       workgroup_id := { x := global_x, y := global_y, z := global_z }
       local_invocation_id := { x := 0, y := 0, z := 0 }
       global_invocation_id :=
         { x := sz (global_x * tile_size.x)
           y := sz (global_y * tile_size.y)
           z := sz (global_z * tile_size.z) } }]

/-- The workgroup count `1 + ((total - 1) / local)` that `compute_sized` and
`compute_tiled` derive on one axis, in `size_t` arithmetic. -/
def workgroup_count (total local_ : Nat) : Nat :=
  sz (1 + sz_sub total 1 / local_)

/-- `compute(f, global, local, fn)`: with `f == nullptr` the single-threaded loops;
otherwise `_multi_threaded_compute`, which is not part of this source and is the
parameter `multi`. -/
def compute {F : Type} (multi : F → Compute_Dims → Compute_Dims → List Compute_Args)
    (f : Option F) (global local_ : Compute_Dims) : List Compute_Args :=
  match f with
  | none => _single_threaded_compute global local_
  | some fabric => multi fabric global local_

/-- `compute_sized(f, total_size, local, fn)`. `none` is the division by zero of a
`local` axis that is 0. -/
def compute_sized {F : Type}
    (multi : F → Compute_Dims → Compute_Dims → Compute_Dims → List Compute_Args)
    (f : Option F) (total_size local_ : Compute_Dims) : Option (List Compute_Args) :=
  if local_.x = 0 ∨ local_.y = 0 ∨ local_.z = 0 then none
  else
    let global : Compute_Dims :=
      { x := workgroup_count total_size.x local_.x
        y := workgroup_count total_size.y local_.y
        z := workgroup_count total_size.z local_.z }
    match f with
    | none => some (_single_threaded_compute_sized global total_size local_)
    | some fabric => some (multi fabric global total_size local_)

/-- `compute_tiled(f, total_size, tile_size, fn)`. `none` is the division by zero of
a `tile_size` axis that is 0. -/
def compute_tiled {F : Type} (multi : F → Compute_Dims → Compute_Dims → List Compute_Args)
    (f : Option F) (total_size tile_size : Compute_Dims) : Option (List Compute_Args) :=
  if tile_size.x = 0 ∨ tile_size.y = 0 ∨ tile_size.z = 0 then none
  else
    let global : Compute_Dims :=
      { x := workgroup_count total_size.x tile_size.x
        y := workgroup_count total_size.y tile_size.y
        z := workgroup_count total_size.z tile_size.z }
    match f with
    | none => some (_single_threaded_compute_tiled global tile_size)
    | some fabric => some (multi fabric global tile_size)

/-- Three nested loops over the axes of `d`, `z` outermost and `x` innermost, each
iteration contributing the calls `body x y z`. -/
def loop_zyx {α : Type} (d : Compute_Dims) (body : Nat → Nat → Nat → List α) : List α :=
  (List.range d.z).flatMap fun z =>
  (List.range d.y).flatMap fun y =>
  (List.range d.x).flatMap fun x => body x y z

/-- Strict lexicographic order of two triples, `z` first, then `y`, then `x`, with
`tie` deciding between equal triples. -/
def zyx_lt (a b : Compute_Dims) (tie : Prop) : Prop :=
  a.z < b.z ∨ (a.z = b.z ∧ (a.y < b.y ∨ (a.y = b.y ∧ (a.x < b.x ∨ (a.x = b.x ∧ tie)))))

/-- The invocation `a` comes strictly before `b` in the lexicographic order of the key
`(workgroup_id.z, workgroup_id.y, workgroup_id.x, local_invocation_id.z,
local_invocation_id.y, local_invocation_id.x)`. -/
def invocation_lt (a b : Compute_Args) : Prop :=
  zyx_lt a.workgroup_id b.workgroup_id
    (zyx_lt a.local_invocation_id b.local_invocation_id False)

/-- The triple `p` lies in the box `[0, d)`: it is below `d` on each axis. -/
def dims_lt (p d : Compute_Dims) : Prop :=
  p.x < d.x ∧ p.y < d.y ∧ p.z < d.z

instance (p d : Compute_Dims) : Decidable (dims_lt p d) := by
  unfold dims_lt; infer_instance

instance (a b : Compute_Dims) (tie : Prop) [Decidable tie] : Decidable (zyx_lt a b tie) := by
  unfold zyx_lt; infer_instance

instance (a b : Compute_Args) : Decidable (invocation_lt a b) := by
  unfold invocation_lt; infer_instance

/-! ## Fabric.h: iterating over a channel -/

/-- The struct `Chan_Iterator<T>`; `chan` is the value of the channel pointer. -/
structure Chan_Iterator (T : Type) where
  chan : Nat
  res : Recv_Result T
  deriving DecidableEq

/-- `Chan_Iterator::operator==`. -/
def Chan_Iterator.eq {T : Type} (self other : Chan_Iterator T) : Bool :=
  self.chan == other.chan && self.res.more == other.res.more

/-- `Chan_Iterator::operator!=`. -/
def Chan_Iterator.ne {T : Type} (self other : Chan_Iterator T) : Bool :=
  !self.eq other

/-- `Chan_Iterator::operator*`. -/
def Chan_Iterator.deref {T : Type} (self : Chan_Iterator T) : T :=
  self.res.res

/-- `Chan_Iterator::operator++`: `res = chan_recv(chan)`; `c` is the state of the
channel that `chan` points to. -/
def Chan_Iterator.next {T : Type} [Inhabited T] (self : Chan_Iterator T) (c : IChan T) :
    Call (Chan_Iterator T) T :=
  match chan_recv c with
  | .returned rr ch => .returned { self with res := rr } ch
  | .blocked c1 => .blocked c1
  | .panicked msg c1 => .panicked msg c1
  | .asserted c1 => .asserted c1

/-- `begin(self)`: the iterator `{self, chan_recv(self)}`; `addr` is the value of the
pointer `self` and `c` the state of the channel it points to. -/
def begin {T : Type} [Inhabited T] (addr : Nat) (c : IChan T) : Call (Chan_Iterator T) T :=
  match chan_recv c with
  | .returned rr ch => .returned { chan := addr, res := rr } ch
  | .blocked c1 => .blocked c1
  | .panicked msg c1 => .panicked msg c1
  | .asserted c1 => .asserted c1

/-- `end(self)`: the iterator `{self, {}}`, whose result is value-initialised. -/
def end_ {T : Type} [Inhabited T] (addr : Nat) : Chan_Iterator T :=
  { chan := addr, res := { res := default, more := false } }

/-- How a range-for over a channel ends: the loop condition became false
(`finished`), or a `chan_recv` inside `operator++` did not return, or the loop went on
after the channel had been destroyed (`dangling`). -/
inductive For_End (T : Type) where
  | finished (chan : Chan T)
  | blocked (self : IChan T)
  | panicked (msg : String) (self : IChan T)
  | asserted (self : IChan T)
  | dangling (last : IChan T)
  deriving DecidableEq

/-- The loop `for (; it != e; ++it) body(*it)` of a range-for: the values the body
has seen, appended to `visited`, and how the loop ended. `none` means the fuel ran
out. -/
def range_for_from {T : Type} [Inhabited T] (e : Chan_Iterator T) :
    Nat → Chan_Iterator T → Chan T → List T → Option (List T × For_End T)
  | 0, _, _, _ => none
  | fuel + 1, it, ch, visited =>
    if it.ne e = true then
      match ch with
      | .nullptr last => some (visited ++ [it.deref], .dangling last)
      | .obj c =>
        match it.next c with
        | .returned it1 ch1 => range_for_from e fuel it1 ch1 (visited ++ [it.deref])
        | .blocked c1 => some (visited ++ [it.deref], .blocked c1)
        | .panicked msg c1 => some (visited ++ [it.deref], .panicked msg c1)
        | .asserted c1 => some (visited ++ [it.deref], .asserted c1)
    else some (visited, .finished ch)

/-- The statement `for (auto v : chan) body(v)`: `begin`, `end`, then the loop. -/
def range_for {T : Type} [Inhabited T] (fuel : Nat) (addr : Nat) (c : IChan T) :
    Option (List T × For_End T) :=
  match begin addr c with
  | .returned it ch => range_for_from (end_ addr) fuel it ch []
  | .blocked c1 => some ([], .blocked c1)
  | .panicked msg c1 => some ([], .panicked msg c1)
  | .asserted c1 => some ([], .asserted c1)

/-! ## Fabric.h: waiting on a predicate, and `go` -/

/-- The struct `Timeout`: a number of milliseconds. Its declaration and the constants
`NO_TIMEOUT` and `INFINITE_TIMEOUT` are not part of this source; the two constants
are parameters of `worker_block_on_with_timeout` below. -/
structure Timeout where
  milliseconds : Nat
  deriving DecidableEq

/-- What `worker_block_on_with_timeout` does, in order: the two announcements, the
evaluations of `fn` with their results, and the calls of `thread_sleep(1)`. -/
inductive Block_Event where
  | block_ahead
  | eval (result : Bool)
  | sleep
  | block_clear
  deriving DecidableEq

/-- The `while (fn() == false)` loop of `worker_block_on_with_timeout`, from its
`k`-th test on: `fn k` is the result of the `k`-th evaluation of the predicate and
`elapsed k` the number of milliseconds the steady clock shows since `start` when the
`k`-th pass reads it. `none` means the fuel ran out. -/
def block_loop (NO_TIMEOUT INFINITE_TIMEOUT timeout : Timeout) (fn : Nat → Bool)
    (elapsed : Nat → Nat) : Nat → Nat → Option (List Block_Event)
  | 0, _ => none
  | fuel + 1, k =>
    if fn k = false then
      if timeout = NO_TIMEOUT then some [.eval false]
      else if timeout ≠ INFINITE_TIMEOUT ∧ elapsed k ≥ timeout.milliseconds then
        some [.eval false]
      else
        match block_loop NO_TIMEOUT INFINITE_TIMEOUT timeout fn elapsed fuel (k + 1) with
        | some events => some (.eval false :: .sleep :: events)
        | none => none
    else some [.eval true]

/-- `worker_block_on_with_timeout(timeout, fn)`. -/
def worker_block_on_with_timeout (NO_TIMEOUT INFINITE_TIMEOUT timeout : Timeout)
    (fn : Nat → Bool) (elapsed : Nat → Nat) (fuel : Nat) : Option (List Block_Event) :=
  match block_loop NO_TIMEOUT INFINITE_TIMEOUT timeout fn elapsed fuel 0 with
  | some events => some (.block_ahead :: events ++ [.block_clear])
  | none => none

/-- The events of `n` passes of the loop whose test found the predicate false and
which went on to sleep. -/
def polls : Nat → List Block_Event
  | 0 => []
  | n + 1 => .eval false :: .sleep :: polls n

/-- The number of evaluations of `fn` in a list of events. -/
def eval_count : List Block_Event → Nat
  | [] => 0
  | .eval _ :: events => eval_count events + 1
  | _ :: events => eval_count events

/-- What a call of `go(fn)` ends in: the task is handed to `fabric_task_do` or to
`worker_task_do`, or the call panics. -/
inductive Go_Outcome (F W : Type) where
  | fabric_task_do (f : F)
  | worker_task_do (w : W)
  | panic (msg : String)
  deriving DecidableEq

/-- `go(fn)`: `fabric_local()` and `worker_local()` are not part of this source; their
results on the calling thread are the two arguments, `none` being `nullptr`. -/
def go {F W : Type} (fabric_local : Option F) (worker_local : Option W) : Go_Outcome F W :=
  match fabric_local with
  | some f => .fabric_task_do f
  | none =>
    match worker_local with
    | some w => .worker_task_do w
    | none => .panic "can't find any local fabric or worker"

/-- The relations between the fields of the `Compute_Args` of one invocation of a
dispatch of `global` workgroups of size `local_`: the size and the number of
workgroups are the two arguments, the two ids are inside them, and on each axis
`global_invocation_id` is `workgroup_id * workgroup_size + local_invocation_id`,
computed in `size_t`. -/
def args_consistent (global local_ : Compute_Dims) (a : Compute_Args) : Prop :=
  a.workgroup_size = local_ ∧ a.workgroup_num = global ∧
    dims_lt a.workgroup_id a.workgroup_num ∧
    dims_lt a.local_invocation_id a.workgroup_size ∧
    a.global_invocation_id.x =
      sz (sz (a.workgroup_id.x * a.workgroup_size.x) + a.local_invocation_id.x) ∧
    a.global_invocation_id.y =
      sz (sz (a.workgroup_id.y * a.workgroup_size.y) + a.local_invocation_id.y) ∧
    a.global_invocation_id.z =
      sz (sz (a.workgroup_id.z * a.workgroup_size.z) + a.local_invocation_id.z)

/-- The same relation with the products and sums taken in the natural numbers. -/
def args_exact (a : Compute_Args) : Prop :=
  a.global_invocation_id.x =
      a.workgroup_id.x * a.workgroup_size.x + a.local_invocation_id.x ∧
    a.global_invocation_id.y =
      a.workgroup_id.y * a.workgroup_size.y + a.local_invocation_id.y ∧
    a.global_invocation_id.z =
      a.workgroup_id.z * a.workgroup_size.z + a.local_invocation_id.z

/-- The axis-wise products of workgroup count and workgroup size fit in `size_t`. -/
def dims_fit (global local_ : Compute_Dims) : Prop :=
  global.x * local_.x < 2 ^ 64 ∧ global.y * local_.y < 2 ^ 64 ∧ global.z * local_.z < 2 ^ 64

instance (global local_ : Compute_Dims) : Decidable (dims_fit global local_) := by
  unfold dims_fit; infer_instance

instance (global local_ : Compute_Dims) (a : Compute_Args) :
    Decidable (args_consistent global local_ a) := by
  unfold args_consistent; infer_instance

instance (a : Compute_Args) : Decidable (args_exact a) := by
  unfold args_exact; infer_instance

/-- The list of `global_invocation_id` of a list of invocations. -/
def invocation_ids (inv : List Compute_Args) : List Compute_Dims :=
  inv.map fun a => a.global_invocation_id

/-- The stand-in for the multi-threaded dispatch functions in statements about a null
Fabric, where they are not called. -/
def no_fabric2 : Unit → Compute_Dims → Compute_Dims → List Compute_Args :=
  fun _ _ _ => []

/-- The stand-in for `_multi_threaded_compute_sized` in statements about a null
Fabric, where it is not called. -/
def no_fabric3 : Unit → Compute_Dims → Compute_Dims → Compute_Dims → List Compute_Args :=
  fun _ _ _ _ => []

/-! ## Descriptions used in statements about the compute dispatch and the ring -/

/-- The sequence the spec describes for `compute_sized(total, local)`: the invocations
of `compute(global, local)` with `global = 1 + ((total - 1) / local)`, of which those
whose `global_invocation_id` is below `total` on all three axes are kept. -/
def compute_sized_filtered (total local_ : Compute_Dims) : List Compute_Args :=
  (compute no_fabric2 none
      { x := workgroup_count total.x local_.x, y := workgroup_count total.y local_.y,
        z := workgroup_count total.z local_.z } local_).filter
    fun a => decide (dims_lt a.global_invocation_id total)

/-- The tile of size `tile` whose origin is the `global_invocation_id` of `a` contains
the point `p`: `o <= p < o + tile` on each axis. -/
def tile_covers (tile : Compute_Dims) (a : Compute_Args) (p : Compute_Dims) : Prop :=
  (a.global_invocation_id.x ≤ p.x ∧ p.x < a.global_invocation_id.x + tile.x) ∧
    (a.global_invocation_id.y ≤ p.y ∧ p.y < a.global_invocation_id.y + tile.y) ∧
    (a.global_invocation_id.z ≤ p.z ∧ p.z < a.global_invocation_id.z + tile.z)

instance (tile : Compute_Dims) (a : Compute_Args) (p : Compute_Dims) :
    Decidable (tile_covers tile a p) := by
  unfold tile_covers; infer_instance

/-- The predicate `count <= cap` and (`cap > 0` implies `head < cap`) on a ring. -/
def ring_inv {T : Type} (self : Ring T) : Prop :=
  self.count ≤ self.cap ∧ (0 < self.cap → self.head < self.cap)

instance {T : Type} (self : Ring T) : Decidable (ring_inv self) := by
  unfold ring_inv; infer_instance

/-! ## Fabric.h: `Auto_Chan` -/

/-- The struct `Auto_Chan<T>` in a program with one channel: `handle` is true when
the wrapper holds the address of the channel and false when it holds `nullptr`. -/
structure Auto_Chan where
  handle : Bool
  deriving DecidableEq

/-- A program state: the channel object (live or destroyed) and the wrappers
constructed so far, in construction order; `none` is a wrapper whose destructor has
run. -/
structure Auto_World (T : Type) where
  chan : Chan T
  wrappers : List (Option Auto_Chan)
  deriving DecidableEq

/-- How an `Auto_Chan` operation ends: it completes, or it dereferences a null handle
or the destroyed channel (`fault`, with the state at that point). -/
inductive Auto_Step (T : Type) where
  | done (w : Auto_World T)
  | fault (what : String) (w : Auto_World T)
  deriving DecidableEq

/-- The live wrapper with the given index, if there is one. -/
def Auto_World.wrapper {T : Type} (w : Auto_World T) (i : Nat) : Option Auto_Chan :=
  match w.wrappers[i]? with
  | some (some a) => some a
  | _ => none

/-- The statement `if (handle) chan_free(handle);` of the assignments and of the
destructor: `chan_free` is `chan_unref`. -/
def auto_chan_free {T : Type} (handle : Bool) (w : Auto_World T) : Auto_Step T :=
  if handle then
    match w.chan with
    | .obj c => .done { w with chan := chan_unref c }
    | .nullptr _ => .fault "use after free" w
  else .done w

/-- The call `chan_new(other.handle)` of the copy operations: `chan_ref` through the
handle, which is returned. -/
def auto_chan_new {T : Type} (handle : Bool) (w : Auto_World T) : Auto_Step T :=
  if handle then
    match w.chan with
    | .obj c => .done { w with chan := .obj (chan_ref c) }
    | .nullptr _ => .fault "use after free" w
  else .fault "null dereference" w

/-- `explicit Auto_Chan(int32_t limit)`: a new channel and its first wrapper. `none`
is the failed assertion of `chan_new`. -/
def auto_construct {T : Type} [Inhabited T] (limit : Int) : Option (Auto_World T) :=
  match chan_new limit with
  | some c => some { chan := .obj c, wrappers := [some { handle := true }] }
  | none => none

/-- The operations on existing wrappers; the arguments are wrapper indices, and a
copy or move constructor appends the wrapper it constructs. -/
inductive Auto_Op where
  | copy_construct (other : Nat)
  | move_construct (other : Nat)
  | copy_assign (self other : Nat)
  | move_assign (self other : Nat)
  | destruct (self : Nat)
  deriving DecidableEq

/-- One `Auto_Chan` operation; an operation on a wrapper that does not exist is a
fault. -/
def auto_apply {T : Type} (w : Auto_World T) : Auto_Op → Auto_Step T
  | .copy_construct other =>
    match w.wrapper other with
    | some o =>
      match auto_chan_new o.handle w with
      | .done w1 => .done { w1 with wrappers := w1.wrappers ++ [some { handle := o.handle }] }
      | .fault what w1 => .fault what w1
    | none => .fault "no such wrapper" w
  | .move_construct other =>
    match w.wrapper other with
    | some o =>
      .done { w with
        wrappers := w.wrappers.set other (some { handle := false }) ++
          [some { handle := o.handle }] }
    | none => .fault "no such wrapper" w
  | .copy_assign self other =>
    match w.wrapper self, w.wrapper other with
    | some s, some o =>
      match auto_chan_free s.handle w with
      | .done w1 =>
        match auto_chan_new o.handle w1 with
        | .done w2 =>
          .done { w2 with wrappers := w2.wrappers.set self (some { handle := o.handle }) }
        | .fault what w2 => .fault what w2
      | .fault what w1 => .fault what w1
    | _, _ => .fault "no such wrapper" w
  | .move_assign self other =>
    match w.wrapper self, w.wrapper other with
    | some s, some o =>
      match auto_chan_free s.handle w with
      | .done w1 =>
        .done { w1 with
          wrappers := (w1.wrappers.set self (some { handle := o.handle })).set other
            (some { handle := false }) }
      | .fault what w1 => .fault what w1
    | _, _ => .fault "no such wrapper" w
  | .destruct self =>
    match w.wrapper self with
    | some s =>
      match auto_chan_free s.handle w with
      | .done w1 => .done { w1 with wrappers := w1.wrappers.set self none }
      | .fault what w1 => .fault what w1
    | none => .fault "no such wrapper" w

/-- A sequence of operations, stopping at the first fault. -/
def auto_run {T : Type} (w : Auto_World T) : List Auto_Op → Auto_Step T
  | [] => .done w
  | op :: ops =>
    match auto_apply w op with
    | .done w1 => auto_run w1 ops
    | .fault what w1 => .fault what w1

/-- The number of live wrappers that hold a non-null handle. -/
def auto_holders {T : Type} (w : Auto_World T) : Nat :=
  (w.wrappers.filter fun a => a == some { handle := true }).length

/-! ## Sample channels -/

/-- An open channel of capacity 2 that holds the item 5. -/
def sample_open : IChan Int :=
  { r := { ptr := [5, 0], count := 1, cap := 2, head := 0 }, atomic_limit := 2, atomic_arc := 1 }

/-- A closed channel whose ring is empty and has room for two items. -/
def sample_closed_empty : IChan Int :=
  { r := { ptr := [0, 0], count := 0, cap := 2, head := 0 }, atomic_limit := 0, atomic_arc := 1 }

/-- A closed channel whose ring of three slots holds 7, 8, 9 from front to back,
wrapped around the end of the buffer. -/
def sample_closed_full : IChan Int :=
  { r := { ptr := [8, 9, 7], count := 3, cap := 3, head := 2 }, atomic_limit := 0,
    atomic_arc := 2 }

/-- The channel `chan_new<int>(1)` returns. -/
def sample_fresh : IChan Int :=
  { r := { ptr := [0], count := 0, cap := 1, head := 0 }, atomic_limit := 1, atomic_arc := 1 }

/-- The state in which the last `chan_unref` destroys `sample_fresh`. -/
def sample_destroyed : IChan Int :=
  { r := { ptr := [0], count := 0, cap := 1, head := 0 }, atomic_limit := 0, atomic_arc := 0 }

/-- A full ring of three slots that holds 7, 8, 9 from front to back, wrapped around
the end of the buffer. -/
def sample_ring : Ring Int :=
  { ptr := [8, 9, 7], count := 3, cap := 3, head := 2 }

/-- The program state after `Auto_Chan<int> a(1);`: the fresh channel and its one
wrapper. -/
def sample_world : Auto_World Int :=
  { chan := .obj sample_fresh, wrappers := [some { handle := true }] }

/-! ## Invariants -/

/-- The bound of a channel created with capacity `L`: the ring holds at most `L`
items, and `atomic_limit` is `L` or, once closed, 0. -/
def chan_bounded {T : Type} (L : Int) (c : IChan T) : Prop :=
  c.r.count ≤ L.toNat ∧ (c.atomic_limit = L ∨ c.atomic_limit = 0)

/-- The state of a channel created with capacity `L`: a well-formed ring of `L`
slots, and `atomic_limit` is `L` or, once closed, 0. -/
def chan_inv {T : Type} (L : Int) (c : IChan T) : Prop :=
  ring_wf c.r ∧ c.r.cap = L.toNat ∧ (c.atomic_limit = L ∨ c.atomic_limit = 0)

/-- The invariant of a history: the channel is live and in a state of `chan_inv`, it
has one reference while no call has failed, and the accepted values are the returned
values followed by the ring's contents. -/
def trace_inv {T : Type} [Inhabited T] (L : Int) (s : Chan_Trace T) : Prop :=
  ∃ c, s.chan = .obj c ∧ chan_inv L c ∧ (s.failed = false → c.atomic_arc = 1) ∧
    s.sent = s.received ++ ring_items c.r

/-- The invariant of the producer and consumer pipeline over the list `xs` on a
channel of capacity `L`: the channel is live with a well-formed ring of `L` slots, it
is closed exactly when the producer has closed it, which happens after the last send,
no task has failed, `xs` is what was received, then what is buffered, then what is
still to send, and the consumer has seen `more = false` only on the closed and
empty channel. -/
def pipeline_inv {T : Type} [Inhabited T] (L : Int) (xs : List T) (s : Pipeline T) : Prop :=
  ∃ c, s.chan = .obj c ∧ ring_wf c.r ∧ c.r.cap = L.toNat ∧ c.atomic_arc = 1 ∧
    c.atomic_limit = (if s.closed then 0 else L) ∧
    (s.closed = true → s.todo = []) ∧
    xs = s.received ++ ring_items c.r ++ s.todo ∧
    s.producer_failed = false ∧ s.consumer_failed = false ∧
    (∀ rr, s.last = some rr →
      rr = { res := default, more := false } ∧ s.closed = true ∧ c.r.count = 0)

/-! ## Lemmas on machine integers -/

theorem sz_of_lt {n : Nat} (h : n < 2 ^ 64) : sz n = n :=
  Nat.mod_eq_of_lt h

theorem sz_le (n : Nat) : sz n ≤ n :=
  Nat.mod_le _ _

theorem sz_sub_of_le {a b : Nat} (hb : b ≤ a) (ha : a < 2 ^ 64) : sz_sub a b = a - b := by
  unfold sz_sub
  omega

theorem mod_add_inj {cap head i j : Nat} (hi : i < cap) (hj : j < cap)
    (h : (head + i) % cap = (head + j) % cap) : i = j := by
  have h1 : i ≡ j [MOD cap] := Nat.ModEq.add_left_cancel' head h
  have h2 : i % cap = j % cap := h1
  rwa [Nat.mod_eq_of_lt hi, Nat.mod_eq_of_lt hj] at h2

theorem wrap32_of_int32 {x : Int} (h : is_int32 x) : wrap32 x = x := by
  unfold is_int32 at h
  unfold wrap32
  omega

theorem wrap32_succ_pred {x : Int} (h : is_int32 x) : wrap32 (wrap32 (x + 1) - 1) = x := by
  unfold is_int32 at h
  unfold wrap32
  omega

theorem wrap32_succ_eq_one {x : Int} (h : is_int32 x) : wrap32 (x + 1) = 1 ↔ x = 0 := by
  unfold is_int32 at h
  unfold wrap32
  omega

theorem size_t_of_int32_nonneg {x : Int} (h0 : 0 ≤ x) (h : x < 2 ^ 31) :
    size_t_of_int32 x = x.toNat := by
  unfold size_t_of_int32
  rw [Int.emod_eq_of_lt h0 (by omega)]

/-! ## Lemmas on the ring -/

theorem ring_items_length {T : Type} [Inhabited T] (r : Ring T) :
    (ring_items r).length = r.count := by
  simp [ring_items]

/-- The buffer that `ring_reserve` builds when it reallocates: the old slots from
`head` to the end, the old slots before `head`, then fresh slots. -/
theorem ring_reserve_grow {T : Type} [Inhabited T] (r : Ring T) (added : Nat)
    (hwf : ring_wf r) (hadd : r.count + added < 2 ^ 64) (hgrow : r.cap < r.count + added) :
    ∃ R, r.count + added ≤ R ∧
      ring_reserve r added =
        { ptr := if r.count ≠ 0 then
              r.ptr.drop r.head ++ r.ptr.take r.head ++ List.replicate (R - r.cap) default
            else List.replicate R default
          count := r.count, cap := R, head := 0 } := by
  obtain ⟨hlen, hcnt, hhead, hcap⟩ := hwf
  have hs : sz (r.count + added) = r.count + added := sz_of_lt hadd
  refine ⟨if next_cap_f32 r.cap > r.count + added then next_cap_f32 r.cap
      else r.count + added, ?_, ?_⟩
  · split <;> omega
  · unfold ring_reserve
    rw [hs, if_neg (by omega)]
    simp only []
    congr 1
    by_cases hc : r.count = 0
    · simp [hc]
    · have hpos : 0 < r.cap := by omega
      have hh := hhead hpos
      rw [if_pos hc, if_pos hc, sz_sub_of_le (Nat.le_of_lt hh) (by omega)]
      set R := if next_cap_f32 r.cap > r.count + added then next_cap_f32 r.cap
        else r.count + added with hR
      have hRge : r.cap < R := by rw [hR]; split <;> omega
      have hdl : (List.drop r.head r.ptr).length = r.cap - r.head := by simp [hlen]
      unfold memcpy
      simp only [List.take_zero, List.nil_append, Nat.zero_add]
      have e1 : List.take (r.cap - r.head) (List.drop r.head r.ptr) = List.drop r.head r.ptr := by
        apply List.take_of_length_le; omega
      rw [e1]
      have e2 : List.take (r.cap - r.head)
          (List.drop r.head r.ptr ++ List.drop (r.cap - r.head) (List.replicate R default))
          = List.drop r.head r.ptr := by
        rw [List.take_append_of_le_length (by omega)]
        apply List.take_of_length_le; omega
      rw [e2]
      have e3 : List.drop (r.cap - r.head + r.head)
          (List.drop r.head r.ptr ++ List.drop (r.cap - r.head) (List.replicate R default))
          = List.replicate (R - r.cap) default := by
        rw [List.drop_append_eq_append_drop]
        have : List.drop (r.cap - r.head + r.head) (List.drop r.head r.ptr) = [] := by
          apply List.drop_of_length_le; omega
        rw [this, hdl]
        simp only [List.nil_append, List.drop_drop, List.drop_replicate]
        congr 1
        omega
      rw [e3]

theorem ring_slot_rotated {T : Type} [Inhabited T] (ptr : List T) (pad : List T)
    (cap head i : Nat) (hlen : ptr.length = cap) (hh : head < cap) (hi : i < cap) :
    (ptr.drop head ++ ptr.take head ++ pad).getD i default =
      ptr.getD ((head + i) % cap) default := by
  simp only [List.getD_eq_getElem?_getD]
  congr 1
  have hdl : (List.drop head ptr).length = cap - head := by simp [hlen]
  have htl : (List.take head ptr).length = head := by simp [hlen]; omega
  by_cases hlt : i < cap - head
  · rw [List.append_assoc, List.getElem?_append_left (by omega), List.getElem?_drop,
      Nat.mod_eq_of_lt (by omega)]
  · have hmod : (head + i) % cap = i - (cap - head) := by
      have : head + i = (i - (cap - head)) + cap := by omega
      rw [this, Nat.add_mod_right, Nat.mod_eq_of_lt (by omega)]
    rw [List.getElem?_append_left (by simp only [List.length_append]; omega),
      List.getElem?_append_right (by omega), hdl, List.getElem?_take_of_lt (by omega), hmod]

/-- The effect of `ring_reserve` on a well-formed ring: the logical contents and the
count are kept and there is room for `added` more items. -/
theorem ring_reserve_spec {T : Type} [Inhabited T] (r : Ring T) (added : Nat)
    (hwf : ring_wf r) (hadd : r.count + added < 2 ^ 64) :
    ring_items (ring_reserve r added) = ring_items r ∧
      (ring_reserve r added).count = r.count ∧
      r.count + added ≤ (ring_reserve r added).cap ∧
      (ring_reserve r added).ptr.length = (ring_reserve r added).cap ∧
      (0 < (ring_reserve r added).cap →
        (ring_reserve r added).head < (ring_reserve r added).cap) ∧
      (r.cap < r.count + added → (ring_reserve r added).head = 0) := by
  by_cases hgrow : r.cap < r.count + added
  · obtain ⟨R, hR, heq⟩ := ring_reserve_grow r added hwf hadd hgrow
    obtain ⟨hlen, hcnt, hhead, hcap⟩ := hwf
    rw [heq]
    refine ⟨?_, rfl, hR, ?_, fun h => h, fun _ => rfl⟩
    · unfold ring_items
      apply List.map_congr_left
      intro i hi
      have hi : i < r.count := List.mem_range.mp hi
      have hc : r.count ≠ 0 := by omega
      have hpos : 0 < r.cap := by omega
      simp only [Nat.zero_add, if_pos hc]
      rw [Nat.mod_eq_of_lt (by omega)]
      exact ring_slot_rotated r.ptr _ r.cap r.head i hlen (hhead hpos) (by omega)
    · by_cases hc : r.count = 0
      · simp [hc]
      · have hpos : 0 < r.cap := by omega
        have := hhead hpos
        simp only [if_pos hc, List.length_append, List.length_drop, List.length_take,
          List.length_replicate, hlen]
        omega
  · have hs : sz (r.count + added) = r.count + added := sz_of_lt hadd
    have heq : ring_reserve r added = r := by
      unfold ring_reserve
      rw [hs, if_pos (by omega)]
    rw [heq]
    exact ⟨rfl, rfl, by omega, hwf.1, hwf.2.2.1, fun h => absurd h hgrow⟩

/-- Writing a slot at the back of a ring that has room appends to its contents. -/
theorem ring_items_set_back {T : Type} [Inhabited T] (r : Ring T) (v : T)
    (hlen : r.ptr.length = r.cap) (hhead : r.head < r.cap) (hroom : r.count < r.cap) :
    ring_items { r with ptr := r.ptr.set ((r.head + r.count) % r.cap) v,
                        count := r.count + 1 } = ring_items r ++ [v] := by
  unfold ring_items
  simp only [List.range_succ, List.map_append, List.map_cons, List.map_nil]
  congr 1
  · apply List.map_congr_left
    intro i hi
    have hi : i < r.count := List.mem_range.mp hi
    simp only [List.getD_eq_getElem?_getD]
    rw [List.getElem?_set_ne]
    intro h
    have := mod_add_inj (by omega) (by omega) h
    omega
  · simp only [List.getD_eq_getElem?_getD]
    rw [List.getElem?_set_self (by rw [hlen]; exact Nat.mod_lt _ (by omega))]
    rfl

/-- The list abstraction of `ring_push_back`: it appends the value, also when the
buffer has to grow. -/
theorem ring_push_back_spec {T : Type} [Inhabited T] (r : Ring T) (v : T)
    (hwf : ring_wf r) :
    ring_items (ring_push_back r v) = ring_items r ++ [v] ∧
      (ring_push_back r v).count = r.count + 1 ∧
      (ring_push_back r v).ptr.length = (ring_push_back r v).cap ∧
      (ring_push_back r v).count ≤ (ring_push_back r v).cap ∧
      (ring_push_back r v).head < (ring_push_back r v).cap ∧
      (r.count < r.cap → (ring_push_back r v).cap = r.cap) := by
  have hwf0 := hwf
  obtain ⟨hlen, hcnt, hhead, hcap⟩ := hwf
  have key : ∀ r1 : Ring T, r1.ptr.length = r1.cap → r1.count < r1.cap →
      (0 < r1.cap → r1.head < r1.cap) → r1.head + r1.count < 2 ^ 64 →
      ring_items r1 = ring_items r → r1.count = r.count →
      ring_items { r1 with ptr := r1.ptr.set (sz (r1.head + r1.count) % r1.cap) v,
                           count := sz (r1.count + 1) } = ring_items r ++ [v] ∧
        sz (r1.count + 1) = r.count + 1 ∧
        (r1.ptr.set (sz (r1.head + r1.count) % r1.cap) v).length = r1.cap ∧
        sz (r1.count + 1) ≤ r1.cap ∧ r1.head < r1.cap := by
    intro r1 h1 h2 h3 h4 h6 h7
    have hh := h3 (by omega)
    have e1 : sz (r1.count + 1) = r1.count + 1 := sz_of_lt (by omega)
    have e2 : sz (r1.head + r1.count) = r1.head + r1.count := sz_of_lt h4
    rw [e1, e2, ring_items_set_back r1 v h1 hh h2, h6]
    exact ⟨rfl, by omega, by simp [h1], by omega, hh⟩
  by_cases hfull : r.count = r.cap
  · have hadd : r.count + (if r.cap ≠ 0 then 1 else 8) < 2 ^ 64 := by split <;> omega
    have hgrow : r.cap < r.count + (if r.cap ≠ 0 then 1 else 8) := by split <;> omega
    obtain ⟨s1, s2, s3, s4, s5, s6⟩ := ring_reserve_spec r _ hwf0 hadd
    have s7 := s6 hgrow
    have hroom : (ring_reserve r (if r.cap ≠ 0 then 1 else 8)).count
        < (ring_reserve r (if r.cap ≠ 0 then 1 else 8)).cap := by
      rw [s2]
      have : 1 ≤ (if r.cap ≠ 0 then 1 else 8) := by split <;> omega
      omega
    obtain ⟨k1, k2, k3, k4, k5⟩ := key _ s4 hroom s5 (by rw [s7, s2]; omega) s1 s2
    unfold ring_push_back
    simp only [if_pos hfull]
    exact ⟨k1, k2, k3, k4, k5, fun h => by omega⟩
  · have hroom : r.count < r.cap := by omega
    have hh := hhead (by omega)
    obtain ⟨k1, k2, k3, k4, k5⟩ := key r hlen hroom hhead (by omega) rfl rfl
    unfold ring_push_back
    simp only [if_neg hfull]
    exact ⟨k1, k2, k3, k4, k5, fun _ => trivial⟩

/-- The list abstraction of `ring_front` and `ring_pop_front` on a non-empty ring. -/
theorem ring_pop_front_spec {T : Type} [Inhabited T] (r : Ring T) (hwf : ring_wf r)
    (hne : 0 < r.count) :
    ∃ x r1, ring_front r = some x ∧ ring_pop_front r = some r1 ∧
      ring_items r = x :: ring_items r1 ∧ r1.count = r.count - 1 ∧ r1.cap = r.cap ∧
      r1.ptr = r.ptr ∧ ring_wf r1 := by
  obtain ⟨hlen, hcnt, hhead, hcap⟩ := hwf
  have hpos : 0 < r.cap := by omega
  have hh := hhead hpos
  have hget : r.ptr[r.head]? = some (r.ptr.getD r.head default) := by
    rw [List.getD_eq_getElem?_getD, List.getElem?_eq_getElem (by omega)]
    rfl
  refine ⟨r.ptr.getD r.head default,
    { r with head := sz (r.head + 1) % r.cap, count := r.count - 1 }, ?_, ?_, ?_, rfl, rfl,
    rfl, ?_⟩
  · unfold ring_front
    rw [if_pos hne, hget]
  · unfold ring_pop_front
    rw [if_pos hne]
  · unfold ring_items
    obtain ⟨n, hn⟩ : ∃ n, r.count = n + 1 := ⟨r.count - 1, by omega⟩
    simp only [hn, List.range_succ_eq_map, List.map_cons, List.map_map, Nat.add_zero,
      Nat.add_sub_cancel]
    rw [Nat.mod_eq_of_lt hh, sz_of_lt (by omega)]
    congr 1
    apply List.map_congr_left
    intro i _
    simp only [Function.comp, Nat.succ_eq_add_one, Nat.mod_add_mod]
    congr 2
    omega
  · refine ⟨hlen, ?_, fun _ => Nat.mod_lt _ hpos, hcap⟩
    show r.count - 1 ≤ r.cap
    omega


/-! ## Lemmas on single channel calls -/

theorem chan_new_eq {T : Type} [Inhabited T] (L : Int) (h1 : 1 ≤ L) (h2 : L < 2 ^ 31) :
    (chan_new L : Option (IChan T)) =
      some { r := { ptr := List.replicate L.toNat default, count := 0, cap := L.toNat,
                    head := 0 }
             atomic_limit := L, atomic_arc := 1 } := by
  have hs : size_t_of_int32 L = L.toNat := size_t_of_int32_nonneg (by omega) h2
  have hz : next_cap_f32 0 = 0 := by decide
  have hlt : L.toNat < 2 ^ 64 := by omega
  have hpos : 0 < L.toNat := by omega
  unfold chan_new
  rw [if_pos (by omega), hs]
  unfold ring_reserve ring_new
  simp only [Nat.zero_add, sz_of_lt hlt, hz]
  rw [if_neg (by omega), if_neg (by omega)]
  simp

theorem chan_send_open {T : Type} [Inhabited T] (c : IChan T) (v : T)
    (harc : is_int32 c.atomic_arc) (hlive : c.atomic_arc ≠ 0) (hopen : c.atomic_limit ≠ 0)
    (hroom : c.r.count < size_t_of_int32 c.atomic_limit) :
    chan_send c v = .returned () (.obj { c with r := ring_push_back c.r v }) := by
  have h1 : wrap32 (c.atomic_arc + 1) ≠ 1 := fun h => hlive ((wrap32_succ_eq_one harc).mp h)
  unfold chan_send chan_ref chan_closed chan_unref
  simp only [decide_eq_true_eq, hopen, or_false, hroom, not_true_eq_false, if_false, h1,
    wrap32_succ_pred harc]

theorem chan_send_full {T : Type} [Inhabited T] (c : IChan T) (v : T)
    (hopen : c.atomic_limit ≠ 0) (hfull : ¬ c.r.count < size_t_of_int32 c.atomic_limit) :
    chan_send c v = .blocked (chan_ref c) := by
  unfold chan_send chan_ref chan_closed
  simp only [decide_eq_true_eq, hopen, or_false, hfull, not_false_eq_true, if_true]

theorem chan_send_closed {T : Type} [Inhabited T] (c : IChan T) (v : T)
    (hclosed : c.atomic_limit = 0) :
    chan_send c v = .panicked "cannot send in a closed channel" (chan_ref c) := by
  unfold chan_send chan_ref chan_closed
  simp only [decide_eq_true_eq, hclosed, or_true, not_true_eq_false, if_false, if_true]

theorem chan_recv_nonempty {T : Type} [Inhabited T] (c : IChan T) (hwf : ring_wf c.r)
    (harc : is_int32 c.atomic_arc) (hlive : c.atomic_arc ≠ 0) (hne : 0 < c.r.count) :
    ∃ x r1, ring_items c.r = x :: ring_items r1 ∧ r1.count = c.r.count - 1 ∧
      r1.cap = c.r.cap ∧ ring_wf r1 ∧
      chan_recv_try c = some ({ res := x, more := true }, { c with r := r1 }) ∧
      chan_recv c = .returned { res := x, more := true } (.obj { c with r := r1 }) := by
  obtain ⟨x, r1, hf, hp, hitems, hcount, hcap, _, hwf1⟩ := ring_pop_front_spec c.r hwf hne
  have h1 : wrap32 (c.atomic_arc + 1) ≠ 1 := fun h => hlive ((wrap32_succ_eq_one harc).mp h)
  refine ⟨x, r1, hitems, hcount, hcap, hwf1, ?_, ?_⟩
  · unfold chan_recv_try
    simp only [hne, if_true, hf, hp]
  · unfold chan_recv chan_ref chan_closed chan_unref
    simp only [hne, true_or, not_true_eq_false, if_false, if_true, hf, hp, h1,
      wrap32_succ_pred harc]

theorem chan_recv_drained {T : Type} [Inhabited T] (c : IChan T)
    (harc : is_int32 c.atomic_arc) (hlive : c.atomic_arc ≠ 0) (hclosed : c.atomic_limit = 0)
    (hempty : c.r.count = 0) :
    chan_recv c = .returned { res := default, more := false } (.obj c) := by
  have h1 : wrap32 (c.atomic_arc + 1) ≠ 1 := fun h => hlive ((wrap32_succ_eq_one harc).mp h)
  obtain ⟨r, lim, arc⟩ := c
  simp only at harc hlive hclosed hempty h1
  subst hclosed
  unfold chan_recv chan_ref chan_closed chan_unref
  simp only [hempty, Nat.lt_irrefl, false_or, decide_eq_true_eq, not_true_eq_false,
    if_false, if_true, h1, wrap32_succ_pred harc]

theorem chan_recv_try_empty {T : Type} [Inhabited T] (c : IChan T) (hempty : c.r.count = 0) :
    chan_recv_try c = some ({ res := default, more := false }, c) := by
  unfold chan_recv_try
  simp only [hempty, Nat.lt_irrefl, if_false]

theorem chan_recv_empty_open {T : Type} [Inhabited T] (c : IChan T)
    (hopen : c.atomic_limit ≠ 0) (hempty : c.r.count = 0) :
    chan_recv c = .blocked (chan_ref c) := by
  unfold chan_recv chan_ref chan_closed
  simp only [hempty, Nat.lt_irrefl, false_or, decide_eq_true_eq, hopen, not_false_eq_true,
    if_true]


/-! ## Single calls: send on a closed channel, close, the try variants -/

/-- C4: on a closed channel `chan_send` ends in the panic "cannot send in a closed
channel" and pushes nothing: the ring at the panic is the ring before the call, also
when it is empty and has room. -/
theorem chan_send_closed_panics {T : Type} [Inhabited T] (c : IChan T) (v : T)
    (hclosed : chan_closed c = true) :
    ∃ c1, chan_send c v = .panicked "cannot send in a closed channel" c1 ∧ c1.r = c.r ∧
      ring_items c1.r = ring_items c.r ∧ c1.r.count = c.r.count := by
  have h0 : c.atomic_limit = 0 := by simpa [chan_closed] using hclosed
  exact ⟨chan_ref c, chan_send_closed c v h0, rfl, rfl, rfl⟩

theorem chan_send_closed_panics_witness :
    chan_closed sample_closed_empty = true ∧
      sample_closed_empty.r.count < sample_closed_empty.r.cap ∧
      ∃ c1, chan_send sample_closed_empty 7 = .panicked "cannot send in a closed channel" c1 ∧
        c1.r = sample_closed_empty.r ∧ ring_items c1.r = ring_items sample_closed_empty.r ∧
        c1.r.count = sample_closed_empty.r.count :=
  ⟨by decide, by decide, chan_send_closed_panics sample_closed_empty 7 (by decide)⟩

/-- C5: `chan_close` makes `chan_closed` true, keeps the ring and the reference count,
and closing twice gives the same state as closing once. -/
theorem chan_close_idempotent {T : Type} (c : IChan T) :
    chan_closed (chan_close c) = true ∧ (chan_close c).r = c.r ∧
      (chan_close c).atomic_arc = c.atomic_arc ∧ chan_close (chan_close c) = chan_close c := by
  refine ⟨?_, rfl, rfl, rfl⟩
  simp [chan_closed, chan_close]

/-- With the limit read from `atomic_limit` (`IChan.limit`) and a limit in
`0 .. 2^31 - 1`, `chan_send_try` returns true exactly when `ring.count < limit` and the
channel is not closed; then the ring is the old ring with the value appended at the
back and nothing else changes; otherwise it returns false and the channel is
unchanged. -/
theorem chan_send_try_spec {T : Type} [Inhabited T] (c : IChan T) (v : T)
    (hwf : ring_wf c.r) (h0 : 0 ≤ c.atomic_limit) (h1 : c.atomic_limit < 2 ^ 31) :
    ((chan_send_try c v).1 = true ↔
        ((c.r.count : Int) < c.atomic_limit ∧ chan_closed c = false)) ∧
      ((chan_send_try c v).1 = true →
        ring_items (chan_send_try c v).2.r = ring_items c.r ++ [v] ∧
        (chan_send_try c v).2.atomic_limit = c.atomic_limit ∧
        (chan_send_try c v).2.atomic_arc = c.atomic_arc) ∧
      ((chan_send_try c v).1 = false → (chan_send_try c v).2 = c) := by
  have hs : size_t_of_int32 c.limit = c.atomic_limit.toNat :=
    size_t_of_int32_nonneg h0 h1
  by_cases hroom : c.r.count < c.atomic_limit.toNat
  · have e : chan_send_try c v = (true, { c with r := ring_push_back c.r v }) := by
      unfold chan_send_try
      rw [hs, if_pos hroom]
    rw [e]
    refine ⟨?_, fun _ => ⟨(ring_push_back_spec c.r v hwf).1, rfl, rfl⟩, fun h => by simp at h⟩
    have hne : c.atomic_limit ≠ 0 := by omega
    simp only [chan_closed, decide_eq_false_iff_not, true_iff]
    exact ⟨by omega, hne⟩
  · have e : chan_send_try c v = (false, c) := by
      unfold chan_send_try
      rw [hs, if_neg hroom]
    rw [e]
    refine ⟨?_, fun h => by simp at h, fun _ => rfl⟩
    simp only [Bool.false_eq_true, false_iff, not_and]
    intro hlt
    omega

theorem chan_send_try_spec_witness :
    ring_wf sample_open.r ∧ (chan_send_try sample_open 6).1 = true ∧
      ring_items (chan_send_try sample_open 6).2.r = [5, 6] ∧
      (chan_send_try (chan_send_try sample_open 6).2 7).1 = false ∧
      (chan_send_try sample_closed_empty 7).1 = false ∧
      ((chan_send_try sample_open 6).1 = true →
        ring_items (chan_send_try sample_open 6).2.r = ring_items sample_open.r ++ [6] ∧
        (chan_send_try sample_open 6).2.atomic_limit = sample_open.atomic_limit ∧
        (chan_send_try sample_open 6).2.atomic_arc = sample_open.atomic_arc) :=
  ⟨by decide, by decide, by decide, by decide, by decide,
    (chan_send_try_spec sample_open 6 (by decide) (by decide) (by decide)).2.1⟩

/-- C6: `chan_send_try` as the source spells it returns neither true nor false: its
condition reads `self->limit`, `IChan` declares no member `limit` (the limit is the
member `atomic_limit`), and for every channel and value the function template has no
instantiation. On the fresh open channel of limit 1 with an empty ring the claimed
result is true with the value appended to the ring, which is what the function gives
once the read is `atomic_limit`. -/
theorem chan_send_try_ill_formed {T : Type} [Inhabited T] (c : IChan T) (v : T) :
    "limit" ∉ IChan.members ∧ "atomic_limit" ∈ IChan.members ∧
      c.member "limit" = none ∧ c.member "atomic_limit" = some c.atomic_limit ∧
      chan_send_try_as_written c v = none ∧
      chan_closed sample_fresh = false ∧
      (sample_fresh.r.count : Int) < sample_fresh.atomic_limit ∧
      chan_send_try_as_written sample_fresh 7 = none ∧
      chan_send_try sample_fresh 7 =
        (true, { sample_fresh with r := { ptr := [7], count := 1, cap := 1, head := 0 } }) := by
  have h1 : c.member "limit" = none := by
    unfold IChan.member
    rw [if_neg (by decide), if_neg (by decide)]
  have h2 : chan_send_try_as_written c v = none := by
    unfold chan_send_try_as_written
    rw [h1]
  refine ⟨by decide, by decide, h1, ?_, h2, by decide, by decide, by decide, by decide⟩
  unfold IChan.member
  rw [if_pos rfl]

/-- C7: on a non-empty ring `chan_recv_try` returns the front item with `more = true`
and removes exactly that item, closed or not; on an empty ring it returns
`{T{}, false}` and the channel is unchanged. -/
theorem chan_recv_try_spec {T : Type} [Inhabited T] (c : IChan T) (hwf : ring_wf c.r) :
    (0 < c.r.count → ∃ x rest c1, ring_items c.r = x :: rest ∧
        chan_recv_try c = some ({ res := x, more := true }, c1) ∧
        ring_items c1.r = rest ∧ c1.r.count = c.r.count - 1 ∧
        c1.atomic_limit = c.atomic_limit ∧ c1.atomic_arc = c.atomic_arc) ∧
      (c.r.count = 0 →
        chan_recv_try c = some ({ res := default, more := false }, c)) := by
  constructor
  · intro hne
    obtain ⟨x, r1, hf, hp, hitems, hcount, _, _, _⟩ := ring_pop_front_spec c.r hwf hne
    refine ⟨x, ring_items r1, { c with r := r1 }, hitems, ?_, rfl, hcount, rfl, rfl⟩
    unfold chan_recv_try
    simp only [hne, if_true, hf, hp]
  · intro hempty
    exact chan_recv_try_empty c hempty

theorem chan_recv_try_spec_witness :
    ring_wf sample_closed_full.r ∧
      chan_recv_try sample_closed_full =
        some ({ res := 7, more := true },
          { sample_closed_full with r := { ptr := [8, 9, 7], count := 2, cap := 3, head := 0 } }) ∧
      (sample_closed_empty.r.count = 0 →
        chan_recv_try sample_closed_empty =
          some ({ res := default, more := false }, sample_closed_empty)) :=
  ⟨by decide, by decide, (chan_recv_try_spec sample_closed_empty (by decide)).2⟩


/-! ## Receiving from a closed channel -/

theorem chan_recv_n_drained {T : Type} [Inhabited T] (c : IChan T)
    (harc : is_int32 c.atomic_arc) (hlive : c.atomic_arc ≠ 0) (hclosed : c.atomic_limit = 0)
    (hempty : c.r.count = 0) (k : Nat) :
    chan_recv_n k c = some (List.replicate k { res := default, more := false }, c) := by
  induction k with
  | zero => rfl
  | succ k ih =>
    unfold chan_recv_n
    rw [chan_recv_drained c harc hlive hclosed hempty]
    simp only [ih, List.replicate_succ]

theorem chan_recv_n_drain {T : Type} [Inhabited T] (n : Nat) :
    ∀ c : IChan T, ring_wf c.r → is_int32 c.atomic_arc → c.atomic_arc ≠ 0 →
      c.r.count = n →
      ∃ c1, chan_recv_n n c =
          some ((ring_items c.r).map fun a => { res := a, more := true }, c1) ∧
        c1.r.count = 0 ∧ c1.atomic_limit = c.atomic_limit ∧ c1.atomic_arc = c.atomic_arc := by
  induction n with
  | zero =>
    intro c _ _ _ hn
    refine ⟨c, ?_, hn, rfl, rfl⟩
    have : ring_items c.r = [] := by
      apply List.eq_nil_of_length_eq_zero
      rw [ring_items_length, hn]
    rw [this]
    rfl
  | succ n ih =>
    intro c hwf harc hlive hn
    obtain ⟨x, r1, hitems, hcount, _, hwf1, _, hrecv⟩ :=
      chan_recv_nonempty c hwf harc hlive (by omega)
    obtain ⟨c1, hrun, h1, h2, h3⟩ := ih { c with r := r1 } hwf1 harc hlive
      (by show r1.count = n; omega)
    refine ⟨c1, ?_, h1, h2, h3⟩
    unfold chan_recv_n
    rw [hrecv]
    simp only [hrun, hitems, List.map_cons]

theorem chan_recv_n_add {T : Type} [Inhabited T] (n k : Nat) :
    ∀ (c : IChan T) (rs : List (Recv_Result T)) (c1 : IChan T),
      chan_recv_n n c = some (rs, c1) →
      ∀ (rs2 : List (Recv_Result T)) (c2 : IChan T), chan_recv_n k c1 = some (rs2, c2) →
        chan_recv_n (n + k) c = some (rs ++ rs2, c2) := by
  induction n with
  | zero =>
    intro c rs c1 h rs2 c2 h2
    simp only [chan_recv_n, Option.some.injEq, Prod.mk.injEq] at h
    obtain ⟨hrs, hc⟩ := h
    subst hrs
    subst hc
    simpa using h2
  | succ n ih =>
    intro c rs c1 h rs2 c2 h2
    rw [Nat.succ_add]
    unfold chan_recv_n at h ⊢
    split at h
    · rename_i rr c3 hrecv
      split at h
      · rename_i rs3 c4 hrun
        simp only [Option.some.injEq, Prod.mk.injEq] at h
        obtain ⟨hrs, hc⟩ := h
        subst hrs
        subst hc
        rw [ih c3 rs3 c4 hrun rs2 c2 h2]
        rfl
      · exact absurd h (by simp)
    · exact absurd h (by simp)

/-- C3: a closed channel whose ring holds `a1..an` hands out `{a1,true}`, ...,
`{an,true}` to the next `n` calls of `chan_recv`; every later `chan_recv` returns
`{T{}, false}` and leaves the channel as it was. On an empty open channel `chan_recv`
blocks instead. -/
theorem chan_recv_after_close {T : Type} [Inhabited T] (c : IChan T) (hwf : ring_wf c.r)
    (harc : is_int32 c.atomic_arc) (hlive : c.atomic_arc ≠ 0)
    (hclosed : chan_closed c = true) :
    (∃ c1, chan_recv_n c.r.count c =
          some ((ring_items c.r).map fun a => { res := a, more := true }, c1) ∧
        ring_items c1.r = [] ∧ chan_closed c1 = true ∧
        chan_recv c1 = .returned { res := default, more := false } (.obj c1) ∧
        (∀ k, chan_recv_n k c1 =
          some (List.replicate k { res := default, more := false }, c1)) ∧
        (∀ k, chan_recv_n (c.r.count + k) c =
          some (((ring_items c.r).map fun a => { res := a, more := true }) ++
            List.replicate k { res := default, more := false }, c1))) ∧
      (∀ c2 : IChan T, c2.r.count = 0 → chan_closed c2 = false →
        ∃ c3, chan_recv c2 = .blocked c3) := by
  have h0 : c.atomic_limit = 0 := by simpa [chan_closed] using hclosed
  constructor
  · obtain ⟨c1, hrun, hcount, hlim, harc1⟩ := chan_recv_n_drain c.r.count c hwf harc hlive rfl
    have hlim1 : c1.atomic_limit = 0 := by rw [hlim, h0]
    have harc2 : is_int32 c1.atomic_arc := by rw [harc1]; exact harc
    have hlive1 : c1.atomic_arc ≠ 0 := by rw [harc1]; exact hlive
    refine ⟨c1, hrun, ?_, ?_, chan_recv_drained c1 harc2 hlive1 hlim1 hcount,
      chan_recv_n_drained c1 harc2 hlive1 hlim1 hcount, ?_⟩
    · apply List.eq_nil_of_length_eq_zero
      rw [ring_items_length, hcount]
    · simp [chan_closed, hlim1]
    · intro k
      exact chan_recv_n_add c.r.count k c _ c1 hrun _ c1
        (chan_recv_n_drained c1 harc2 hlive1 hlim1 hcount k)
  · intro c2 hempty hopen
    have hne : c2.atomic_limit ≠ 0 := by simpa [chan_closed] using hopen
    exact ⟨chan_ref c2, chan_recv_empty_open c2 hne hempty⟩


theorem chan_recv_after_close_witness :
    (∃ c1, chan_recv_n sample_closed_full.r.count sample_closed_full =
          some ((ring_items sample_closed_full.r).map fun a => { res := a, more := true }, c1) ∧
        ring_items c1.r = [] ∧ chan_closed c1 = true ∧
        chan_recv c1 = .returned { res := default, more := false } (.obj c1) ∧
        (∀ k, chan_recv_n k c1 =
          some (List.replicate k { res := default, more := false }, c1)) ∧
        (∀ k, chan_recv_n (sample_closed_full.r.count + k) sample_closed_full =
          some (((ring_items sample_closed_full.r).map fun a => { res := a, more := true }) ++
            List.replicate k { res := default, more := false }, c1))) ∧
      ring_items sample_closed_full.r = [7, 8, 9] ∧
      (chan_recv_n 5 sample_closed_full).map Prod.fst =
        some [{ res := 7, more := true }, { res := 8, more := true },
          { res := 9, more := true }, { res := 0, more := false },
          { res := 0, more := false }] :=
  ⟨(chan_recv_after_close sample_closed_full (by decide) (by decide) (by decide)
      (by decide)).1, by decide, by decide⟩


/-! ## Creation -/

theorem ring_reserve_new_cap {T : Type} [Inhabited T] (n : Nat) (h0 : 0 < n)
    (h1 : n < 2 ^ 64) : (ring_reserve (ring_new : Ring T) n).cap = n ∧
      (ring_reserve (ring_new : Ring T) n).count = 0 := by
  have hz : next_cap_f32 0 = 0 := by decide
  unfold ring_reserve ring_new
  simp only [Nat.zero_add, sz_of_lt h1, hz]
  rw [if_neg (by omega), if_neg (by omega)]
  exact ⟨rfl, rfl⟩

/-- C8: `chan_new` asserts `limit != 0` only. It rejects 0, but a negative limit
passes the assertion: `chan_new(-1)` and `chan_new(INT32_MIN)` go on to create an
open channel whose `atomic_limit` is the negative value, after asking `ring_reserve`
for `size_t(limit)` slots (`2^64 - 1` for -1). A limit of 2 gives an open channel with
an empty ring of capacity 2 and `arc = 1`. -/
theorem chan_new_negative_limit :
    (chan_new 0 : Option (IChan Int)) = none ∧
      (∃ c : IChan Int, chan_new (-1) = some c ∧ c.atomic_limit = -1 ∧
        chan_closed c = false ∧ c.atomic_arc = 1 ∧ c.r.count = 0 ∧ c.r.cap = 2 ^ 64 - 1) ∧
      (∃ c : IChan Int, chan_new (-2 ^ 31) = some c ∧ c.atomic_limit = -2 ^ 31 ∧
        chan_closed c = false ∧ c.r.cap = 2 ^ 64 - 2 ^ 31) ∧
      (chan_new 2 : Option (IChan Int)) =
        some { r := { ptr := [0, 0], count := 0, cap := 2, head := 0 }, atomic_limit := 2,
               atomic_arc := 1 } := by
  have e1 : size_t_of_int32 (-1) = 2 ^ 64 - 1 := by decide
  have e2 : size_t_of_int32 (-2 ^ 31) = 2 ^ 64 - 2 ^ 31 := by decide
  refine ⟨by decide, ⟨_, rfl, rfl, by decide, rfl, ?_, ?_⟩, ⟨_, rfl, rfl, by decide, ?_⟩,
    by decide⟩
  · show (ring_reserve (ring_new : Ring Int) (size_t_of_int32 (-1))).count = 0
    rw [e1]
    exact (ring_reserve_new_cap _ (by norm_num) (by norm_num)).2
  · show (ring_reserve (ring_new : Ring Int) (size_t_of_int32 (-1))).cap = 2 ^ 64 - 1
    rw [e1]
    exact (ring_reserve_new_cap _ (by norm_num) (by norm_num)).1
  · show (ring_reserve (ring_new : Ring Int) (size_t_of_int32 (-2 ^ 31))).cap = 2 ^ 64 - 2 ^ 31
    rw [e2]
    exact (ring_reserve_new_cap _ (by norm_num) (by norm_num)).1


/-! ## Histories of calls -/

theorem chan_inv_push {T : Type} [Inhabited T] (L : Int) (h2 : L < 2 ^ 31) (c : IChan T)
    (v : T) (hinv : chan_inv L c) (hroom : c.r.count < L.toNat) :
    chan_inv L { c with r := ring_push_back c.r v } ∧
      ring_items (ring_push_back c.r v) = ring_items c.r ++ [v] := by
  obtain ⟨hwf, hcap, hlim⟩ := hinv
  obtain ⟨p1, _, p3, p4, p5, p6⟩ := ring_push_back_spec c.r v hwf
  have hc : (ring_push_back c.r v).cap = L.toNat := by rw [p6 (by omega), hcap]
  have hlt : (ring_push_back c.r v).cap < 2 ^ 63 := by omega
  exact ⟨⟨⟨p3, p4, fun _ => p5, hlt⟩, hc, hlim⟩, p1⟩

theorem trace_inv_step {T : Type} [Inhabited T] (L : Int) (h1 : 1 ≤ L) (h2 : L < 2 ^ 31)
    (s s1 : Chan_Trace T) (op : Chan_Op T) (hinv : trace_inv L s)
    (hstep : chan_apply s op = some s1) : trace_inv L s1 := by
  obtain ⟨c, hch, hci, harc, hlog⟩ := hinv
  have hci0 := hci
  obtain ⟨hwf, hcap, hlim⟩ := hci
  have hsz : size_t_of_int32 L = L.toNat := size_t_of_int32_nonneg (by omega) h2
  have hsz0 : size_t_of_int32 0 = 0 := by decide
  unfold chan_apply at hstep
  by_cases hf : s.failed = true
  · simp [hf] at hstep
  · have hf1 : s.failed = false := by simpa using hf
    have ha := harc hf1
    have hint : is_int32 c.atomic_arc := by rw [ha]; decide
    have hlive : c.atomic_arc ≠ 0 := by rw [ha]; decide
    simp only [hf1, hch, Bool.false_eq_true, if_false] at hstep
    cases op with
    | send v =>
      simp only at hstep
      rcases hlim with hl | hl
      · by_cases hroom : c.r.count < L.toNat
        · rw [chan_send_open c v hint hlive (by omega) (by rw [hl, hsz]; exact hroom)] at hstep
          simp only [Option.some.injEq] at hstep
          subst hstep
          obtain ⟨q1, q2⟩ := chan_inv_push L h2 c v hci0 hroom
          exact ⟨_, rfl, q1, fun _ => ha, by simp only [hlog, q2, List.append_assoc]⟩
        · rw [chan_send_full c v (by omega) (by rw [hl, hsz]; exact hroom)] at hstep
          exact absurd hstep (by simp)
      · rw [chan_send_closed c v hl] at hstep
        simp only [Option.some.injEq] at hstep
        subst hstep
        exact ⟨_, rfl, hci0, fun h => by simp at h, hlog⟩
    | send_try v =>
      simp only at hstep
      by_cases hroom : c.r.count < size_t_of_int32 c.limit
      · have e : chan_send_try c v = (true, { c with r := ring_push_back c.r v }) := by
          unfold chan_send_try
          rw [if_pos hroom]
        rw [e] at hstep
        simp only [Option.some.injEq] at hstep
        subst hstep
        have hroom1 : c.r.count < L.toNat := by
          rcases hlim with hl | hl
          · have : c.limit = L := hl
            rw [this, hsz] at hroom
            exact hroom
          · have : c.limit = 0 := hl
            rw [this, hsz0] at hroom
            omega
        obtain ⟨q1, q2⟩ := chan_inv_push L h2 c v hci0 hroom1
        exact ⟨_, rfl, q1, fun _ => ha, by simp only [hlog, q2, List.append_assoc]⟩
      · have e : chan_send_try c v = (false, c) := by
          unfold chan_send_try
          rw [if_neg hroom]
        rw [e] at hstep
        simp only [Option.some.injEq] at hstep
        subst hstep
        exact ⟨_, rfl, hci0, fun _ => ha, hlog⟩
    | recv =>
      simp only at hstep
      by_cases hne : 0 < c.r.count
      · obtain ⟨x, r1, hitems, _, hcap1, hwf1, _, hrecv⟩ :=
          chan_recv_nonempty c hwf hint hlive hne
        rw [hrecv] at hstep
        simp only [if_true, Option.some.injEq] at hstep
        subst hstep
        exact ⟨_, rfl, ⟨hwf1, by rw [hcap1, hcap], hlim⟩, fun _ => ha,
          by simp only [hlog, hitems, List.append_assoc, List.singleton_append]⟩
      · have hempty : c.r.count = 0 := by omega
        rcases hlim with hl | hl
        · rw [chan_recv_empty_open c (by omega) hempty] at hstep
          exact absurd hstep (by simp)
        · rw [chan_recv_drained c hint hlive hl hempty] at hstep
          simp only [Bool.false_eq_true, if_false, Option.some.injEq] at hstep
          subst hstep
          exact ⟨_, rfl, hci0, fun _ => ha, hlog⟩
    | recv_try =>
      simp only at hstep
      by_cases hne : 0 < c.r.count
      · obtain ⟨x, r1, hitems, _, hcap1, hwf1, htry, _⟩ :=
          chan_recv_nonempty c hwf hint hlive hne
        rw [htry] at hstep
        simp only [if_true, Option.some.injEq] at hstep
        subst hstep
        exact ⟨_, rfl, ⟨hwf1, by rw [hcap1, hcap], hlim⟩, fun _ => ha,
          by simp only [hlog, hitems, List.append_assoc, List.singleton_append]⟩
      · have hempty : c.r.count = 0 := by omega
        rw [chan_recv_try_empty c hempty] at hstep
        simp only [Bool.false_eq_true, if_false, Option.some.injEq] at hstep
        subst hstep
        exact ⟨_, rfl, hci0, fun _ => ha, hlog⟩
    | close =>
      simp only [Option.some.injEq] at hstep
      subst hstep
      exact ⟨_, rfl, ⟨hwf, hcap, Or.inr rfl⟩, fun _ => ha, hlog⟩

theorem trace_inv_run {T : Type} [Inhabited T] (L : Int) (h1 : 1 ≤ L) (h2 : L < 2 ^ 31)
    (ops : List (Chan_Op T)) :
    ∀ s s1 : Chan_Trace T, trace_inv L s → chan_run s ops = some s1 → trace_inv L s1 := by
  induction ops with
  | nil =>
    intro s s1 hinv hrun
    simp only [chan_run, Option.some.injEq] at hrun
    subst hrun
    exact hinv
  | cons op ops ih =>
    intro s s1 hinv hrun
    unfold chan_run at hrun
    split at hrun
    · rename_i s2 hstep
      exact ih s2 s1 (trace_inv_step L h1 h2 s s2 op hinv hstep) hrun
    · exact absurd hrun (by simp)

theorem trace_inv_new {T : Type} [Inhabited T] (L : Int) (h1 : 1 ≤ L) (h2 : L < 2 ^ 31) :
    ∃ c0 : IChan T, chan_new L = some c0 ∧ c0.r.count = 0 ∧ c0.r.cap = L.toNat ∧
      c0.atomic_limit = L ∧ c0.atomic_arc = 1 ∧ ring_items c0.r = [] ∧
      trace_inv L (chan_trace_new c0) := by
  refine ⟨_, chan_new_eq L h1 h2, rfl, rfl, rfl, rfl, rfl, _, rfl, ⟨⟨?_, ?_, ?_, ?_⟩, rfl, Or.inl rfl⟩,
    fun _ => rfl, rfl⟩
  · simp
  · exact Nat.zero_le _
  · intro h
    exact h
  · show L.toNat < 2 ^ 63
    omega


/-- C1: on a channel from `chan_new(L)`, `L >= 1`, after every sequence of calls of
`chan_send`, `chan_send_try`, `chan_recv`, `chan_recv_try` and `chan_close` (a
blocking call is not taken) the values the sends accepted, in order, are the values
the receives returned with `more = true`, in order, followed by the ring's contents
from front to back: nothing is lost, duplicated or reordered. -/
theorem chan_fifo_exactly_once {T : Type} [Inhabited T] (L : Int) (h1 : 1 ≤ L)
    (h2 : L < 2 ^ 31) :
    ∃ c0 : IChan T, chan_new L = some c0 ∧
      ∀ (ops : List (Chan_Op T)) (s : Chan_Trace T),
        chan_run (chan_trace_new c0) ops = some s →
        ∃ c, s.chan = .obj c ∧ s.sent = s.received ++ ring_items c.r := by
  obtain ⟨c0, hnew, _, _, _, _, _, hinv⟩ := trace_inv_new (T := T) L h1 h2
  refine ⟨c0, hnew, fun ops s hrun => ?_⟩
  obtain ⟨c, hch, _, _, hlog⟩ := trace_inv_run L h1 h2 ops _ s hinv hrun
  exact ⟨c, hch, hlog⟩

theorem chan_fifo_exactly_once_witness :
    (∃ c0 : IChan Int, chan_new 2 = some c0 ∧
      ∀ (ops : List (Chan_Op Int)) (s : Chan_Trace Int),
        chan_run (chan_trace_new c0) ops = some s →
        ∃ c, s.chan = .obj c ∧ s.sent = s.received ++ ring_items c.r) ∧
      ((chan_new 2 : Option (IChan Int)).bind fun c0 =>
        (chan_run (chan_trace_new c0)
          [.send 1, .send 2, .recv, .send_try 3, .send_try 4, .recv_try, .send 5, .close,
            .recv]).map
          fun s => (s.sent, s.received, ring_items s.chan.state.r)) =
        some ([1, 2, 3, 5], [1, 2, 3], [5]) :=
  ⟨chan_fifo_exactly_once 2 (by decide) (by decide), by decide⟩

/-! ## The bound on the number of buffered items -/

theorem ring_reserve_count {T : Type} [Inhabited T] (r : Ring T) (added : Nat) :
    (ring_reserve r added).count = r.count := by
  unfold ring_reserve
  split <;> rfl

theorem ring_push_back_count {T : Type} [Inhabited T] (r : Ring T) (v : T) :
    (ring_push_back r v).count = sz (r.count + 1) := by
  unfold ring_push_back
  split
  · simp only [ring_reserve_count]
  · rfl

theorem ring_pop_front_count {T : Type} (r r1 : Ring T) (h : ring_pop_front r = some r1) :
    r1.count = r.count - 1 := by
  unfold ring_pop_front at h
  split at h
  · simp only [Option.some.injEq] at h
    subst h
    rfl
  · exact absurd h (by simp)

theorem chan_unref_state {T : Type} (c : IChan T) :
    (chan_unref c).state.r = c.r ∧
      ((chan_unref c).state.atomic_limit = c.atomic_limit ∨
        (chan_unref c).state.atomic_limit = 0) := by
  unfold chan_unref
  by_cases h : c.atomic_arc = 1
  · simp only [h, if_true]
    exact ⟨rfl, Or.inr rfl⟩
  · simp only [h, if_false]
    exact ⟨rfl, Or.inl rfl⟩

theorem chan_bounded_send {T : Type} [Inhabited T] (L : Int) (h1 : 1 ≤ L) (h2 : L < 2 ^ 31)
    (c : IChan T) (v : T) (ch : Chan T) (hb : chan_bounded L c)
    (h : chan_send c v = .returned () ch) : chan_bounded L ch.state := by
  obtain ⟨hcount, hlim⟩ := hb
  have hsz : size_t_of_int32 L = L.toNat := size_t_of_int32_nonneg (by omega) h2
  unfold chan_send at h
  simp only [chan_ref, chan_closed, decide_eq_true_eq] at h
  split_ifs at h with hA hB
  simp only [Call.returned.injEq, true_and] at h
  subst h
  have hl : c.atomic_limit = L := by
    rcases hlim with hl | hl
    · exact hl
    · exact absurd hl hB
  have hroom : c.r.count < L.toNat := by
    rw [hl, hsz] at hA
    have : L ≠ 0 := by omega
    simpa [this] using hA
  obtain ⟨u1, u2⟩ := chan_unref_state
    { r := ring_push_back c.r v, atomic_limit := c.atomic_limit,
      atomic_arc := wrap32 (c.atomic_arc + 1) }
  constructor
  · rw [u1]
    show (ring_push_back c.r v).count ≤ L.toNat
    rw [ring_push_back_count]
    have := sz_le (c.r.count + 1)
    omega
  · rcases u2 with u2 | u2
    · exact Or.inl (by rw [u2]; exact hl)
    · exact Or.inr u2

theorem chan_bounded_send_try {T : Type} [Inhabited T] (L : Int) (h1 : 1 ≤ L)
    (h2 : L < 2 ^ 31) (c : IChan T) (v : T) (hb : chan_bounded L c) :
    chan_bounded L (chan_send_try c v).2 := by
  obtain ⟨hcount, hlim⟩ := hb
  have hsz : size_t_of_int32 L = L.toNat := size_t_of_int32_nonneg (by omega) h2
  have hsz0 : size_t_of_int32 0 = 0 := by decide
  unfold chan_send_try
  split
  · rename_i hroom
    have hroom1 : c.r.count < L.toNat := by
      rcases hlim with hl | hl
      · have : c.limit = L := hl
        rw [this, hsz] at hroom
        exact hroom
      · have : c.limit = 0 := hl
        rw [this, hsz0] at hroom
        omega
    refine ⟨?_, hlim⟩
    show (ring_push_back c.r v).count ≤ L.toNat
    rw [ring_push_back_count]
    have := sz_le (c.r.count + 1)
    omega
  · exact ⟨hcount, hlim⟩

theorem chan_bounded_recv_try {T : Type} [Inhabited T] (L : Int) (c c1 : IChan T)
    (rr : Recv_Result T) (hb : chan_bounded L c) (h : chan_recv_try c = some (rr, c1)) :
    chan_bounded L c1 := by
  obtain ⟨hcount, hlim⟩ := hb
  unfold chan_recv_try at h
  split at h
  · split at h
    · rename_i res r hf hp
      simp only [Option.some.injEq, Prod.mk.injEq] at h
      obtain ⟨_, h⟩ := h
      subst h
      refine ⟨?_, hlim⟩
      show r.count ≤ L.toNat
      rw [ring_pop_front_count c.r r hp]
      omega
    · exact absurd h (by simp)
  · simp only [Option.some.injEq, Prod.mk.injEq] at h
    obtain ⟨_, h⟩ := h
    subst h
    exact ⟨hcount, hlim⟩

theorem chan_bounded_recv {T : Type} [Inhabited T] (L : Int) (c : IChan T) (ch : Chan T)
    (rr : Recv_Result T) (hb : chan_bounded L c) (h : chan_recv c = .returned rr ch) :
    chan_bounded L ch.state := by
  obtain ⟨hcount, hlim⟩ := hb
  unfold chan_recv at h
  simp only [chan_ref, chan_closed, decide_eq_true_eq] at h
  split_ifs at h with hA hB hC
  · split at h
    · rename_i res r hf hp
      simp only [Call.returned.injEq] at h
      obtain ⟨_, h⟩ := h
      subst h
      obtain ⟨u1, u2⟩ := chan_unref_state
        { r := r, atomic_limit := c.atomic_limit, atomic_arc := wrap32 (c.atomic_arc + 1) }
      constructor
      · rw [u1]
        show r.count ≤ L.toNat
        have := ring_pop_front_count _ r hp
        simp only at this
        omega
      · rcases u2 with u2 | u2
        · rcases hlim with hl | hl
          · exact Or.inl (by rw [u2]; exact hl)
          · exact Or.inr (by rw [u2]; exact hl)
        · exact Or.inr u2
    · exact absurd h (by simp)
  · simp only [Call.returned.injEq] at h
    obtain ⟨_, h⟩ := h
    subst h
    obtain ⟨u1, u2⟩ := chan_unref_state
      { r := c.r, atomic_limit := c.atomic_limit, atomic_arc := wrap32 (c.atomic_arc + 1) }
    constructor
    · rw [u1]
      exact hcount
    · rcases u2 with u2 | u2
      · exact Or.inr (by rw [u2]; exact hC)
      · exact Or.inr u2


/-- C2: for a channel of capacity `L >= 1`, `ring.count <= L` holds after `chan_new`,
every one of `chan_send` (when it returns), `chan_send_try`, `chan_recv`,
`chan_recv_try` and `chan_close` preserves it (together with the fact that
`atomic_limit` is `L` or 0), and so it holds after every sequence of calls. -/
theorem chan_count_le_limit {T : Type} [Inhabited T] (L : Int) (h1 : 1 ≤ L)
    (h2 : L < 2 ^ 31) :
    (∃ c0 : IChan T, chan_new L = some c0 ∧ chan_bounded L c0 ∧
        ∀ (ops : List (Chan_Op T)) (s : Chan_Trace T),
          chan_run (chan_trace_new c0) ops = some s → s.chan.state.r.count ≤ L.toNat) ∧
      (∀ c : IChan T, chan_bounded L c →
        (∀ v ch, chan_send c v = .returned () ch → chan_bounded L ch.state) ∧
        (∀ v, chan_bounded L (chan_send_try c v).2) ∧
        (∀ rr ch, chan_recv c = .returned rr ch → chan_bounded L ch.state) ∧
        (∀ rr c1, chan_recv_try c = some (rr, c1) → chan_bounded L c1) ∧
        chan_bounded L (chan_close c)) := by
  constructor
  · obtain ⟨c0, hnew, hc, _, hl, _, _, hinv⟩ := trace_inv_new (T := T) L h1 h2
    refine ⟨c0, hnew, ⟨by omega, Or.inl hl⟩, fun ops s hrun => ?_⟩
    obtain ⟨c, hch, ⟨hwf, hcap, _⟩, _, _⟩ := trace_inv_run L h1 h2 ops _ s hinv hrun
    rw [hch]
    show c.r.count ≤ L.toNat
    have := hwf.2.1
    omega
  · intro c hb
    exact ⟨fun v ch h => chan_bounded_send L h1 h2 c v ch hb h,
      fun v => chan_bounded_send_try L h1 h2 c v hb,
      fun rr ch h => chan_bounded_recv L c ch rr hb h,
      fun rr c1 h => chan_bounded_recv_try L c c1 rr hb h,
      ⟨hb.1, Or.inr rfl⟩⟩

theorem chan_count_le_limit_witness :
    ((∃ c0 : IChan Int, chan_new 2 = some c0 ∧ chan_bounded 2 c0 ∧
        ∀ (ops : List (Chan_Op Int)) (s : Chan_Trace Int),
          chan_run (chan_trace_new c0) ops = some s →
            s.chan.state.r.count ≤ (2 : Int).toNat) ∧
      (∀ c : IChan Int, chan_bounded 2 c →
        (∀ v ch, chan_send c v = .returned () ch → chan_bounded 2 ch.state) ∧
        (∀ v, chan_bounded 2 (chan_send_try c v).2) ∧
        (∀ rr ch, chan_recv c = .returned rr ch → chan_bounded 2 ch.state) ∧
        (∀ rr c1, chan_recv_try c = some (rr, c1) → chan_bounded 2 c1) ∧
        chan_bounded 2 (chan_close c))) ∧
      ((chan_new 2 : Option (IChan Int)).bind fun c0 =>
        (chan_run (chan_trace_new c0) [.send 1, .send 2, .send_try 3]).map
          fun s => (s.sent, s.chan.state.r.count)) = some ([1, 2], 2) ∧
      ((chan_new 2 : Option (IChan Int)).bind fun c0 =>
        chan_run (chan_trace_new c0) [.send 1, .send 2, .send 3]) = none :=
  ⟨chan_count_le_limit 2 (by decide) (by decide), by decide, by decide⟩


/-! ## Reference counting -/

theorem arc_delta_replicate_ref (n : Nat) : arc_delta (List.replicate n .ref) = n := by
  induction n with
  | zero => rfl
  | succ n ih =>
    simp only [List.replicate_succ, arc_delta, ih]
    push_cast
    rfl

theorem wrap32_is_int32 (x : Int) : is_int32 (wrap32 x) := by
  unfold is_int32 wrap32
  omega

theorem arc_run_replicate_ref {T : Type} (n : Nat) :
    ∀ c : IChan T, is_int32 c.atomic_arc →
      ∃ c1, arc_run (.obj c) (List.replicate n .ref) = some (.obj c1) ∧
        c1.atomic_arc = wrap32 (c.atomic_arc + n) ∧ c1.r = c.r ∧
        c1.atomic_limit = c.atomic_limit := by
  induction n with
  | zero =>
    intro c hc
    refine ⟨c, rfl, ?_, rfl, rfl⟩
    simp only [Nat.cast_zero, add_zero]
    exact (wrap32_of_int32 hc).symm
  | succ n ih =>
    intro c hc
    obtain ⟨c1, hrun, harc, hr, hl⟩ := ih (chan_ref c) (wrap32_is_int32 _)
    refine ⟨c1, ?_, ?_, hr, hl⟩
    · simp only [List.replicate_succ, arc_run, arc_apply]
      exact hrun
    · rw [harc]
      simp only [chan_ref, wrap32]
      push_cast
      omega

theorem arc_run_nullptr {T : Type} (last : IChan T) (ops : List Arc_Op) (ch : Chan T)
    (h : arc_run (.nullptr last) ops = some ch) : ops = [] ∧ ch = .nullptr last := by
  cases ops with
  | nil =>
    simp only [arc_run, Option.some.injEq] at h
    exact ⟨rfl, h.symm⟩
  | cons op ops => simp [arc_run] at h

theorem arc_run_spec {T : Type} (ops : List Arc_Op) :
    ∀ (c : IChan T) (ch : Chan T), 1 ≤ c.atomic_arc →
      (∀ p, p <+: ops → c.atomic_arc + arc_delta p ≤ 2 ^ 31 - 1) →
      arc_run (.obj c) ops = some ch →
      (∀ c1, ch = .obj c1 →
        c1.atomic_arc = c.atomic_arc + arc_delta ops ∧ 1 ≤ c1.atomic_arc ∧ c1.r = c.r ∧
        c1.atomic_limit = c.atomic_limit) ∧
      (∀ last, ch = .nullptr last →
        c.atomic_arc + arc_delta ops = 0 ∧ last.atomic_arc = 0 ∧ last.atomic_limit = 0 ∧
        last.r = c.r ∧
        ∃ pre c2, ops = pre ++ [.unref] ∧ arc_run (.obj c) pre = some (.obj c2) ∧
          c2.atomic_arc = 1 ∧ chan_unref c2 = .nullptr last) := by
  induction ops with
  | nil =>
    intro c ch hpos _ hrun
    simp only [arc_run, Option.some.injEq] at hrun
    subst hrun
    constructor
    · intro c1 h
      simp only [Chan.obj.injEq] at h
      subst h
      exact ⟨by simp [arc_delta], hpos, rfl, rfl⟩
    · intro last h
      exact absurd h (by simp)
  | cons op ops ih =>
    intro c ch hpos hb hrun
    have hb0 := hb [] (List.nil_prefix)
    simp only [arc_delta, add_zero] at hb0
    cases op with
    | ref =>
      have hb1 := hb [.ref] (by simp)
      simp only [arc_delta, zero_add] at hb1
      have harc : (chan_ref c).atomic_arc = c.atomic_arc + 1 := by
        simp only [chan_ref]
        exact wrap32_of_int32 ⟨by omega, by omega⟩
      simp only [arc_run, arc_apply] at hrun
      obtain ⟨i1, i2⟩ := ih (chan_ref c) ch (by rw [harc]; omega)
        (fun p hp => by
          have := hb (.ref :: p) (by simpa using hp)
          simp only [arc_delta] at this
          rw [harc]
          omega) hrun
      constructor
      · intro c1 h
        obtain ⟨a1, a2, a3, a4⟩ := i1 c1 h
        refine ⟨?_, a2, a3, a4⟩
        rw [a1, harc]
        simp only [arc_delta]
        omega
      · intro last h
        obtain ⟨a1, a2, a3, a4, pre, c2, e1, e2, e3, e4⟩ := i2 last h
        refine ⟨?_, a2, a3, a4, .ref :: pre, c2, by rw [e1]; rfl, ?_, e3, e4⟩
        · rw [harc] at a1
          simp only [arc_delta]
          omega
        · simp only [arc_run, arc_apply]
          exact e2
    | unref =>
      simp only [arc_run, arc_apply] at hrun
      by_cases hone : c.atomic_arc = 1
      · have hun : chan_unref c = .nullptr (chan_close { c with atomic_arc := 0 }) := by
          unfold chan_unref
          simp only [hone, if_true]
          rfl
        rw [hun] at hrun
        obtain ⟨hops, hch⟩ := arc_run_nullptr _ _ _ hrun
        subst hops
        subst hch
        constructor
        · intro c1 h
          exact absurd h (by simp)
        · intro last h
          simp only [Chan.nullptr.injEq] at h
          subst h
          refine ⟨by simp only [arc_delta]; omega, rfl, rfl, rfl, [], c, rfl, rfl, hone, hun⟩
      · have harc : wrap32 (c.atomic_arc - 1) = c.atomic_arc - 1 :=
          wrap32_of_int32 ⟨by omega, by omega⟩
        have hun : chan_unref c = .obj { c with atomic_arc := c.atomic_arc - 1 } := by
          unfold chan_unref
          simp only [hone, if_false, harc]
        rw [hun] at hrun
        obtain ⟨i1, i2⟩ := ih { c with atomic_arc := c.atomic_arc - 1 } ch
          (by show 1 ≤ c.atomic_arc - 1; omega)
          (fun p hp => by
            have := hb (.unref :: p) (by simpa using hp)
            simp only [arc_delta] at this
            show c.atomic_arc - 1 + arc_delta p ≤ 2 ^ 31 - 1
            omega) hrun
        constructor
        · intro c1 h
          obtain ⟨a1, a2, a3, a4⟩ := i1 c1 h
          refine ⟨?_, a2, a3, a4⟩
          rw [a1]
          simp only [arc_delta]
          omega
        · intro last h
          obtain ⟨a1, a2, a3, a4, pre, c2, e1, e2, e3, e4⟩ := i2 last h
          refine ⟨?_, a2, a3, a4, .unref :: pre, c2, by rw [e1]; rfl, ?_, e3, e4⟩
          · simp only [arc_delta]
            simp only at a1
            omega
          · simp only [arc_run, arc_apply, hun]
            exact e2


/-- C9 (as stated, refuted): `atomic_arc` is an `int32_t`. After `2^31 - 1` calls of
`chan_ref` on a fresh channel the count has wrapped to `-2^31`, which is not
`1 + refs - unrefs = 2^31`. -/
theorem chan_arc_wraps_after_refs :
    ∃ c0 c : IChan Int, chan_new 1 = some c0 ∧
      arc_run (.obj c0) (List.replicate (2 ^ 31 - 1) .ref) = some (.obj c) ∧
      c.atomic_arc = -2 ^ 31 ∧
      1 + arc_delta (List.replicate (2 ^ 31 - 1) .ref) = 2 ^ 31 ∧
      c.atomic_arc ≠ 1 + arc_delta (List.replicate (2 ^ 31 - 1) .ref) := by
  obtain ⟨c0, hnew, _, _, _, harc0, _, _⟩ := trace_inv_new (T := Int) 1 (by decide) (by decide)
  obtain ⟨c, hrun, harc, _, _⟩ :=
    arc_run_replicate_ref (2 ^ 31 - 1) c0 (by rw [harc0]; decide)
  have hval : c.atomic_arc = -2 ^ 31 := by
    rw [harc, harc0]
    decide
  have hdelta : 1 + arc_delta (List.replicate (2 ^ 31 - 1) .ref) = 2 ^ 31 := by
    rw [arc_delta_replicate_ref]
    norm_num
  refine ⟨c0, c, hnew, hrun, hval, hdelta, ?_⟩
  rw [hval, hdelta]
  decide

/-- C9 (amended): for every sequence of `chan_ref` and `chan_unref` calls on a channel
fresh from `chan_new` in which no call follows the destruction and the number of
references `1 + refs - unrefs` never exceeds `2^31 - 1`: while the channel lives, arc
is `1 + refs - unrefs` and at least 1; the channel is destroyed only by the last call
of the sequence, a `chan_unref` made at arc 1, which brings arc to 0, closes the
channel before it tears it down and returns `nullptr`; a `chan_unref` at any other
arc returns the handle and destroys nothing. -/
theorem chan_arc_balance {T : Type} [Inhabited T] (L : Int) (c0 : IChan T)
    (hnew : chan_new L = some c0) (ops : List Arc_Op) (ch : Chan T)
    (hb : ∀ n, n ≤ ops.length → 1 + arc_delta (ops.take n) ≤ 2 ^ 31 - 1)
    (hrun : arc_run (.obj c0) ops = some ch) :
    (∀ c, ch = .obj c →
        c.atomic_arc = 1 + arc_delta ops ∧ 1 ≤ c.atomic_arc ∧ c.r = c0.r ∧
        c.atomic_limit = c0.atomic_limit) ∧
      (∀ last, ch = .nullptr last →
        1 + arc_delta ops = 0 ∧ last.atomic_arc = 0 ∧ chan_closed last = true ∧
        last.r = c0.r ∧
        ∃ pre c2, ops = pre ++ [.unref] ∧ arc_run (.obj c0) pre = some (.obj c2) ∧
          c2.atomic_arc = 1 ∧ chan_unref c2 = .nullptr last) ∧
      (∀ c : IChan T, c.atomic_arc ≠ 1 →
        chan_unref c = .obj { c with atomic_arc := wrap32 (c.atomic_arc - 1) }) := by
  have harc0 : c0.atomic_arc = 1 := by
    unfold chan_new at hnew
    split at hnew
    · simp only [Option.some.injEq] at hnew
      subst hnew
      rfl
    · exact absurd hnew (by simp)
  obtain ⟨i1, i2⟩ := arc_run_spec ops c0 ch (by omega)
    (fun p hp => by
      have h1 := hb p.length hp.length_le
      rw [← List.prefix_iff_eq_take.mp hp] at h1
      rw [harc0]
      exact h1) hrun
  refine ⟨fun c h => ?_, fun last h => ?_, fun c h => ?_⟩
  · obtain ⟨a1, a2, a3, a4⟩ := i1 c h
    exact ⟨by rw [a1, harc0], a2, a3, a4⟩
  · obtain ⟨a1, a2, a3, a4, hex⟩ := i2 last h
    exact ⟨by rw [← a1, harc0], a2, by simp [chan_closed, a3], a4, hex⟩
  · unfold chan_unref
    simp only [h, if_false]

theorem chan_arc_balance_witness :
    chan_new 1 = some sample_fresh ∧
      arc_run (.obj sample_fresh) [.ref, .unref, .unref] = some (.nullptr sample_destroyed) ∧
      arc_run (.obj sample_fresh) [.ref, .unref] = some (.obj sample_fresh) ∧
      (∀ last : IChan Int, Chan.nullptr sample_destroyed = Chan.nullptr last →
        1 + arc_delta [.ref, .unref, .unref] = 0 ∧ last.atomic_arc = 0 ∧
        chan_closed last = true ∧ last.r = sample_fresh.r ∧
        ∃ pre c2, [Arc_Op.ref, .unref, .unref] = pre ++ [.unref] ∧
          arc_run (.obj sample_fresh) pre = some (.obj c2) ∧
          c2.atomic_arc = 1 ∧ chan_unref c2 = .nullptr last) :=
  ⟨by decide, by decide, by decide,
    (chan_arc_balance 1 sample_fresh (by decide) [.ref, .unref, .unref]
      (.nullptr sample_destroyed)
      (fun n hn => by
        have hn3 : n ≤ 3 := hn
        interval_cases n <;> decide)
      (by decide)).2.1⟩


/-! ## The producer and consumer pipeline -/

theorem pipeline_inv_step {T : Type} [Inhabited T] (L : Int) (h1 : 1 ≤ L) (h2 : L < 2 ^ 31)
    (xs : List T) (s s1 : Pipeline T) (a : Actor) (hinv : pipeline_inv L xs s)
    (hstep : pipeline_step s a = some s1) : pipeline_inv L xs s1 := by
  obtain ⟨c, hch, hwf, hcap, harc, hlim, hclosed, hxs, hpf, hcf, hlast⟩ := hinv
  have hsz : size_t_of_int32 L = L.toNat := size_t_of_int32_nonneg (by omega) h2
  have hint : is_int32 c.atomic_arc := by rw [harc]; decide
  have hlive : c.atomic_arc ≠ 0 := by rw [harc]; decide
  cases a with
  | producer =>
    simp only [pipeline_step, hpf, hch, Bool.false_eq_true, if_false] at hstep
    cases htodo : s.todo with
    | nil =>
      simp only [htodo] at hstep
      by_cases hcl : s.closed = true
      · simp [hcl] at hstep
      · have hcl0 : s.closed = false := by simpa using hcl
        simp only [hcl0, Bool.false_eq_true, if_false, Option.some.injEq] at hstep
        subst hstep
        refine ⟨_, rfl, hwf, hcap, harc, rfl, fun _ => rfl, ?_, rfl, hcf, ?_⟩
        · show xs = s.received ++ ring_items c.r ++ []
          rw [hxs, htodo]
        · intro rr hrr
          have := (hlast rr hrr).2.1
          rw [hcl0] at this
          exact absurd this (by simp)
    | cons x rest =>
      simp only [htodo] at hstep
      have hcl0 : s.closed = false := by
        by_cases hcl : s.closed = true
        · have := hclosed hcl
          rw [htodo] at this
          exact absurd this (by simp)
        · simpa using hcl
      have hl : c.atomic_limit = L := by simpa [hcl0] using hlim
      by_cases hroom : c.r.count < L.toNat
      · rw [chan_send_open c x hint hlive (by omega) (by rw [hl, hsz]; exact hroom)] at hstep
        simp only [Option.some.injEq] at hstep
        subst hstep
        obtain ⟨⟨q1, q2, _⟩, q3⟩ := chan_inv_push L h2 c x ⟨hwf, hcap, Or.inl hl⟩ hroom
        refine ⟨_, rfl, q1, q2, harc, by simpa [hcl0] using hl, fun h => ?_, ?_, rfl, hcf, ?_⟩
        · have h : s.closed = true := h
          rw [hcl0] at h
          exact absurd h (by simp)
        · show xs = s.received ++ ring_items (ring_push_back c.r x) ++ rest
          rw [hxs, q3, htodo]
          simp only [List.append_assoc, List.singleton_append]
        · intro rr hrr
          have := (hlast rr hrr).2.1
          rw [hcl0] at this
          exact absurd this (by simp)
      · rw [chan_send_full c x (by omega) (by rw [hl, hsz]; exact hroom)] at hstep
        exact absurd hstep (by simp)
  | consumer =>
    by_cases hl0 : s.last.isSome = true
    · simp [pipeline_step, hl0] at hstep
    · have hnone : s.last = none := by simpa using hl0
      simp only [pipeline_step, hcf, hnone, Option.isSome_none, Bool.or_self,
        Bool.false_eq_true, if_false, hch] at hstep
      by_cases hne : 0 < c.r.count
      · obtain ⟨x, r1, hitems, _, hcap1, hwf1, _, hrecv⟩ :=
          chan_recv_nonempty c hwf hint hlive hne
        rw [hrecv] at hstep
        simp only [if_true, Option.some.injEq] at hstep
        subst hstep
        refine ⟨_, rfl, hwf1, by rw [hcap1, hcap], harc, hlim, hclosed, ?_, hpf, rfl, ?_⟩
        · show xs = s.received ++ [x] ++ ring_items r1 ++ s.todo
          rw [hxs, hitems]
          simp only [List.append_assoc, List.singleton_append]
        · intro rr hrr
          exact absurd hrr (by simp)
      · have hempty : c.r.count = 0 := by omega
        by_cases hcl : s.closed = true
        · have hl : c.atomic_limit = 0 := by simpa [hcl] using hlim
          rw [chan_recv_drained c hint hlive hl hempty] at hstep
          simp only [Bool.false_eq_true, if_false, Option.some.injEq] at hstep
          subst hstep
          refine ⟨_, rfl, hwf, hcap, harc, hlim, hclosed, hxs, hpf, rfl, ?_⟩
          intro rr hrr
          simp only [Option.some.injEq] at hrr
          exact ⟨hrr.symm, hcl, hempty⟩
        · have hcl0 : s.closed = false := by simpa using hcl
          have hl : c.atomic_limit = L := by simpa [hcl0] using hlim
          rw [chan_recv_empty_open c (by omega) hempty] at hstep
          exact absurd hstep (by simp)

theorem pipeline_inv_run {T : Type} [Inhabited T] (L : Int) (h1 : 1 ≤ L) (h2 : L < 2 ^ 31)
    (xs : List T) (sched : List Actor) :
    ∀ s s1 : Pipeline T, pipeline_inv L xs s → pipeline_run s sched = some s1 →
      pipeline_inv L xs s1 := by
  induction sched with
  | nil =>
    intro s s1 hinv hrun
    simp only [pipeline_run, Option.some.injEq] at hrun
    subst hrun
    exact hinv
  | cons a sched ih =>
    intro s s1 hinv hrun
    unfold pipeline_run at hrun
    split at hrun
    · rename_i s2 hstep
      exact ih s2 s1 (pipeline_inv_step L h1 h2 xs s s2 a hinv hstep) hrun
    · exact absurd hrun (by simp)

/-- C10: a producer sends the elements of `xs` in order on `chan_new(L)`, `L >= 1`,
then closes the channel; a consumer calls `chan_recv` until `more = false`; a blocked
call is a disabled step. In every state a schedule reaches, what the consumer has
received is an initial segment of `xs`, no call of the producer has panicked, and
once the consumer has seen `more = false` (with the value `T{}`) it has received
exactly `xs`. -/
theorem pipeline_delivers_in_order {T : Type} [Inhabited T] (xs : List T) (L : Int)
    (h1 : 1 ≤ L) (h2 : L < 2 ^ 31) :
    ∃ c0 : IChan T, chan_new L = some c0 ∧
      ∀ (sched : List Actor) (s : Pipeline T),
        pipeline_run (pipeline_new c0 xs) sched = some s →
        s.received <+: xs ∧ s.producer_failed = false ∧ s.consumer_failed = false ∧
          (∀ rr, s.last = some rr →
            rr = { res := default, more := false } ∧ s.received = xs) := by
  obtain ⟨c, hnew, hc, hcap, hl, harc, hitems, ⟨c0, hobj, ⟨hwf, _, _⟩, _, _⟩⟩ :=
    trace_inv_new (T := T) L h1 h2
  have hcc : c = c0 := by
    simp only [chan_trace_new, Chan.obj.injEq] at hobj
    exact hobj
  subst hcc
  have hinit : pipeline_inv L xs (pipeline_new c xs) :=
    ⟨c, rfl, hwf, hcap, harc, by simpa [pipeline_new] using hl,
      fun h => by simp [pipeline_new] at h,
      by simp [pipeline_new, hitems], rfl, rfl, fun rr h => by simp [pipeline_new] at h⟩
  refine ⟨c, hnew, fun sched s hrun => ?_⟩
  obtain ⟨c1, _, _, _, _, _, hclosed, hxs, hpf, hcf, hlast⟩ :=
    pipeline_inv_run L h1 h2 xs sched _ s hinit hrun
  refine ⟨⟨ring_items c1.r ++ s.todo, by rw [hxs, List.append_assoc]⟩, hpf, hcf, ?_⟩
  intro rr hrr
  obtain ⟨e1, e2, e3⟩ := hlast rr hrr
  refine ⟨e1, ?_⟩
  have hnil : ring_items c1.r = [] := by
    apply List.eq_nil_of_length_eq_zero
    rw [ring_items_length, e3]
  rw [hxs, hnil, hclosed e2]
  simp

theorem pipeline_delivers_in_order_witness :
    (∃ c0 : IChan Int, chan_new 2 = some c0 ∧
      ∀ (sched : List Actor) (s : Pipeline Int),
        pipeline_run (pipeline_new c0 [1, 2, 3, 4]) sched = some s →
        s.received <+: [1, 2, 3, 4] ∧ s.producer_failed = false ∧
          s.consumer_failed = false ∧
          (∀ rr, s.last = some rr →
            rr = { res := default, more := false } ∧ s.received = [1, 2, 3, 4])) ∧
      ((chan_new 2 : Option (IChan Int)).bind fun c0 =>
        (pipeline_run (pipeline_new c0 [1, 2, 3, 4])
          [.producer, .producer, .consumer, .consumer, .producer, .producer, .producer,
            .consumer, .consumer, .consumer]).map
          fun s => (s.received, s.last, s.producer_failed)) =
        some ([1, 2, 3, 4], some { res := 0, more := false }, false) ∧
      ((chan_new 2 : Option (IChan Int)).bind fun c0 =>
        pipeline_run (pipeline_new c0 [1, 2, 3, 4]) [.producer, .producer, .producer]) =
        none :=
  ⟨pipeline_delivers_in_order [1, 2, 3, 4] 2 (by decide) (by decide), by decide, by decide⟩


/-! ## The ring as a double-ended queue -/

theorem ring_reserve_cap_lt {T : Type} [Inhabited T] (r : Ring T) (added : Nat)
    (hcap : r.cap < 2 ^ 64) : (ring_reserve r added).cap < 2 ^ 64 := by
  have h1 : next_cap_f32 r.cap < 2 ^ 64 := Nat.mod_lt _ (by norm_num)
  have h2 : sz (r.count + added) < 2 ^ 64 := Nat.mod_lt _ (by norm_num)
  unfold ring_reserve
  split
  · exact hcap
  · show (if next_cap_f32 r.cap > sz (r.count + added) then next_cap_f32 r.cap
      else sz (r.count + added)) < 2 ^ 64
    split <;> assumption

/-- Writing the slot before `head` of a ring that has room puts the value in front of
its contents. -/
theorem ring_items_set_front {T : Type} [Inhabited T] (r : Ring T) (v : T)
    (hlen : r.ptr.length = r.cap) (hhead : r.head < r.cap) (hroom : r.count < r.cap)
    (h1 : Nat) (hh1 : h1 = if r.head ≠ 0 then r.head - 1 else r.cap - 1) :
    ring_items { r with head := h1, ptr := r.ptr.set h1 v, count := r.count + 1 } =
      v :: ring_items r := by
  have hlt : h1 < r.cap := by
    rw [hh1]
    split <;> omega
  have hstep : ∀ i, (h1 + (i + 1)) % r.cap = (r.head + i) % r.cap := by
    intro i
    by_cases h0 : r.head ≠ 0
    · rw [hh1, if_pos h0]
      congr 1
      omega
    · have hz : r.head = 0 := by omega
      rw [hh1, if_neg h0, hz]
      have : r.cap - 1 + (i + 1) = r.cap + (0 + i) := by omega
      rw [this, Nat.add_mod_left]
  unfold ring_items
  simp only [List.range_succ_eq_map, List.map_cons, List.map_map, Nat.add_zero]
  congr 1
  · simp only [List.getD_eq_getElem?_getD]
    rw [Nat.mod_eq_of_lt hlt, List.getElem?_set_self (by rw [hlen]; exact hlt)]
    rfl
  · apply List.map_congr_left
    intro i hi
    have hi : i < r.count := List.mem_range.mp hi
    simp only [Function.comp, Nat.succ_eq_add_one, List.getD_eq_getElem?_getD]
    rw [hstep i, List.getElem?_set_ne]
    intro h
    have h2 : (h1 + 0) % r.cap = (h1 + (i + 1)) % r.cap := by
      rw [hstep i, Nat.add_zero, Nat.mod_eq_of_lt hlt]
      exact h
    have := mod_add_inj (by omega) (by omega) h2
    omega

/-- The list abstraction of `ring_push_front`: it puts the value in front, also when
the buffer has to grow. -/
theorem ring_push_front_spec {T : Type} [Inhabited T] (r : Ring T) (v : T)
    (hwf : ring_wf r) :
    ring_items (ring_push_front r v) = v :: ring_items r ∧
      (ring_push_front r v).count = r.count + 1 ∧
      (ring_push_front r v).ptr.length = (ring_push_front r v).cap ∧
      (ring_push_front r v).count ≤ (ring_push_front r v).cap ∧
      (ring_push_front r v).head < (ring_push_front r v).cap := by
  have hwf0 := hwf
  obtain ⟨hlen, hcnt, hhead, hcap⟩ := hwf
  have key : ∀ r1 : Ring T, r1.ptr.length = r1.cap → r1.count < r1.cap →
      (0 < r1.cap → r1.head < r1.cap) → r1.cap < 2 ^ 64 →
      ring_items r1 = ring_items r → r1.count = r.count →
      ring_items { r1 with
          head := if r1.head ≠ 0 then r1.head - 1 else sz_sub r1.cap 1
          ptr := r1.ptr.set (if r1.head ≠ 0 then r1.head - 1 else sz_sub r1.cap 1) v
          count := sz (r1.count + 1) } = v :: ring_items r ∧
        sz (r1.count + 1) = r.count + 1 ∧
        (r1.ptr.set (if r1.head ≠ 0 then r1.head - 1 else sz_sub r1.cap 1) v).length
          = r1.cap ∧
        sz (r1.count + 1) ≤ r1.cap ∧
        (if r1.head ≠ 0 then r1.head - 1 else sz_sub r1.cap 1) < r1.cap := by
    intro r1 h1 h2 h3 h4 h6 h7
    have hh := h3 (by omega)
    have e1 : sz (r1.count + 1) = r1.count + 1 := sz_of_lt (by omega)
    have e2 : sz_sub r1.cap 1 = r1.cap - 1 := sz_sub_of_le (by omega) h4
    rw [e1, e2, ring_items_set_front r1 v h1 hh h2 _ rfl, h6]
    refine ⟨rfl, by omega, by simp [h1], by omega, ?_⟩
    split <;> omega
  by_cases hfull : r.count = r.cap
  · have hadd : r.count + (if r.cap ≠ 0 then 1 else 8) < 2 ^ 64 := by split <;> omega
    obtain ⟨s1, s2, s3, s4, s5, _⟩ := ring_reserve_spec r _ hwf0 hadd
    have s7 := ring_reserve_cap_lt r (if r.cap ≠ 0 then 1 else 8) (by omega)
    have hroom : (ring_reserve r (if r.cap ≠ 0 then 1 else 8)).count
        < (ring_reserve r (if r.cap ≠ 0 then 1 else 8)).cap := by
      rw [s2]
      have : 1 ≤ (if r.cap ≠ 0 then 1 else 8) := by split <;> omega
      omega
    obtain ⟨k1, k2, k3, k4, k5⟩ := key _ s4 hroom s5 s7 s1 s2
    unfold ring_push_front
    simp only [if_pos hfull]
    exact ⟨k1, k2, k3, k4, k5⟩
  · have hroom : r.count < r.cap := by omega
    obtain ⟨k1, k2, k3, k4, k5⟩ := key r hlen hroom hhead (by omega) rfl rfl
    unfold ring_push_front
    simp only [if_neg hfull]
    exact ⟨k1, k2, k3, k4, k5⟩


theorem ring_index_spec {T : Type} [Inhabited T] (r : Ring T) (hwf : ring_wf r) (i : Nat) :
    r.index i = (ring_items r)[i]? := by
  obtain ⟨hlen, hcnt, hhead, hcap⟩ := hwf
  unfold Ring.index ring_items
  by_cases hi : i < r.count
  · have hpos : 0 < r.cap := by omega
    have hh := hhead hpos
    have hm : (r.head + i) % r.cap < r.ptr.length := by
      rw [hlen]
      exact Nat.mod_lt _ hpos
    rw [if_pos hi, sz_of_lt (by omega), List.getElem?_map, List.getElem?_range hi]
    simp only [Option.map_some', List.getD_eq_getElem?_getD]
    rw [List.getElem?_eq_getElem hm]
    rfl
  · rw [if_neg hi, List.getElem?_eq_none]
    simp only [List.length_map, List.length_range]
    omega

theorem ring_front_spec {T : Type} [Inhabited T] (r : Ring T) (hwf : ring_wf r) :
    ring_front r = (ring_items r).head? := by
  by_cases hne : 0 < r.count
  · obtain ⟨x, r1, hf, _, hitems, _⟩ := ring_pop_front_spec r hwf hne
    rw [hf, hitems]
    rfl
  · have h0 : r.count = 0 := by omega
    have hnil : ring_items r = [] := by
      apply List.eq_nil_of_length_eq_zero
      rw [ring_items_length, h0]
    unfold ring_front
    rw [if_neg hne, hnil]
    rfl

theorem ring_back_spec {T : Type} [Inhabited T] (r : Ring T) (hwf : ring_wf r) :
    ring_back r = (ring_items r).getLast? := by
  have hidx := ring_index_spec r hwf (r.count - 1)
  obtain ⟨hlen, hcnt, hhead, hcap⟩ := hwf
  rw [List.getLast?_eq_getElem?, ring_items_length, ← hidx]
  unfold ring_back Ring.index
  by_cases hne : 0 < r.count
  · have hpos : 0 < r.cap := by omega
    have hh := hhead hpos
    rw [if_pos hne, if_pos (by omega), sz_of_lt (by omega), sz_of_lt (by omega),
      sz_sub_of_le (by omega) (by omega)]
    congr 2
    omega
  · rw [if_neg hne, if_neg (by omega)]

theorem ring_pop_back_spec {T : Type} [Inhabited T] (r : Ring T) (hwf : ring_wf r)
    (hne : 0 < r.count) :
    ∃ r1, ring_pop_back r = some r1 ∧ ring_items r1 = (ring_items r).dropLast ∧
      r1.count = r.count - 1 ∧ ring_wf r1 := by
  obtain ⟨hlen, hcnt, hhead, hcap⟩ := hwf
  refine ⟨{ r with count := r.count - 1 }, ?_, ?_, rfl, ⟨hlen, ?_, hhead, hcap⟩⟩
  · unfold ring_pop_back
    rw [if_pos hne]
  · unfold ring_items
    obtain ⟨n, hn⟩ : ∃ n, r.count = n + 1 := ⟨r.count - 1, by omega⟩
    simp only [hn, Nat.add_sub_cancel, List.range_succ, List.map_append, List.map_cons,
      List.map_nil, List.dropLast_concat]
  · show r.count - 1 ≤ r.cap
    omega

theorem ring_empty_spec {T : Type} [Inhabited T] (r : Ring T) :
    ring_empty r = true ↔ ring_items r = [] := by
  unfold ring_empty
  rw [← List.length_eq_zero, ring_items_length]
  simp

/-- C19: under the abstraction `ring_items` (the list of `ptr[(head + i) % cap]` for
`i < count`) a well-formed ring is a double-ended queue: `ring_push_back` appends,
`ring_push_front` prepends, `ring_pop_front` removes the first and `ring_pop_back` the
last element of a non-empty ring, `ring_front` and `ring_back` return the first and
the last element, `operator[]` returns the `i`-th element, and `ring_empty` holds
exactly for the empty list; a push that grows the buffer and contents that wrap
around the end of the buffer are covered. -/
theorem ring_is_deque {T : Type} [Inhabited T] (r : Ring T) (hwf : ring_wf r) :
    (∀ v, ring_items (ring_push_back r v) = ring_items r ++ [v]) ∧
      (∀ v, ring_items (ring_push_front r v) = v :: ring_items r) ∧
      (0 < r.count → ∃ r1, ring_pop_front r = some r1 ∧
        ring_items r1 = (ring_items r).tail ∧ ring_wf r1) ∧
      (0 < r.count → ∃ r1, ring_pop_back r = some r1 ∧
        ring_items r1 = (ring_items r).dropLast ∧ ring_wf r1) ∧
      ring_front r = (ring_items r).head? ∧
      ring_back r = (ring_items r).getLast? ∧
      (∀ i, i < r.count → ∃ x, r.index i = some x ∧ (ring_items r)[i]? = some x) ∧
      (ring_empty r = true ↔ ring_items r = []) := by
  refine ⟨fun v => (ring_push_back_spec r v hwf).1, fun v => (ring_push_front_spec r v hwf).1,
    fun hne => ?_, fun hne => ?_, ring_front_spec r hwf, ring_back_spec r hwf,
    fun i hi => ?_, ring_empty_spec r⟩
  · obtain ⟨x, r1, _, hp, hitems, _, _, _, hwf1⟩ := ring_pop_front_spec r hwf hne
    exact ⟨r1, hp, by rw [hitems]; rfl, hwf1⟩
  · obtain ⟨r1, hp, hitems, _, hwf1⟩ := ring_pop_back_spec r hwf hne
    exact ⟨r1, hp, hitems, hwf1⟩
  · have hidx := ring_index_spec r hwf i
    have hlt : i < (ring_items r).length := by rw [ring_items_length]; exact hi
    rw [List.getElem?_eq_getElem hlt] at hidx
    exact ⟨_, hidx, List.getElem?_eq_getElem hlt⟩

theorem ring_is_deque_witness :
    ring_wf sample_ring ∧ ring_items sample_ring = [7, 8, 9] ∧
      ring_items (ring_push_back sample_ring 1) = [7, 8, 9, 1] ∧
      ring_items (ring_push_front sample_ring 1) = [1, 7, 8, 9] ∧
      (ring_pop_front sample_ring).map ring_items = some [8, 9] ∧
      (ring_pop_back sample_ring).map ring_items = some [7, 8] ∧
      ring_items (ring_push_back (ring_new : Ring Int) 4) = [4] ∧
      ((∀ v, ring_items (ring_push_back sample_ring v) = ring_items sample_ring ++ [v]) ∧
        (∀ v, ring_items (ring_push_front sample_ring v) = v :: ring_items sample_ring) ∧
        (0 < sample_ring.count → ∃ r1, ring_pop_front sample_ring = some r1 ∧
          ring_items r1 = (ring_items sample_ring).tail ∧ ring_wf r1) ∧
        (0 < sample_ring.count → ∃ r1, ring_pop_back sample_ring = some r1 ∧
          ring_items r1 = (ring_items sample_ring).dropLast ∧ ring_wf r1) ∧
        ring_front sample_ring = (ring_items sample_ring).head? ∧
        ring_back sample_ring = (ring_items sample_ring).getLast? ∧
        (∀ i, i < sample_ring.count →
          ∃ x, sample_ring.index i = some x ∧ (ring_items sample_ring)[i]? = some x) ∧
        (ring_empty sample_ring = true ↔ ring_items sample_ring = [])) :=
  ⟨by decide, by decide, by decide, by decide, by decide, by decide, by decide,
    ring_is_deque sample_ring (by decide)⟩


/-! ## Waiting on a predicate -/

theorem block_loop_shape (NO_TIMEOUT INFINITE_TIMEOUT timeout : Timeout) (fn : Nat → Bool)
    (elapsed : Nat → Nat) (fuel : Nat) :
    ∀ (k : Nat) (events : List Block_Event),
      block_loop NO_TIMEOUT INFINITE_TIMEOUT timeout fn elapsed fuel k = some events →
      ∃ n, events = polls n ++ [.eval (fn (k + n))] ∧ (∀ i, i < n → fn (k + i) = false) ∧
        (fn (k + n) = false → timeout = NO_TIMEOUT ∨ timeout ≠ INFINITE_TIMEOUT) ∧
        (timeout = NO_TIMEOUT → n = 0) := by
  induction fuel with
  | zero =>
    intro k events h
    simp [block_loop] at h
  | succ fuel ih =>
    intro k events h
    unfold block_loop at h
    by_cases hfn : fn k = false
    · rw [if_pos hfn] at h
      by_cases hno : timeout = NO_TIMEOUT
      · rw [if_pos hno] at h
        simp only [Option.some.injEq] at h
        subst h
        exact ⟨0, by simp [polls, hfn], fun i hi => by omega, fun _ => Or.inl hno,
          fun _ => rfl⟩
      · rw [if_neg hno] at h
        by_cases hout : timeout ≠ INFINITE_TIMEOUT ∧ elapsed k ≥ timeout.milliseconds
        · rw [if_pos hout] at h
          simp only [Option.some.injEq] at h
          subst h
          exact ⟨0, by simp [polls, hfn], fun i hi => by omega, fun _ => Or.inr hout.1,
            fun h => absurd h hno⟩
        · rw [if_neg hout] at h
          split at h
          · rename_i rest hrest
            simp only [Option.some.injEq] at h
            subst h
            obtain ⟨n, e1, e2, e3, _⟩ := ih (k + 1) rest hrest
            have hk : k + 1 + n = k + (n + 1) := by omega
            rw [hk] at e1 e3
            refine ⟨n + 1, by rw [e1]; rfl, fun i hi => ?_, e3, fun h => absurd h hno⟩
            cases i with
            | zero => exact hfn
            | succ i =>
              have := e2 i (by omega)
              have hk2 : k + 1 + i = k + (i + 1) := by omega
              rw [hk2] at this
              exact this
          · exact absurd h (by simp)
    · rw [if_neg hfn] at h
      simp only [Option.some.injEq] at h
      subst h
      have ht : fn k = true := by simpa using hfn
      exact ⟨0, by simp [polls, ht], fun i hi => by omega, fun h => by simp [ht] at h,
        fun _ => rfl⟩

theorem block_loop_returns (NO_TIMEOUT INFINITE_TIMEOUT timeout : Timeout) (fn : Nat → Bool)
    (elapsed : Nat → Nat) (n : Nat) :
    ∀ (k fuel : Nat), (∀ i, i < n → fn (k + i) = false) → fn (k + n) = true → n < fuel →
      ∃ m, m ≤ n ∧
        block_loop NO_TIMEOUT INFINITE_TIMEOUT timeout fn elapsed fuel k =
          some (polls m ++ [.eval (fn (k + m))]) ∧
        (timeout = INFINITE_TIMEOUT → NO_TIMEOUT ≠ INFINITE_TIMEOUT → m = n) := by
  induction n with
  | zero =>
    intro k fuel _ htrue hfuel
    obtain ⟨fuel, rfl⟩ : ∃ f, fuel = f + 1 := ⟨fuel - 1, by omega⟩
    refine ⟨0, Nat.le_refl _, ?_, fun _ _ => rfl⟩
    have ht : fn k = true := by simpa using htrue
    unfold block_loop
    simp [ht, polls]
  | succ n ih =>
    intro k fuel hfalse htrue hfuel
    obtain ⟨fuel, rfl⟩ : ∃ f, fuel = f + 1 := ⟨fuel - 1, by omega⟩
    have hk0 : fn k = false := by simpa using hfalse 0 (by omega)
    unfold block_loop
    rw [if_pos hk0]
    by_cases hno : timeout = NO_TIMEOUT
    · rw [if_pos hno]
      refine ⟨0, by omega, by simp [polls, hk0], fun h1 h2 => ?_⟩
      exact absurd (hno.symm.trans h1) h2
    · rw [if_neg hno]
      by_cases hout : timeout ≠ INFINITE_TIMEOUT ∧ elapsed k ≥ timeout.milliseconds
      · rw [if_pos hout]
        exact ⟨0, by omega, by simp [polls, hk0], fun h1 _ => absurd h1 hout.1⟩
      · rw [if_neg hout]
        obtain ⟨m, hm, hrun, hinf⟩ := ih (k + 1) fuel
          (fun i hi => by
            have := hfalse (i + 1) (by omega)
            have hk2 : k + 1 + i = k + (i + 1) := by omega
            rw [hk2]
            exact this)
          (by
            have hk2 : k + 1 + n = k + (n + 1) := by omega
            rw [hk2]
            exact htrue)
          (by omega)
        have hk3 : k + 1 + m = k + (m + 1) := by omega
        rw [hk3] at hrun
        refine ⟨m + 1, by omega, ?_, fun h1 h2 => by rw [hinf h1 h2]⟩
        rw [hrun]
        rfl

/-- C17: `worker_block_on_with_timeout` with `NO_TIMEOUT` evaluates `fn` once, does not
sleep and returns, whatever the result; with `INFINITE_TIMEOUT` it returns only
after an evaluation that yields true, all evaluations before it having been false,
and it does return once `fn` yields true; with any timeout every evaluation before
the last one was false, so the call returns at the first evaluation that yields true
(or earlier). -/
theorem block_on_timeout_semantics (NO_TIMEOUT INFINITE_TIMEOUT : Timeout)
    (hne : NO_TIMEOUT ≠ INFINITE_TIMEOUT) (fn : Nat → Bool) (elapsed : Nat → Nat) :
    (∀ fuel, worker_block_on_with_timeout NO_TIMEOUT INFINITE_TIMEOUT NO_TIMEOUT fn elapsed
        (fuel + 1) = some [.block_ahead, .eval (fn 0), .block_clear]) ∧
      (∀ fuel events,
        worker_block_on_with_timeout NO_TIMEOUT INFINITE_TIMEOUT INFINITE_TIMEOUT fn elapsed
          fuel = some events →
        ∃ n, events = .block_ahead :: polls n ++ [.eval true, .block_clear] ∧
          fn n = true ∧ ∀ i, i < n → fn i = false) ∧
      (∀ n, fn n = true → (∀ i, i < n → fn i = false) → ∀ fuel, n < fuel →
        worker_block_on_with_timeout NO_TIMEOUT INFINITE_TIMEOUT INFINITE_TIMEOUT fn elapsed
          fuel = some (.block_ahead :: polls n ++ [.eval true, .block_clear])) ∧
      (∀ timeout fuel events,
        worker_block_on_with_timeout NO_TIMEOUT INFINITE_TIMEOUT timeout fn elapsed fuel
          = some events →
        ∃ n, events = .block_ahead :: polls n ++ [.eval (fn n), .block_clear] ∧
          ∀ i, i < n → fn i = false) ∧
      (∀ timeout n, fn n = true → (∀ i, i < n → fn i = false) → ∀ fuel, n < fuel →
        ∃ m, m ≤ n ∧
          worker_block_on_with_timeout NO_TIMEOUT INFINITE_TIMEOUT timeout fn elapsed fuel
            = some (.block_ahead :: polls m ++ [.eval (fn m), .block_clear])) := by
  have shape : ∀ timeout fuel events,
      worker_block_on_with_timeout NO_TIMEOUT INFINITE_TIMEOUT timeout fn elapsed fuel
        = some events →
      ∃ n, events = .block_ahead :: polls n ++ [.eval (fn n), .block_clear] ∧
        (∀ i, i < n → fn i = false) ∧
        (fn n = false → timeout = NO_TIMEOUT ∨ timeout ≠ INFINITE_TIMEOUT) := by
    intro timeout fuel events h
    unfold worker_block_on_with_timeout at h
    split at h
    · rename_i evs hevs
      simp only [Option.some.injEq] at h
      subst h
      obtain ⟨n, e1, e2, e3, _⟩ := block_loop_shape _ _ _ fn elapsed fuel 0 evs hevs
      simp only [Nat.zero_add] at e1 e2 e3
      exact ⟨n, by rw [e1]; simp, e2, e3⟩
    · exact absurd h (by simp)
  have returns : ∀ timeout n, fn n = true → (∀ i, i < n → fn i = false) → ∀ fuel,
      n < fuel → ∃ m, m ≤ n ∧
        worker_block_on_with_timeout NO_TIMEOUT INFINITE_TIMEOUT timeout fn elapsed fuel
          = some (.block_ahead :: polls m ++ [.eval (fn m), .block_clear]) ∧
        (timeout = INFINITE_TIMEOUT → m = n) := by
    intro timeout n htrue hfalse fuel hfuel
    obtain ⟨m, hm, hrun, hinf⟩ := block_loop_returns NO_TIMEOUT INFINITE_TIMEOUT timeout fn
      elapsed n 0 fuel (by simpa using hfalse) (by simpa using htrue) hfuel
    simp only [Nat.zero_add] at hrun
    refine ⟨m, hm, ?_, fun h => hinf h hne⟩
    unfold worker_block_on_with_timeout
    rw [hrun]
    simp
  refine ⟨fun fuel => ?_, fun fuel events h => ?_, fun n htrue hfalse fuel hfuel => ?_,
    fun timeout fuel events h => ?_, fun timeout n htrue hfalse fuel hfuel => ?_⟩
  · unfold worker_block_on_with_timeout block_loop
    by_cases hfn : fn 0 = false
    · simp [hfn]
    · have ht : fn 0 = true := by simpa using hfn
      simp [ht]
  · obtain ⟨n, e1, e2, e3⟩ := shape _ fuel events h
    have ht : fn n = true := by
      by_cases hfn : fn n = false
      · rcases e3 hfn with h1 | h1
        · exact absurd h1.symm hne
        · exact absurd rfl h1
      · simpa using hfn
    rw [ht] at e1
    exact ⟨n, e1, ht, e2⟩
  · obtain ⟨m, _, hrun, hinf⟩ := returns INFINITE_TIMEOUT n htrue hfalse fuel hfuel
    have hmn := hinf rfl
    subst hmn
    rw [hrun, htrue]
  · obtain ⟨n, e1, e2, _⟩ := shape timeout fuel events h
    exact ⟨n, e1, e2⟩
  · obtain ⟨m, hm, hrun, _⟩ := returns timeout n htrue hfalse fuel hfuel
    exact ⟨m, hm, hrun⟩


theorem block_on_timeout_semantics_witness :
    (⟨0⟩ : Timeout) ≠ ⟨2 ^ 64 - 1⟩ ∧
      (∀ fuel, worker_block_on_with_timeout ⟨0⟩ ⟨2 ^ 64 - 1⟩ ⟨0⟩ (fun k => decide (3 ≤ k))
          (fun k => k) (fuel + 1) =
        some [.block_ahead, .eval ((fun k => decide (3 ≤ k)) 0), .block_clear]) ∧
      worker_block_on_with_timeout ⟨0⟩ ⟨2 ^ 64 - 1⟩ ⟨0⟩ (fun k => decide (3 ≤ k))
          (fun k => k) 1 = some [.block_ahead, .eval false, .block_clear] ∧
      worker_block_on_with_timeout ⟨0⟩ ⟨2 ^ 64 - 1⟩ ⟨2 ^ 64 - 1⟩ (fun k => decide (3 ≤ k))
          (fun k => k) 4 =
        some [.block_ahead, .eval false, .sleep, .eval false, .sleep, .eval false, .sleep,
          .eval true, .block_clear] ∧
      worker_block_on_with_timeout ⟨0⟩ ⟨2 ^ 64 - 1⟩ ⟨1⟩ (fun k => decide (3 ≤ k))
          (fun k => k) 4 =
        some [.block_ahead, .eval false, .sleep, .eval false, .block_clear] :=
  ⟨by decide,
    (block_on_timeout_semantics ⟨0⟩ ⟨2 ^ 64 - 1⟩ (by decide) (fun k => decide (3 ≤ k))
      (fun k => k)).1, by decide, by decide, by decide⟩

/-! ## Routing of `go` -/

/-- C18: `go(fn)` hands the task to `fabric_task_do` of the local Fabric when
`fabric_local()` is not null, whatever `worker_local()` is; to `worker_task_do` of the
local Worker when `fabric_local()` is null and `worker_local()` is not; and panics,
submitting nothing, when both are null. Every context gives exactly one of the
three. -/
theorem go_routes {F W : Type} :
    (∀ (f : F) (w : Option W), go (some f) w = .fabric_task_do f) ∧
      (∀ w : W, go (none : Option F) (some w) = .worker_task_do w) ∧
      go (none : Option F) (none : Option W) = .panic "can't find any local fabric or worker" ∧
      (∀ (fl : Option F) (wl : Option W),
        ((∃ f, fl = some f ∧ go fl wl = .fabric_task_do f) ∧
            (∀ w, go fl wl ≠ .worker_task_do w) ∧ ∀ msg, go fl wl ≠ .panic msg) ∨
          ((∃ w, fl = none ∧ wl = some w ∧ go fl wl = .worker_task_do w) ∧
            (∀ f, go fl wl ≠ .fabric_task_do f) ∧ ∀ msg, go fl wl ≠ .panic msg) ∨
          ((fl = none ∧ wl = none ∧
              go fl wl = .panic "can't find any local fabric or worker") ∧
            (∀ f, go fl wl ≠ .fabric_task_do f) ∧ ∀ w, go fl wl ≠ .worker_task_do w)) := by
  refine ⟨fun _ _ => rfl, fun _ => rfl, rfl, fun fl wl => ?_⟩
  cases fl with
  | some f =>
    exact Or.inl ⟨⟨f, rfl, rfl⟩, fun w h => by simp [go] at h, fun m h => by simp [go] at h⟩
  | none =>
    cases wl with
    | some w =>
      exact Or.inr (Or.inl ⟨⟨w, rfl, rfl, rfl⟩, fun f h => by simp [go] at h,
        fun m h => by simp [go] at h⟩)
    | none =>
      exact Or.inr (Or.inr ⟨⟨rfl, rfl, rfl⟩, fun f h => by simp [go] at h,
        fun w h => by simp [go] at h⟩)

/-! ## Range-for over a channel -/

theorem chan_iterator_ne_end {T : Type} [Inhabited T] (addr : Nat) (rr : Recv_Result T) :
    (Chan_Iterator.ne { chan := addr, res := rr } (end_ addr) = true ↔ rr.more = true) := by
  unfold Chan_Iterator.ne Chan_Iterator.eq end_
  cases rr.more <;> simp

theorem range_for_from_drain {T : Type} [Inhabited T] (addr : Nat) (n : Nat) :
    ∀ (c : IChan T) (x : T) (visited : List T) (fuel : Nat), ring_wf c.r →
      is_int32 c.atomic_arc → c.atomic_arc ≠ 0 → c.atomic_limit = 0 → c.r.count = n →
      n + 2 ≤ fuel →
      ∃ c1, range_for_from (end_ addr) fuel { chan := addr, res := { res := x, more := true } }
          (.obj c) visited =
            some (visited ++ x :: ring_items c.r, .finished (.obj c1)) ∧
        c1.r.count = 0 ∧ c1.atomic_limit = 0 ∧ c1.atomic_arc = c.atomic_arc := by
  induction n with
  | zero =>
    intro c x visited fuel hwf harc hlive hclosed hcount hfuel
    obtain ⟨fuel, rfl⟩ : ∃ f, fuel = f + 2 := ⟨fuel - 2, by omega⟩
    have hnil : ring_items c.r = [] := by
      apply List.eq_nil_of_length_eq_zero
      rw [ring_items_length, hcount]
    refine ⟨c, ?_, hcount, hclosed, rfl⟩
    unfold range_for_from
    rw [if_pos ((chan_iterator_ne_end addr _).mpr rfl)]
    simp only [Chan_Iterator.next, chan_recv_drained c harc hlive hclosed hcount,
      Chan_Iterator.deref]
    unfold range_for_from
    rw [if_neg (by rw [chan_iterator_ne_end]; simp), hnil]
  | succ n ih =>
    intro c x visited fuel hwf harc hlive hclosed hcount hfuel
    obtain ⟨fuel, rfl⟩ : ∃ f, fuel = f + 1 := ⟨fuel - 1, by omega⟩
    obtain ⟨y, r1, hitems, hc1, _, hwf1, _, hrecv⟩ :=
      chan_recv_nonempty c hwf harc hlive (by omega)
    obtain ⟨c1, hrun, h1, h2, h3⟩ := ih { c with r := r1 } y (visited ++ [x]) fuel hwf1 harc
      hlive hclosed (by show r1.count = n; omega) (by omega)
    refine ⟨c1, ?_, h1, h2, h3⟩
    unfold range_for_from
    rw [if_pos ((chan_iterator_ne_end addr _).mpr rfl)]
    simp only [Chan_Iterator.next, hrecv, Chan_Iterator.deref]
    rw [hrun, hitems]
    simp

/-- C20: a range-for over a closed channel whose ring holds `xs` runs its body on
exactly the elements of `xs`, in order, then stops and leaves the ring empty (enough
fuel is `count + 1` loop tests). The loop condition `it != end` is true exactly when
the iterator's last `chan_recv` returned `more = true`; the end sentinel has
`more = false`. -/
theorem range_for_closed {T : Type} [Inhabited T] (addr : Nat) (c : IChan T)
    (hwf : ring_wf c.r) (harc : is_int32 c.atomic_arc) (hlive : c.atomic_arc ≠ 0)
    (hclosed : chan_closed c = true) :
    (∀ fuel, c.r.count + 1 ≤ fuel →
        ∃ c1, range_for fuel addr c = some (ring_items c.r, .finished (.obj c1)) ∧
          ring_items c1.r = [] ∧ c1.r.count = 0 ∧ chan_closed c1 = true) ∧
      (∀ rr : Recv_Result T,
        Chan_Iterator.ne { chan := addr, res := rr } (end_ addr) = true ↔ rr.more = true) ∧
      (end_ addr : Chan_Iterator T).res.more = false := by
  have h0 : c.atomic_limit = 0 := by simpa [chan_closed] using hclosed
  refine ⟨fun fuel hfuel => ?_, fun rr => chan_iterator_ne_end addr rr, rfl⟩
  by_cases hne : 0 < c.r.count
  · obtain ⟨x, r1, hitems, hc1, _, hwf1, _, hrecv⟩ := chan_recv_nonempty c hwf harc hlive hne
    obtain ⟨c1, hrun, h1, h2, _⟩ := range_for_from_drain addr r1.count { c with r := r1 } x []
      fuel hwf1 harc hlive h0 rfl (by omega)
    refine ⟨c1, ?_, ?_, h1, by simp [chan_closed, h2]⟩
    · unfold range_for begin
      simp only [hrecv]
      rw [hrun, hitems]
      rfl
    · apply List.eq_nil_of_length_eq_zero
      rw [ring_items_length, h1]
  · have hempty : c.r.count = 0 := by omega
    have hnil : ring_items c.r = [] := by
      apply List.eq_nil_of_length_eq_zero
      rw [ring_items_length, hempty]
    obtain ⟨fuel, rfl⟩ : ∃ f, fuel = f + 1 := ⟨fuel - 1, by omega⟩
    refine ⟨c, ?_, hnil, hempty, hclosed⟩
    unfold range_for begin
    simp only [chan_recv_drained c harc hlive h0 hempty]
    unfold range_for_from
    rw [if_neg (by rw [chan_iterator_ne_end]; simp), hnil]

theorem range_for_closed_witness :
    ((∀ fuel, sample_closed_full.r.count + 1 ≤ fuel →
        ∃ c1, range_for fuel 0 sample_closed_full =
            some (ring_items sample_closed_full.r, .finished (.obj c1)) ∧
          ring_items c1.r = [] ∧ c1.r.count = 0 ∧ chan_closed c1 = true)) ∧
      ring_items sample_closed_full.r = [7, 8, 9] ∧
      (range_for 4 0 sample_closed_full).map Prod.fst = some [7, 8, 9] ∧
      range_for 3 0 sample_closed_full = none :=
  ⟨(range_for_closed 0 sample_closed_full (by decide) (by decide) (by decide)
      (by decide)).1, by decide, by decide, by decide⟩


/-! ## Lemmas on nested loops -/

theorem length_flatMap_range_const {α : Type} (n k : Nat) (f : Nat → List α)
    (h : ∀ i, i < n → (f i).length = k) : ((List.range n).flatMap f).length = n * k := by
  rw [List.length_flatMap]
  have : List.map (List.length ∘ f) (List.range n) = List.replicate n k := by
    rw [List.eq_replicate_iff]
    refine ⟨by simp, fun b hb => ?_⟩
    obtain ⟨i, hi, rfl⟩ := List.mem_map.mp hb
    exact h i (List.mem_range.mp hi)
  rw [this, List.sum_const_nat]

theorem pairwise_flatMap_range {α : Type} {R : α → α → Prop} (n : Nat) (f : Nat → List α)
    (h1 : ∀ i, i < n → List.Pairwise R (f i))
    (h2 : ∀ i j, i < j → j < n → ∀ a ∈ f i, ∀ b ∈ f j, R a b) :
    List.Pairwise R ((List.range n).flatMap f) := by
  rw [List.pairwise_flatMap]
  refine ⟨fun i hi => h1 i (List.mem_range.mp hi), ?_⟩
  exact List.Pairwise.imp_of_mem
    (fun {i j} _ hj hij a ha b hb => h2 i j hij (List.mem_range.mp hj) a ha b hb)
    (List.pairwise_lt_range n)

theorem mem_loop_zyx {α : Type} (d : Compute_Dims) (body : Nat → Nat → Nat → List α) (a : α) :
    a ∈ loop_zyx d body ↔ ∃ x y z, x < d.x ∧ y < d.y ∧ z < d.z ∧ a ∈ body x y z := by
  unfold loop_zyx
  simp only [List.mem_flatMap, List.mem_range]
  constructor
  · rintro ⟨z, hz, y, hy, x, hx, ha⟩
    exact ⟨x, y, z, hx, hy, hz, ha⟩
  · rintro ⟨x, y, z, hx, hy, hz, ha⟩
    exact ⟨z, hz, y, hy, x, hx, ha⟩

theorem length_loop_zyx {α : Type} (d : Compute_Dims) (body : Nat → Nat → Nat → List α)
    (k : Nat) (h : ∀ x y z, x < d.x → y < d.y → z < d.z → (body x y z).length = k) :
    (loop_zyx d body).length = d.x * d.y * d.z * k := by
  unfold loop_zyx
  rw [length_flatMap_range_const d.z (d.y * (d.x * k))]
  · ring
  · intro z hz
    rw [length_flatMap_range_const d.y (d.x * k)]
    intro y hy
    rw [length_flatMap_range_const d.x k]
    intro x hx
    exact h x y z hx hy hz

theorem pairwise_loop_zyx {α : Type} {R : α → α → Prop} (d : Compute_Dims)
    (body : Nat → Nat → Nat → List α)
    (h1 : ∀ x y z, x < d.x → y < d.y → z < d.z → List.Pairwise R (body x y z))
    (h2 : ∀ x y z x1 y1 z1, x < d.x → y < d.y → z < d.z → x1 < d.x → y1 < d.y → z1 < d.z →
      (z < z1 ∨ (z = z1 ∧ (y < y1 ∨ (y = y1 ∧ x < x1)))) →
      ∀ a ∈ body x y z, ∀ b ∈ body x1 y1 z1, R a b) :
    List.Pairwise R (loop_zyx d body) := by
  unfold loop_zyx
  apply pairwise_flatMap_range
  · intro z hz
    apply pairwise_flatMap_range
    · intro y hy
      apply pairwise_flatMap_range
      · intro x hx
        exact h1 x y z hx hy hz
      · intro x x1 hlt hx1 a ha b hb
        exact h2 x y z x1 y z (by omega) hy hz hx1 hy hz
          (Or.inr ⟨rfl, Or.inr ⟨rfl, hlt⟩⟩) a ha b hb
    · intro y y1 hlt hy1 a ha b hb
      obtain ⟨x, hx, ha⟩ := List.mem_flatMap.mp ha
      obtain ⟨x1, hx1, hb⟩ := List.mem_flatMap.mp hb
      exact h2 x y z x1 y1 z (List.mem_range.mp hx) (by omega) hz (List.mem_range.mp hx1)
        hy1 hz (Or.inr ⟨rfl, Or.inl hlt⟩) a ha b hb
  · intro z z1 hlt hz1 a ha b hb
    obtain ⟨y, hy, ha⟩ := List.mem_flatMap.mp ha
    obtain ⟨x, hx, ha⟩ := List.mem_flatMap.mp ha
    obtain ⟨y1, hy1, hb⟩ := List.mem_flatMap.mp hb
    obtain ⟨x1, hx1, hb⟩ := List.mem_flatMap.mp hb
    exact h2 x y z x1 y1 z1 (List.mem_range.mp hx) (List.mem_range.mp hy) (by omega)
      (List.mem_range.mp hx1) (List.mem_range.mp hy1) hz1 (Or.inl hlt) a ha b hb

theorem filter_loop_zyx {α : Type} (p : α → Bool) (d : Compute_Dims)
    (body : Nat → Nat → Nat → List α) :
    (loop_zyx d body).filter p = loop_zyx d fun x y z => (body x y z).filter p := by
  unfold loop_zyx
  simp only [List.filter_flatMap]

theorem single_threaded_compute_eq (global local_ : Compute_Dims) :
    _single_threaded_compute global local_ =
      loop_zyx global fun gx gy gz => loop_zyx local_ fun lx ly lz =>
        [compute_args global local_ gx gy gz lx ly lz] := rfl

theorem single_threaded_compute_sized_eq_filter (global size local_ : Compute_Dims) :
    _single_threaded_compute_sized global size local_ =
      (_single_threaded_compute global local_).filter
        fun a => decide (dims_lt a.global_invocation_id size) := by
  rw [single_threaded_compute_eq]
  unfold _single_threaded_compute_sized loop_zyx
  simp only [List.filter_flatMap, List.filter_cons, List.filter_nil, dims_lt, ge_iff_le]
  congr 1; funext gz; congr 1; funext gy; congr 1; funext gx
  congr 1; funext lz; congr 1; funext ly; congr 1; funext lx
  by_cases h : (compute_args global local_ gx gy gz lx ly lz).global_invocation_id.x < size.x ∧
      (compute_args global local_ gx gy gz lx ly lz).global_invocation_id.y < size.y ∧
      (compute_args global local_ gx gy gz lx ly lz).global_invocation_id.z < size.z
  · rw [if_neg (by omega)]
    simp [h]
  · rw [if_pos (by omega)]
    simp [h]

theorem mem_single_threaded_compute (global local_ : Compute_Dims) (a : Compute_Args) :
    a ∈ _single_threaded_compute global local_ ↔
      ∃ gx gy gz lx ly lz, gx < global.x ∧ gy < global.y ∧ gz < global.z ∧
        lx < local_.x ∧ ly < local_.y ∧ lz < local_.z ∧
        a = compute_args global local_ gx gy gz lx ly lz := by
  rw [single_threaded_compute_eq, mem_loop_zyx]
  constructor
  · rintro ⟨gx, gy, gz, hx, hy, hz, ha⟩
    obtain ⟨lx, ly, lz, h1, h2, h3, ha⟩ := (mem_loop_zyx _ _ _).mp ha
    exact ⟨gx, gy, gz, lx, ly, lz, hx, hy, hz, h1, h2, h3, List.mem_singleton.mp ha⟩
  · rintro ⟨gx, gy, gz, lx, ly, lz, hx, hy, hz, h1, h2, h3, ha⟩
    exact ⟨gx, gy, gz, hx, hy, hz,
      (mem_loop_zyx _ _ _).mpr ⟨lx, ly, lz, h1, h2, h3, List.mem_singleton.mpr ha⟩⟩


/-! ## Lemmas on workgroup arithmetic -/

theorem mul_add_lt_mul {g G l L : Nat} (hg : g < G) (hl : l < L) : g * L + l < G * L := by
  have h1 : (g + 1) * L ≤ G * L := Nat.mul_le_mul_right L hg
  have h2 : (g + 1) * L = g * L + L := by ring
  omega

theorem gid_exact {g G l L : Nat} (hg : g < G) (hl : l < L) (ho : G * L < 2 ^ 64) :
    sz (sz (g * L) + l) = g * L + l := by
  have h := mul_add_lt_mul hg hl
  have e1 : sz (g * L) = g * L := sz_of_lt (by omega)
  rw [e1, sz_of_lt (by omega)]

theorem mul_add_inj {g g1 l l1 L : Nat} (hl : l < L) (hl1 : l1 < L)
    (h : g * L + l = g1 * L + l1) : g = g1 ∧ l = l1 := by
  have hL : 0 < L := by omega
  have d1 : (g * L + l) / L = g := by
    rw [Nat.mul_comm, Nat.mul_add_div hL, Nat.div_eq_of_lt hl, Nat.add_zero]
  have d2 : (g1 * L + l1) / L = g1 := by
    rw [Nat.mul_comm, Nat.mul_add_div hL, Nat.div_eq_of_lt hl1, Nat.add_zero]
  have hg : g = g1 := by rw [← d1, ← d2, h]
  subst hg
  exact ⟨rfl, by omega⟩

theorem workgroup_count_spec (total local_ : Nat) (h1 : 1 ≤ total) (h2 : 1 ≤ local_)
    (h3 : total < 2 ^ 64) :
    1 + (total - 1) / local_ < 2 ^ 64 ∧
      workgroup_count total local_ = 1 + (total - 1) / local_ ∧
      total ≤ workgroup_count total local_ * local_ ∧
      workgroup_count total local_ * local_ < total + local_ ∧
      (∀ g, total ≤ g * local_ → workgroup_count total local_ ≤ g) ∧
      workgroup_count total local_ = ⌈(total : ℚ) / (local_ : ℚ)⌉₊ := by
  have hdiv : (total - 1) / local_ ≤ total - 1 := Nat.div_le_self _ _
  have hlt : 1 + (total - 1) / local_ < 2 ^ 64 := by omega
  have hwc : workgroup_count total local_ = 1 + (total - 1) / local_ := by
    unfold workgroup_count
    rw [sz_sub_of_le h1 h3, sz_of_lt hlt]
  have hlow : (total - 1) / local_ * local_ ≤ total - 1 := Nat.div_mul_le_self _ _
  have hup : total - 1 < ((total - 1) / local_ + 1) * local_ := by
    have := Nat.lt_succ_self ((total - 1) / local_)
    exact (Nat.div_lt_iff_lt_mul (by omega)).mp this
  have hexp : (1 + (total - 1) / local_) * local_ = (total - 1) / local_ * local_ + local_ := by
    ring
  have hexp2 : ((total - 1) / local_ + 1) * local_ = (total - 1) / local_ * local_ + local_ := by
    ring
  have hmin : ∀ g, total ≤ g * local_ → 1 + (total - 1) / local_ ≤ g := by
    intro g hg
    have : (total - 1) / local_ < g := (Nat.div_lt_iff_lt_mul (by omega)).mpr (by omega)
    omega
  have hq : (0 : ℚ) < (local_ : ℚ) := by exact_mod_cast h2
  refine ⟨hlt, hwc, by rw [hwc, hexp]; omega, by rw [hwc, hexp]; omega,
    fun g hg => by rw [hwc]; exact hmin g hg, ?_⟩
  rw [hwc]
  apply le_antisymm
  · have : (total - 1) / local_ < ⌈(total : ℚ) / (local_ : ℚ)⌉₊ := by
      rw [Nat.lt_ceil, lt_div_iff₀ hq]
      have : (total - 1) / local_ * local_ < total := by omega
      exact_mod_cast this
    omega
  · rw [Nat.ceil_le, div_le_iff₀ hq]
    have : total ≤ (1 + (total - 1) / local_) * local_ := by rw [hexp]; omega
    exact_mod_cast this

theorem zyx_lt_of_lex (a b : Compute_Dims) (tie : Prop)
    (h : a.z < b.z ∨ (a.z = b.z ∧ (a.y < b.y ∨ (a.y = b.y ∧ a.x < b.x)))) :
    zyx_lt a b tie := by
  unfold zyx_lt
  rcases h with h | ⟨h1, h | ⟨h2, h3⟩⟩
  · exact Or.inl h
  · exact Or.inr ⟨h1, Or.inl h⟩
  · exact Or.inr ⟨h1, Or.inr ⟨h2, Or.inl h3⟩⟩

theorem zyx_lt_self (a : Compute_Dims) (tie : Prop) : zyx_lt a a tie ↔ tie := by
  unfold zyx_lt
  constructor
  · rintro (h | ⟨_, h | ⟨_, h | ⟨_, h⟩⟩⟩)
    · omega
    · omega
    · omega
    · exact h
  · intro h
    exact Or.inr ⟨rfl, Or.inr ⟨rfl, Or.inr ⟨rfl, h⟩⟩⟩

theorem invocation_lt_irrefl (a : Compute_Args) : ¬ invocation_lt a a := by
  unfold invocation_lt
  rw [zyx_lt_self, zyx_lt_self]
  exact fun h => h

/-- The invocations of `_single_threaded_compute` come in strictly increasing order
of their key. -/
theorem single_threaded_compute_sorted (global local_ : Compute_Dims) :
    List.Pairwise invocation_lt (_single_threaded_compute global local_) := by
  rw [single_threaded_compute_eq]
  apply pairwise_loop_zyx
  · intro gx gy gz _ _ _
    apply pairwise_loop_zyx
    · intro lx ly lz _ _ _
      exact List.pairwise_singleton _ _
    · intro lx ly lz lx1 ly1 lz1 _ _ _ _ _ _ hlex a ha b hb
      rw [List.mem_singleton] at ha hb
      subst ha
      subst hb
      unfold invocation_lt
      exact (zyx_lt_self _ _).mpr (zyx_lt_of_lex _ _ _ hlex)
  · intro gx gy gz gx1 gy1 gz1 _ _ _ _ _ _ hlex a ha b hb
    obtain ⟨lx, ly, lz, _, _, _, ha⟩ := (mem_loop_zyx _ _ _).mp ha
    obtain ⟨lx1, ly1, lz1, _, _, _, hb⟩ := (mem_loop_zyx _ _ _).mp hb
    rw [List.mem_singleton] at ha hb
    subst ha
    subst hb
    unfold invocation_lt
    exact zyx_lt_of_lex _ _ _ hlex


/-! ## Coverage of `compute` -/

theorem compute_args_consistent (global local_ : Compute_Dims)
    (gx gy gz lx ly lz : Nat) (hx : gx < global.x) (hy : gy < global.y) (hz : gz < global.z)
    (h1 : lx < local_.x) (h2 : ly < local_.y) (h3 : lz < local_.z) :
    args_consistent global local_ (compute_args global local_ gx gy gz lx ly lz) ∧
      (dims_fit global local_ →
        args_exact (compute_args global local_ gx gy gz lx ly lz)) := by
  refine ⟨⟨rfl, rfl, ⟨hx, hy, hz⟩, ⟨h1, h2, h3⟩, rfl, rfl, rfl⟩, fun hfit => ?_⟩
  exact ⟨gid_exact hx h1 hfit.1, gid_exact hy h2 hfit.2.1, gid_exact hz h3 hfit.2.2⟩

theorem compute_ids_nodup (global local_ : Compute_Dims) (hfit : dims_fit global local_) :
    (invocation_ids (_single_threaded_compute global local_)).Nodup := by
  unfold invocation_ids List.Nodup
  rw [List.pairwise_map]
  apply List.Pairwise.imp_of_mem _ (single_threaded_compute_sorted global local_)
  intro a b ha hb hlt heq
  obtain ⟨gx, gy, gz, lx, ly, lz, hx, hy, hz, h1, h2, h3, rfl⟩ :=
    (mem_single_threaded_compute _ _ _).mp ha
  obtain ⟨gx1, gy1, gz1, lx1, ly1, lz1, hx1, hy1, hz1, k1, k2, k3, rfl⟩ :=
    (mem_single_threaded_compute _ _ _).mp hb
  simp only [compute_args, Compute_Dims.mk.injEq] at heq
  obtain ⟨ex, ey, ez⟩ := heq
  rw [gid_exact hx h1 hfit.1, gid_exact hx1 k1 hfit.1] at ex
  rw [gid_exact hy h2 hfit.2.1, gid_exact hy1 k2 hfit.2.1] at ey
  rw [gid_exact hz h3 hfit.2.2, gid_exact hz1 k3 hfit.2.2] at ez
  obtain ⟨rfl, rfl⟩ := mul_add_inj h1 k1 ex
  obtain ⟨rfl, rfl⟩ := mul_add_inj h2 k2 ey
  obtain ⟨rfl, rfl⟩ := mul_add_inj h3 k3 ez
  exact invocation_lt_irrefl _ hlt

theorem mem_compute_ids (global local_ : Compute_Dims) (hfit : dims_fit global local_)
    (p : Compute_Dims) :
    p ∈ invocation_ids (_single_threaded_compute global local_) ↔
      dims_lt p { x := global.x * local_.x, y := global.y * local_.y,
                  z := global.z * local_.z } := by
  unfold invocation_ids
  rw [List.mem_map]
  constructor
  · rintro ⟨a, ha, rfl⟩
    obtain ⟨gx, gy, gz, lx, ly, lz, hx, hy, hz, h1, h2, h3, rfl⟩ :=
      (mem_single_threaded_compute _ _ _).mp ha
    refine ⟨?_, ?_, ?_⟩
    · show sz (sz (gx * local_.x) + lx) < global.x * local_.x
      rw [gid_exact hx h1 hfit.1]
      exact mul_add_lt_mul hx h1
    · show sz (sz (gy * local_.y) + ly) < global.y * local_.y
      rw [gid_exact hy h2 hfit.2.1]
      exact mul_add_lt_mul hy h2
    · show sz (sz (gz * local_.z) + lz) < global.z * local_.z
      rw [gid_exact hz h3 hfit.2.2]
      exact mul_add_lt_mul hz h3
  · rintro ⟨px, py, pz⟩
    simp only at px py pz
    have split : ∀ {v G L : Nat}, v < G * L → G * L < 2 ^ 64 →
        v / L < G ∧ v % L < L ∧ sz (sz (v / L * L) + v % L) = v := by
      intro v G L hv ho
      have hL : 0 < L := by
        rcases Nat.eq_zero_or_pos L with h | h
        · subst h
          simp at hv
        · exact h
      have hd : v / L < G := (Nat.div_lt_iff_lt_mul hL).mpr hv
      have hm : v % L < L := Nat.mod_lt _ hL
      exact ⟨hd, hm, by rw [gid_exact hd hm ho, Nat.div_add_mod']⟩
    obtain ⟨x1, x2, x3⟩ := split px hfit.1
    obtain ⟨y1, y2, y3⟩ := split py hfit.2.1
    obtain ⟨z1, z2, z3⟩ := split pz hfit.2.2
    refine ⟨compute_args global local_ (p.x / local_.x) (p.y / local_.y) (p.z / local_.z)
      (p.x % local_.x) (p.y % local_.y) (p.z % local_.z), ?_, ?_⟩
    · exact (mem_single_threaded_compute _ _ _).mpr
        ⟨_, _, _, _, _, _, x1, y1, z1, x2, y2, z2, rfl⟩
    · show ({ x := _, y := _, z := _ } : Compute_Dims) = p
      rw [x3, y3, z3]

theorem single_threaded_compute_length (global local_ : Compute_Dims) :
    (_single_threaded_compute global local_).length =
      global.x * global.y * global.z * local_.x * local_.y * local_.z := by
  rw [single_threaded_compute_eq,
    length_loop_zyx global _ (local_.x * local_.y * local_.z * 1)]
  · ring
  · intro gx gy gz _ _ _
    exact length_loop_zyx local_ _ 1 (fun _ _ _ _ _ _ => rfl)

/-- C11: with a null Fabric and axis-wise products `global * local` that fit in
`size_t`, `compute` calls `fn` exactly `global.x * global.y * global.z * local.x *
local.y * local.z` times, with pairwise distinct `global_invocation_id`, and the ids
are exactly the triples below `global * local` on each axis. -/
theorem compute_covers {F : Type}
    (multi : F → Compute_Dims → Compute_Dims → List Compute_Args)
    (global local_ : Compute_Dims) (hfit : dims_fit global local_) :
    (compute multi none global local_).length =
        global.x * global.y * global.z * local_.x * local_.y * local_.z ∧
      (invocation_ids (compute multi none global local_)).Nodup ∧
      ∀ p, p ∈ invocation_ids (compute multi none global local_) ↔
        dims_lt p { x := global.x * local_.x, y := global.y * local_.y,
                    z := global.z * local_.z } :=
  ⟨single_threaded_compute_length global local_, compute_ids_nodup global local_ hfit,
    mem_compute_ids global local_ hfit⟩

theorem compute_covers_witness :
    dims_fit { x := 2, y := 1, z := 2 } { x := 2, y := 1, z := 1 } ∧
      invocation_ids (compute no_fabric2 none { x := 2, y := 1, z := 2 }
          { x := 2, y := 1, z := 1 }) =
        [⟨0, 0, 0⟩, ⟨1, 0, 0⟩, ⟨2, 0, 0⟩, ⟨3, 0, 0⟩, ⟨0, 0, 1⟩, ⟨1, 0, 1⟩, ⟨2, 0, 1⟩,
          ⟨3, 0, 1⟩] ∧
      ((compute no_fabric2 none { x := 2, y := 1, z := 2 } { x := 2, y := 1, z := 1 }).length
          = 2 * 1 * 2 * 2 * 1 * 1 ∧
        (invocation_ids (compute no_fabric2 none { x := 2, y := 1, z := 2 }
          { x := 2, y := 1, z := 1 })).Nodup ∧
        ∀ p, p ∈ invocation_ids (compute no_fabric2 none { x := 2, y := 1, z := 2 }
            { x := 2, y := 1, z := 1 }) ↔
          dims_lt p { x := 2 * 2, y := 1 * 1, z := 2 * 1 }) :=
  ⟨by decide, by decide,
    compute_covers no_fabric2 { x := 2, y := 1, z := 2 } { x := 2, y := 1, z := 1 }
      (by decide)⟩


/-! ## Coverage of `compute_sized` -/

theorem length_of_nodup_box (l : List Compute_Dims) (d : Compute_Dims) (hn : l.Nodup)
    (hm : ∀ p, p ∈ l ↔ dims_lt p d) : l.length = d.x * d.y * d.z := by
  have hbox_nodup : (loop_zyx d fun x y z => [({ x := x, y := y, z := z } : Compute_Dims)]).Nodup := by
    unfold List.Nodup
    apply pairwise_loop_zyx
    · intro x y z _ _ _
      exact List.pairwise_singleton _ _
    · intro x y z x1 y1 z1 _ _ _ _ _ _ hlex a ha b hb
      rw [List.mem_singleton] at ha hb
      subst ha
      subst hb
      intro h
      simp only [Compute_Dims.mk.injEq] at h
      omega
  have hbox_mem : ∀ p, p ∈ (loop_zyx d fun x y z =>
      [({ x := x, y := y, z := z } : Compute_Dims)]) ↔ dims_lt p d := by
    intro p
    rw [mem_loop_zyx]
    constructor
    · rintro ⟨x, y, z, hx, hy, hz, hp⟩
      rw [List.mem_singleton] at hp
      subst hp
      exact ⟨hx, hy, hz⟩
    · rintro ⟨hx, hy, hz⟩
      exact ⟨p.x, p.y, p.z, hx, hy, hz, List.mem_singleton.mpr rfl⟩
  have hperm := (List.perm_ext_iff_of_nodup hn hbox_nodup).mpr
    (fun p => by rw [hm p, hbox_mem p])
  have hlen : (loop_zyx d fun x y z =>
      [({ x := x, y := y, z := z } : Compute_Dims)]).length = d.x * d.y * d.z * 1 :=
    length_loop_zyx d _ 1 (fun _ _ _ _ _ _ => rfl)
  rw [hperm.length_eq, hlen]
  ring

theorem invocation_ids_sized (global size local_ : Compute_Dims) :
    invocation_ids (_single_threaded_compute_sized global size local_) =
      (invocation_ids (_single_threaded_compute global local_)).filter
        fun p => decide (dims_lt p size) := by
  rw [single_threaded_compute_sized_eq_filter]
  unfold invocation_ids
  rw [List.filter_map]
  rfl

theorem compute_sized_none {F : Type}
    (multi : F → Compute_Dims → Compute_Dims → Compute_Dims → List Compute_Args)
    (total local_ : Compute_Dims) (hx : 1 ≤ local_.x) (hy : 1 ≤ local_.y)
    (hz : 1 ≤ local_.z) :
    compute_sized multi none total local_ =
      some (_single_threaded_compute_sized
        { x := workgroup_count total.x local_.x, y := workgroup_count total.y local_.y,
          z := workgroup_count total.z local_.z } total local_) := by
  unfold compute_sized
  rw [if_neg (by omega)]

/-- C12: with a null Fabric, every axis of `total` and `local` at least 1 and
`total + local` fitting in `size_t` on each axis, `compute_sized` calls `fn` exactly
`total.x * total.y * total.z` times, with pairwise distinct `global_invocation_id`,
and the ids are exactly the triples below `total` on each axis, also when `total` is
not a multiple of `local`. -/
theorem compute_sized_covers {F : Type}
    (multi : F → Compute_Dims → Compute_Dims → Compute_Dims → List Compute_Args)
    (total local_ : Compute_Dims)
    (ht : 1 ≤ total.x ∧ 1 ≤ total.y ∧ 1 ≤ total.z)
    (hl : 1 ≤ local_.x ∧ 1 ≤ local_.y ∧ 1 ≤ local_.z)
    (ho : total.x + local_.x < 2 ^ 64 ∧ total.y + local_.y < 2 ^ 64 ∧
      total.z + local_.z < 2 ^ 64) :
    ∃ inv, compute_sized multi none total local_ = some inv ∧
      inv.length = total.x * total.y * total.z ∧ (invocation_ids inv).Nodup ∧
      ∀ p, p ∈ invocation_ids inv ↔ dims_lt p total := by
  obtain ⟨_, _, x1, x2, _, _⟩ := workgroup_count_spec total.x local_.x ht.1 hl.1 (by omega)
  obtain ⟨_, _, y1, y2, _, _⟩ :=
    workgroup_count_spec total.y local_.y ht.2.1 hl.2.1 (by omega)
  obtain ⟨_, _, z1, z2, _, _⟩ :=
    workgroup_count_spec total.z local_.z ht.2.2 hl.2.2 (by omega)
  have hfit : dims_fit
      { x := workgroup_count total.x local_.x, y := workgroup_count total.y local_.y,
        z := workgroup_count total.z local_.z } local_ :=
    ⟨by show workgroup_count total.x local_.x * local_.x < 2 ^ 64; omega,
      by show workgroup_count total.y local_.y * local_.y < 2 ^ 64; omega,
      by show workgroup_count total.z local_.z * local_.z < 2 ^ 64; omega⟩
  have hnodup : (invocation_ids (_single_threaded_compute_sized
      { x := workgroup_count total.x local_.x, y := workgroup_count total.y local_.y,
        z := workgroup_count total.z local_.z } total local_)).Nodup := by
    rw [invocation_ids_sized]
    exact (compute_ids_nodup _ _ hfit).filter _
  have hmem : ∀ p, p ∈ invocation_ids (_single_threaded_compute_sized
      { x := workgroup_count total.x local_.x, y := workgroup_count total.y local_.y,
        z := workgroup_count total.z local_.z } total local_) ↔ dims_lt p total := by
    intro p
    rw [invocation_ids_sized, List.mem_filter, mem_compute_ids _ _ hfit]
    simp only [decide_eq_true_eq]
    constructor
    · exact fun h => h.2
    · intro h
      refine ⟨⟨?_, ?_, ?_⟩, h⟩
      · show p.x < workgroup_count total.x local_.x * local_.x
        have := h.1
        omega
      · show p.y < workgroup_count total.y local_.y * local_.y
        have := h.2.1
        omega
      · show p.z < workgroup_count total.z local_.z * local_.z
        have := h.2.2
        omega
  refine ⟨_, compute_sized_none multi total local_ hl.1 hl.2.1 hl.2.2, ?_, hnodup, hmem⟩
  have hlen := length_of_nodup_box _ total hnodup hmem
  unfold invocation_ids at hlen
  rw [List.length_map] at hlen
  exact hlen

theorem compute_sized_covers_witness :
    (compute_sized no_fabric3 none { x := 3, y := 2, z := 1 }
        { x := 2, y := 2, z := 1 }).map invocation_ids =
        some [⟨0, 0, 0⟩, ⟨1, 0, 0⟩, ⟨0, 1, 0⟩, ⟨1, 1, 0⟩, ⟨2, 0, 0⟩, ⟨2, 1, 0⟩] ∧
      ∃ inv, compute_sized no_fabric3 none { x := 3, y := 2, z := 1 }
          { x := 2, y := 2, z := 1 } = some inv ∧
        inv.length = 3 * 2 * 1 ∧ (invocation_ids inv).Nodup ∧
        ∀ p, p ∈ invocation_ids inv ↔ dims_lt p { x := 3, y := 2, z := 1 } :=
  ⟨by decide,
    compute_sized_covers no_fabric3 { x := 3, y := 2, z := 1 } { x := 2, y := 2, z := 1 }
      (by decide) (by decide) (by decide)⟩


/-! ## Coverage of `compute_tiled` and the workgroup count -/

theorem single_threaded_compute_tiled_eq (total_size tile_size : Compute_Dims) :
    _single_threaded_compute_tiled total_size tile_size =
      loop_zyx total_size fun gx gy gz =>
        [{ workgroup_size := tile_size
           workgroup_num := total_size
           workgroup_id := { x := gx, y := gy, z := gz }
           local_invocation_id := { x := 0, y := 0, z := 0 }
           global_invocation_id :=
             { x := sz (gx * tile_size.x), y := sz (gy * tile_size.y),
               z := sz (gz * tile_size.z) } }] := rfl

theorem single_threaded_compute_tiled_length (total_size tile_size : Compute_Dims) :
    (_single_threaded_compute_tiled total_size tile_size).length =
      total_size.x * total_size.y * total_size.z := by
  have hlen := length_loop_zyx total_size (fun gx gy gz =>
    [({ workgroup_size := tile_size
        workgroup_num := total_size
        workgroup_id := { x := gx, y := gy, z := gz }
        local_invocation_id := { x := 0, y := 0, z := 0 }
        global_invocation_id :=
          { x := sz (gx * tile_size.x), y := sz (gy * tile_size.y),
            z := sz (gz * tile_size.z) } } : Compute_Args)]) 1 (fun _ _ _ _ _ _ => rfl)
  rw [single_threaded_compute_tiled_eq, hlen]
  ring

theorem single_threaded_compute_tiled_ids (total_size tile_size : Compute_Dims) :
    ((_single_threaded_compute_tiled total_size tile_size).map
        fun a => a.workgroup_id).Nodup ∧
      ∀ w, w ∈ (_single_threaded_compute_tiled total_size tile_size).map
          (fun a => a.workgroup_id) ↔ dims_lt w total_size := by
  rw [single_threaded_compute_tiled_eq]
  constructor
  · unfold List.Nodup
    rw [List.pairwise_map]
    apply pairwise_loop_zyx
    · intro x y z _ _ _
      exact List.pairwise_singleton _ _
    · intro x y z x1 y1 z1 _ _ _ _ _ _ hlex a ha b hb
      rw [List.mem_singleton] at ha hb
      subst ha
      subst hb
      intro h
      simp only [Compute_Dims.mk.injEq] at h
      omega
  · intro w
    rw [List.mem_map]
    constructor
    · rintro ⟨a, ha, rfl⟩
      obtain ⟨x, y, z, hx, hy, hz, ha⟩ := (mem_loop_zyx _ _ _).mp ha
      rw [List.mem_singleton] at ha
      subst ha
      exact ⟨hx, hy, hz⟩
    · rintro ⟨hx, hy, hz⟩
      exact ⟨_, (mem_loop_zyx _ _ _).mpr ⟨w.x, w.y, w.z, hx, hy, hz,
        List.mem_singleton.mpr rfl⟩, rfl⟩

theorem compute_tiled_none {F : Type}
    (multi : F → Compute_Dims → Compute_Dims → List Compute_Args)
    (total tile : Compute_Dims) (hx : 1 ≤ tile.x) (hy : 1 ≤ tile.y) (hz : 1 ≤ tile.z) :
    compute_tiled multi none total tile =
      some (_single_threaded_compute_tiled
        { x := workgroup_count total.x tile.x, y := workgroup_count total.y tile.y,
          z := workgroup_count total.z tile.z } tile) := by
  unfold compute_tiled
  rw [if_neg (by omega)]

/-- C13: with a null Fabric and every axis of `total` and `tile` at least 1,
`compute_tiled` calls `fn` exactly `ceil(total.x / tile.x) * ceil(total.y / tile.y) *
ceil(total.z / tile.z)` times, once for each `workgroup_id` below these counts, each
time with `workgroup_size = tile`, `local_invocation_id = (0, 0, 0)` and
`global_invocation_id = workgroup_id * tile`. -/
theorem compute_tiled_covers {F : Type}
    (multi : F → Compute_Dims → Compute_Dims → List Compute_Args)
    (total tile : Compute_Dims)
    (ht : 1 ≤ total.x ∧ 1 ≤ total.y ∧ 1 ≤ total.z)
    (hs : total.x < 2 ^ 64 ∧ total.y < 2 ^ 64 ∧ total.z < 2 ^ 64)
    (hl : 1 ≤ tile.x ∧ 1 ≤ tile.y ∧ 1 ≤ tile.z) :
    ∃ inv, compute_tiled multi none total tile = some inv ∧
      inv.length = ⌈(total.x : ℚ) / (tile.x : ℚ)⌉₊ * ⌈(total.y : ℚ) / (tile.y : ℚ)⌉₊ *
        ⌈(total.z : ℚ) / (tile.z : ℚ)⌉₊ ∧
      (inv.map fun a => a.workgroup_id).Nodup ∧
      (∀ w, w ∈ inv.map (fun a => a.workgroup_id) ↔
        dims_lt w { x := ⌈(total.x : ℚ) / (tile.x : ℚ)⌉₊,
                    y := ⌈(total.y : ℚ) / (tile.y : ℚ)⌉₊,
                    z := ⌈(total.z : ℚ) / (tile.z : ℚ)⌉₊ }) ∧
      ∀ a ∈ inv, a.workgroup_size = tile ∧
        a.local_invocation_id = { x := 0, y := 0, z := 0 } ∧
        a.global_invocation_id =
          { x := a.workgroup_id.x * tile.x, y := a.workgroup_id.y * tile.y,
            z := a.workgroup_id.z * tile.z } := by
  obtain ⟨_, _, _, x2, _, x3⟩ := workgroup_count_spec total.x tile.x ht.1 hl.1 hs.1
  obtain ⟨_, _, _, y2, _, y3⟩ := workgroup_count_spec total.y tile.y ht.2.1 hl.2.1 hs.2.1
  obtain ⟨_, _, _, z2, _, z3⟩ := workgroup_count_spec total.z tile.z ht.2.2 hl.2.2 hs.2.2
  obtain ⟨hnodup, hmem⟩ := single_threaded_compute_tiled_ids
    { x := workgroup_count total.x tile.x, y := workgroup_count total.y tile.y,
      z := workgroup_count total.z tile.z } tile
  refine ⟨_, compute_tiled_none multi total tile hl.1 hl.2.1 hl.2.2, ?_, hnodup, ?_, ?_⟩
  · rw [single_threaded_compute_tiled_length, ← x3, ← y3, ← z3]
  · intro w
    rw [hmem w, ← x3, ← y3, ← z3]
  · intro a ha
    rw [single_threaded_compute_tiled_eq] at ha
    obtain ⟨gx, gy, gz, hx, hy, hz, ha⟩ := (mem_loop_zyx _ _ _).mp ha
    rw [List.mem_singleton] at ha
    subst ha
    simp only at hx hy hz
    refine ⟨rfl, rfl, ?_⟩
    have ex : sz (gx * tile.x) = gx * tile.x := by
      have := mul_add_lt_mul (l := tile.x - 1) (L := tile.x) hx (by omega)
      exact sz_of_lt (by omega)
    have ey : sz (gy * tile.y) = gy * tile.y := by
      have := mul_add_lt_mul (l := tile.y - 1) (L := tile.y) hy (by omega)
      exact sz_of_lt (by omega)
    have ez : sz (gz * tile.z) = gz * tile.z := by
      have := mul_add_lt_mul (l := tile.z - 1) (L := tile.z) hz (by omega)
      exact sz_of_lt (by omega)
    show ({ x := sz (gx * tile.x), y := sz (gy * tile.y), z := sz (gz * tile.z) } :
      Compute_Dims) = _
    rw [ex, ey, ez]

set_option maxRecDepth 100000 in
theorem compute_tiled_covers_witness :
    (compute_tiled no_fabric2 none { x := 100, y := 100, z := 100 }
        { x := 10, y := 10, z := 10 }).map List.length = some 1000 ∧
      (compute_tiled no_fabric2 none { x := 5, y := 1, z := 1 }
        { x := 2, y := 1, z := 1 }).map invocation_ids =
        some [⟨0, 0, 0⟩, ⟨2, 0, 0⟩, ⟨4, 0, 0⟩] ∧
      ∃ inv, compute_tiled no_fabric2 none { x := 100, y := 100, z := 100 }
          { x := 10, y := 10, z := 10 } = some inv ∧
        inv.length = ⌈((100 : ℕ) : ℚ) / ((10 : ℕ) : ℚ)⌉₊ * ⌈((100 : ℕ) : ℚ) / ((10 : ℕ) : ℚ)⌉₊ *
          ⌈((100 : ℕ) : ℚ) / ((10 : ℕ) : ℚ)⌉₊ ∧
        (inv.map fun a => a.workgroup_id).Nodup ∧
        (∀ w, w ∈ inv.map (fun a => a.workgroup_id) ↔
          dims_lt w { x := ⌈((100 : ℕ) : ℚ) / ((10 : ℕ) : ℚ)⌉₊,
                      y := ⌈((100 : ℕ) : ℚ) / ((10 : ℕ) : ℚ)⌉₊,
                      z := ⌈((100 : ℕ) : ℚ) / ((10 : ℕ) : ℚ)⌉₊ }) ∧
        ∀ a ∈ inv, a.workgroup_size = { x := 10, y := 10, z := 10 } ∧
          a.local_invocation_id = { x := 0, y := 0, z := 0 } ∧
          a.global_invocation_id =
            { x := a.workgroup_id.x * 10, y := a.workgroup_id.y * 10,
              z := a.workgroup_id.z * 10 } :=
  ⟨by decide, by decide,
    compute_tiled_covers no_fabric2 { x := 100, y := 100, z := 100 }
      { x := 10, y := 10, z := 10 } (by decide) (by decide) (by decide)⟩

/-- C14: for `size_t` values `total >= 1` and `local >= 1` the workgroup count
`1 + ((total - 1) / local)` does not overflow and is `ceil(total / local)`: it is the
least `g` with `g * local >= total`. -/
theorem workgroup_count_is_ceil (total local_ : Nat) (h1 : 1 ≤ total) (h2 : 1 ≤ local_)
    (h3 : total < 2 ^ 64) :
    1 + (total - 1) / local_ < 2 ^ 64 ∧
      workgroup_count total local_ = 1 + (total - 1) / local_ ∧
      workgroup_count total local_ = ⌈(total : ℚ) / (local_ : ℚ)⌉₊ ∧
      total ≤ workgroup_count total local_ * local_ ∧
      ∀ g, total ≤ g * local_ → workgroup_count total local_ ≤ g := by
  obtain ⟨a, b, c, _, d, e⟩ := workgroup_count_spec total local_ h1 h2 h3
  exact ⟨a, b, e, c, d⟩

theorem workgroup_count_is_ceil_witness :
    workgroup_count 3 2 = 2 ∧ workgroup_count 100 10 = 10 ∧
      workgroup_count (2 ^ 64 - 1) 1 = 2 ^ 64 - 1 ∧
      (1 + (3 - 1) / 2 < 2 ^ 64 ∧ workgroup_count 3 2 = 1 + (3 - 1) / 2 ∧
        workgroup_count 3 2 = ⌈((3 : ℕ) : ℚ) / ((2 : ℕ) : ℚ)⌉₊ ∧
        3 ≤ workgroup_count 3 2 * 2 ∧ ∀ g, 3 ≤ g * 2 → workgroup_count 3 2 ≤ g) :=
  ⟨by decide, by decide, by decide, workgroup_count_is_ceil 3 2 (by decide) (by decide)
    (by decide)⟩


/-! ## Order and arguments of the invocations -/

theorem single_threaded_compute_sized_sorted (global size local_ : Compute_Dims) :
    List.Pairwise invocation_lt (_single_threaded_compute_sized global size local_) := by
  rw [single_threaded_compute_sized_eq_filter]
  exact (single_threaded_compute_sorted global local_).filter _

/-- C15: the invocations of single-threaded `compute` and of `compute_sized` come in
strictly increasing lexicographic order of the key `(workgroup_id.z, workgroup_id.y,
workgroup_id.x, local_invocation_id.z, local_invocation_id.y,
local_invocation_id.x)`: every invocation is below every later one. -/
theorem invocations_in_zyx_order (global local_ : Compute_Dims) :
    List.Pairwise invocation_lt (compute no_fabric2 none global local_) ∧
      (∀ size, List.Pairwise invocation_lt
        (_single_threaded_compute_sized global size local_)) ∧
      (∀ total inv, compute_sized no_fabric3 none total local_ = some inv →
        List.Pairwise invocation_lt inv) := by
  refine ⟨single_threaded_compute_sorted global local_,
    fun size => single_threaded_compute_sized_sorted global size local_,
    fun total inv h => ?_⟩
  unfold compute_sized at h
  split at h
  · exact absurd h (by simp)
  · simp only [Option.some.injEq] at h
    subst h
    exact single_threaded_compute_sized_sorted _ _ _

theorem invocations_in_zyx_order_witness :
    (compute no_fabric2 none { x := 2, y := 1, z := 2 } { x := 1, y := 2, z := 1 }).map
        (fun a => (a.workgroup_id.z, a.workgroup_id.y, a.workgroup_id.x,
          a.local_invocation_id.z, a.local_invocation_id.y, a.local_invocation_id.x)) =
        [(0, 0, 0, 0, 0, 0), (0, 0, 0, 0, 1, 0), (0, 0, 1, 0, 0, 0), (0, 0, 1, 0, 1, 0),
          (1, 0, 0, 0, 0, 0), (1, 0, 0, 0, 1, 0), (1, 0, 1, 0, 0, 0), (1, 0, 1, 0, 1, 0)] ∧
      (∀ total inv, compute_sized no_fabric3 none total { x := 1, y := 2, z := 1 } = some inv →
        List.Pairwise invocation_lt inv) :=
  ⟨by decide,
    (invocations_in_zyx_order { x := 2, y := 1, z := 2 } { x := 1, y := 2, z := 1 }).2.2⟩

theorem single_threaded_compute_consistent (global local_ : Compute_Dims) :
    ∀ a ∈ _single_threaded_compute global local_,
      args_consistent global local_ a ∧ (dims_fit global local_ → args_exact a) := by
  intro a ha
  obtain ⟨gx, gy, gz, lx, ly, lz, hx, hy, hz, h1, h2, h3, rfl⟩ :=
    (mem_single_threaded_compute _ _ _).mp ha
  exact compute_args_consistent global local_ gx gy gz lx ly lz hx hy hz h1 h2 h3

theorem single_threaded_compute_sized_consistent (global size local_ : Compute_Dims) :
    ∀ a ∈ _single_threaded_compute_sized global size local_,
      args_consistent global local_ a ∧ (dims_fit global local_ → args_exact a) := by
  intro a ha
  rw [single_threaded_compute_sized_eq_filter] at ha
  exact single_threaded_compute_consistent global local_ a (List.mem_filter.mp ha).1

/-- C16 (as stated, refuted): the ids are `size_t` values. In
`compute({3, 1, 1}, {2^63, 1, 1})` the invocation of workgroup 2 with local id 0 has
`global_invocation_id.x = 0`, while `workgroup_id * workgroup_size +
local_invocation_id` is `2^64`. In `compute_sized({2^64 - 1, 1, 1}, {7, 1, 1})` the
last workgroup's invocation with local id 2 has the wrapped id 0, which is below
`total`, so `fn` is called with it. -/
theorem invocation_id_wraps :
    (∃ a ∈ compute no_fabric2 none { x := 3, y := 1, z := 1 } { x := 2 ^ 63, y := 1, z := 1 },
        a.workgroup_id.x = 2 ∧ a.workgroup_size.x = 2 ^ 63 ∧ a.local_invocation_id.x = 0 ∧
        a.global_invocation_id.x = 0 ∧
        a.workgroup_id.x * a.workgroup_size.x + a.local_invocation_id.x = 2 ^ 64) ∧
      ∃ inv, compute_sized no_fabric3 none { x := 2 ^ 64 - 1, y := 1, z := 1 }
          { x := 7, y := 1, z := 1 } = some inv ∧
        ∃ a ∈ inv, a.workgroup_num.x = 2635249153387078803 ∧
          a.workgroup_id.x = 2635249153387078802 ∧ a.workgroup_size.x = 7 ∧
          a.local_invocation_id.x = 2 ∧ a.global_invocation_id.x = 0 ∧
          a.workgroup_id.x * a.workgroup_size.x + a.local_invocation_id.x = 2 ^ 64 := by
  refine ⟨⟨compute_args { x := 3, y := 1, z := 1 } { x := 2 ^ 63, y := 1, z := 1 } 2 0 0 0 0 0,
    ?_, by decide, by decide, by decide, by decide, by decide⟩, ?_⟩
  · show _ ∈ _single_threaded_compute _ _
    exact (mem_single_threaded_compute _ _ _).mpr
      ⟨2, 0, 0, 0, 0, 0, by decide, by decide, by decide, by decide, by decide, by decide,
        rfl⟩
  · refine ⟨_, compute_sized_none no_fabric3 _ _ (by decide) (by decide) (by decide),
      compute_args
        { x := workgroup_count (2 ^ 64 - 1) 7, y := workgroup_count 1 1,
          z := workgroup_count 1 1 }
        { x := 7, y := 1, z := 1 } 2635249153387078802 0 0 2 0 0,
      ?_, by decide, by decide, by decide, by decide, by decide, by decide⟩
    rw [single_threaded_compute_sized_eq_filter]
    refine List.mem_filter.mpr ⟨(mem_single_threaded_compute _ _ _).mpr
      ⟨2635249153387078802, 0, 0, 2, 0, 0, by decide, by decide, by decide, by decide,
        by decide, by decide, rfl⟩, by decide⟩

/-- C16: every `Compute_Args` that single-threaded `compute` and `compute_sized` pass
to `fn` has `workgroup_size` equal to the `local` argument, `workgroup_num` equal to
the workgroup count (`global`, which `compute_sized` derives from `total`),
`workgroup_id < workgroup_num` and `local_invocation_id < workgroup_size` on each
axis, and `global_invocation_id` is the `size_t` value of `workgroup_id *
workgroup_size + local_invocation_id`; whenever workgroup count times workgroup size
fits in `size_t` on each axis, as it does in `compute_sized` for `total >= 1` and
`total + local < 2^64`, `global_invocation_id = workgroup_id * workgroup_size +
local_invocation_id` in the natural numbers. -/
theorem invocation_args_consistent (global local_ : Compute_Dims) :
    (∀ a ∈ compute no_fabric2 none global local_,
        args_consistent global local_ a ∧ (dims_fit global local_ → args_exact a)) ∧
      (∀ size, ∀ a ∈ _single_threaded_compute_sized global size local_,
        args_consistent global local_ a ∧ (dims_fit global local_ → args_exact a)) ∧
      (∀ total inv, compute_sized no_fabric3 none total local_ = some inv →
        ∀ a ∈ inv,
          args_consistent
            { x := workgroup_count total.x local_.x, y := workgroup_count total.y local_.y,
              z := workgroup_count total.z local_.z } local_ a ∧
          (dims_fit
              { x := workgroup_count total.x local_.x, y := workgroup_count total.y local_.y,
                z := workgroup_count total.z local_.z } local_ →
            args_exact a) ∧
          (total.x + local_.x < 2 ^ 64 ∧ total.y + local_.y < 2 ^ 64 ∧
              total.z + local_.z < 2 ^ 64 ∧ 1 ≤ total.x ∧ 1 ≤ total.y ∧ 1 ≤ total.z →
            args_exact a)) := by
  refine ⟨single_threaded_compute_consistent global local_,
    fun size => single_threaded_compute_sized_consistent global size local_,
    fun total inv h a ha => ?_⟩
  unfold compute_sized at h
  split at h
  · exact absurd h (by simp)
  · rename_i hl
    simp only [Option.some.injEq] at h
    subst h
    obtain ⟨c1, c2⟩ := single_threaded_compute_sized_consistent _ _ _ a ha
    refine ⟨c1, c2, fun hfit => c2 ?_⟩
    obtain ⟨_, _, _, x2, _, _⟩ :=
      workgroup_count_spec total.x local_.x (by omega) (by omega) (by omega)
    obtain ⟨_, _, _, y2, _, _⟩ :=
      workgroup_count_spec total.y local_.y (by omega) (by omega) (by omega)
    obtain ⟨_, _, _, z2, _, _⟩ :=
      workgroup_count_spec total.z local_.z (by omega) (by omega) (by omega)
    exact ⟨by show workgroup_count total.x local_.x * local_.x < 2 ^ 64; omega,
      by show workgroup_count total.y local_.y * local_.y < 2 ^ 64; omega,
      by show workgroup_count total.z local_.z * local_.z < 2 ^ 64; omega⟩

theorem invocation_args_consistent_witness :
    (compute no_fabric2 none { x := 2, y := 1, z := 1 } { x := 3, y := 1, z := 1 }).map
        (fun a => (a.workgroup_id.x, a.local_invocation_id.x, a.global_invocation_id.x)) =
        [(0, 0, 0), (0, 1, 1), (0, 2, 2), (1, 0, 3), (1, 1, 4), (1, 2, 5)] ∧
      dims_fit { x := 2, y := 1, z := 1 } { x := 3, y := 1, z := 1 } ∧
      (∀ a ∈ compute no_fabric2 none { x := 2, y := 1, z := 1 } { x := 3, y := 1, z := 1 },
        args_consistent { x := 2, y := 1, z := 1 } { x := 3, y := 1, z := 1 } a ∧
          args_exact a) :=
  ⟨by decide, by decide, fun a ha =>
    ⟨((invocation_args_consistent { x := 2, y := 1, z := 1 }
        { x := 3, y := 1, z := 1 }).1 a ha).1,
      ((invocation_args_consistent { x := 2, y := 1, z := 1 }
        { x := 3, y := 1, z := 1 }).1 a ha).2 (by decide)⟩⟩


/-! ## `chan_can_recv` -/

/-- C21: on a closed channel that still holds the items 7, 8, 9 `chan_can_recv`
returns false, although `chan_recv_try` and `chan_recv` on the same state both
deliver the front item 7 with `more = true`; on the open channel holding 5 it returns
true, and on an empty channel false. -/
theorem chan_can_recv_closed_with_items :
    chan_closed sample_closed_full = true ∧ ring_items sample_closed_full.r = [7, 8, 9] ∧
      chan_can_recv sample_closed_full = false ∧
      (chan_recv_try sample_closed_full).map Prod.fst = some { res := 7, more := true } ∧
      chan_recv sample_closed_full =
        .returned { res := 7, more := true }
          (.obj { sample_closed_full with
                  r := { ptr := [8, 9, 7], count := 2, cap := 3, head := 0 } }) ∧
      chan_can_recv sample_open = true ∧
      (chan_recv_try sample_open).map Prod.fst = some { res := 5, more := true } ∧
      chan_can_recv sample_closed_empty = false ∧
      (chan_recv_try sample_closed_empty).map Prod.fst = some { res := 0, more := false } := by
  decide

/-! ## `Auto_Chan` -/

/-- C22: the copy assignment of a wrapper to itself, when it is the only holder,
destroys the channel while the wrapper still holds it: `chan_free(handle)` brings arc
from 1 to 0 and tears the channel down, and `chan_new(other.handle)` then goes through
the dangling handle. With a second holder the same assignment leaves arc at 2; a move
assignment of the sole holder to itself releases the channel and nulls the handle;
copying a moved-from wrapper dereferences `nullptr`. -/
theorem auto_chan_self_assign_destroys :
    auto_construct 1 = some sample_world ∧ auto_holders sample_world = 1 ∧
      auto_apply sample_world (.copy_assign 0 0) =
        .fault "use after free"
          { chan := .nullptr sample_destroyed, wrappers := [some { handle := true }] } ∧
      auto_holders ({ chan := .nullptr sample_destroyed,
                      wrappers := [some { handle := true }] } : Auto_World Int) = 1 ∧
      sample_destroyed.atomic_arc = 0 ∧
      auto_run sample_world [.copy_construct 0, .copy_assign 0 0] =
        .done { chan := .obj { sample_fresh with atomic_arc := 2 },
                wrappers := [some { handle := true }, some { handle := true }] } ∧
      auto_run sample_world [.move_assign 0 0] =
        .done { chan := .nullptr sample_destroyed, wrappers := [some { handle := false }] } ∧
      auto_run sample_world [.move_construct 0, .copy_construct 0] =
        .fault "null dereference"
          { chan := .obj sample_fresh,
            wrappers := [some { handle := false }, some { handle := true }] } := by
  decide

/-! ## `compute_tiled` and `compute_sized` on an empty index space -/

/-- C26: for `total = (0, 1, 1)` and `tile = (2, 1, 1)` the workgroup count on the
x axis is `1 + ((0 - 1) / 2)` in `size_t`, that is `1 + (2^64 - 1) / 2 = 2^63`, and
`compute_tiled` with a null Fabric calls `fn` `2^63` times, not 0 times. With
`tile = (1, 1, 1)` the count wraps to 0 and there is no call. -/
theorem compute_tiled_zero_axis :
    workgroup_count 0 2 = 2 ^ 63 ∧ workgroup_count 0 1 = 0 ∧
      (∃ inv, compute_tiled no_fabric2 none { x := 0, y := 1, z := 1 }
          { x := 2, y := 1, z := 1 } = some inv ∧ inv.length = 2 ^ 63) ∧
      compute_tiled no_fabric2 none { x := 0, y := 1, z := 1 } { x := 1, y := 1, z := 1 } =
        some [] := by
  refine ⟨by decide, by decide, ⟨_, compute_tiled_none no_fabric2 _ _ (by decide) (by decide)
    (by decide), ?_⟩, by decide⟩
  rw [single_threaded_compute_tiled_length]
  decide


/-- C27: with a null Fabric, every axis of `local` at least 1 and an axis of `total`
equal to 0, `compute_sized` calls `fn` `0 = total.x * total.y * total.z` times: the
workgroup count `1 + ((total - 1) / local)` wraps in `size_t`, but every invocation
the loops reach has an id that is not below `total` and is skipped. -/
theorem compute_sized_zero_axis {F : Type}
    (multi : F → Compute_Dims → Compute_Dims → Compute_Dims → List Compute_Args)
    (total local_ : Compute_Dims) (h0 : total.x = 0 ∨ total.y = 0 ∨ total.z = 0)
    (hl : 1 ≤ local_.x ∧ 1 ≤ local_.y ∧ 1 ≤ local_.z) :
    compute_sized multi none total local_ = some [] ∧
      total.x * total.y * total.z = 0 := by
  constructor
  · rw [compute_sized_none multi total local_ hl.1 hl.2.1 hl.2.2,
      single_threaded_compute_sized_eq_filter]
    congr 1
    rw [List.filter_eq_nil_iff]
    intro a _
    simp only [decide_eq_true_eq, dims_lt]
    omega
  · rcases h0 with h | h | h <;> simp [h]

theorem compute_sized_zero_axis_witness :
    compute_sized no_fabric3 none { x := 0, y := 3, z := 2 } { x := 1, y := 2, z := 1 } =
        some [] ∧
      workgroup_count 0 2 = 2 ^ 63 ∧
      (compute_sized no_fabric3 none { x := 0, y := 1, z := 1 } { x := 2, y := 1, z := 1 } =
          some [] ∧
        0 * 1 * 1 = 0) :=
  ⟨by decide, by decide,
    compute_sized_zero_axis no_fabric3 { x := 0, y := 1, z := 1 } { x := 2, y := 1, z := 1 }
      (by decide) (by decide)⟩

/-! ## `compute_sized` as a filter of `compute` -/

/-- C23: for `local >= 1` on each axis, the sequence of `Compute_Args` that
single-threaded `compute_sized(total, local)` passes to `fn` is the sequence of
single-threaded `compute(global, local)`, `global = 1 + ((total - 1) / local)`,
filtered to the invocations whose `global_invocation_id` is below `total` on all three
axes; so no invocation has an id component that reaches `total`. -/
theorem compute_sized_refines_filter {F : Type}
    (multi : F → Compute_Dims → Compute_Dims → Compute_Dims → List Compute_Args)
    (total local_ : Compute_Dims)
    (hl : 1 ≤ local_.x ∧ 1 ≤ local_.y ∧ 1 ≤ local_.z) :
    compute_sized multi none total local_ = some (compute_sized_filtered total local_) ∧
      ∀ a ∈ compute_sized_filtered total local_, dims_lt a.global_invocation_id total := by
  constructor
  · rw [compute_sized_none multi total local_ hl.1 hl.2.1 hl.2.2,
      single_threaded_compute_sized_eq_filter]
    rfl
  · intro a ha
    unfold compute_sized_filtered at ha
    have := (List.mem_filter.mp ha).2
    simpa using this

theorem compute_sized_refines_filter_witness :
    (compute no_fabric2 none { x := 2, y := 1, z := 1 } { x := 2, y := 2, z := 1 }).map
        (fun a => a.global_invocation_id) =
        [⟨0, 0, 0⟩, ⟨1, 0, 0⟩, ⟨0, 1, 0⟩, ⟨1, 1, 0⟩, ⟨2, 0, 0⟩, ⟨3, 0, 0⟩, ⟨2, 1, 0⟩, ⟨3, 1, 0⟩] ∧
      (compute_sized_filtered { x := 3, y := 2, z := 1 } { x := 2, y := 2, z := 1 }).map
        (fun a => a.global_invocation_id) =
        [⟨0, 0, 0⟩, ⟨1, 0, 0⟩, ⟨0, 1, 0⟩, ⟨1, 1, 0⟩, ⟨2, 0, 0⟩, ⟨2, 1, 0⟩] ∧
      (compute_sized no_fabric3 none { x := 3, y := 2, z := 1 } { x := 2, y := 2, z := 1 } =
          some (compute_sized_filtered { x := 3, y := 2, z := 1 } { x := 2, y := 2, z := 1 }) ∧
        ∀ a ∈ compute_sized_filtered { x := 3, y := 2, z := 1 } { x := 2, y := 2, z := 1 },
          dims_lt a.global_invocation_id { x := 3, y := 2, z := 1 }) :=
  ⟨by decide, by decide,
    compute_sized_refines_filter no_fabric3 { x := 3, y := 2, z := 1 }
      { x := 2, y := 2, z := 1 } (by decide)⟩

/-! ## Reference count across channel calls -/

theorem chan_unref_after_ref {T : Type} (r : Ring T) (limit arc : Int) (hint : is_int32 arc)
    (hlive : arc ≠ 0) :
    chan_unref { r := r, atomic_limit := limit, atomic_arc := wrap32 (arc + 1) } =
      .obj { r := r, atomic_limit := limit, atomic_arc := arc } := by
  have h1 : wrap32 (arc + 1) ≠ 1 := fun h => hlive ((wrap32_succ_eq_one hint).mp h)
  unfold chan_unref
  simp only [h1, if_false, wrap32_succ_pred hint]

/-- C29: on a channel with `arc >= 1`, a call of `chan_send` or `chan_recv` that
returns leaves the channel live with `arc` at its value before the call;
`chan_send_try`, `chan_recv_try` and `chan_close` leave `arc` as it is. (`chan_closed`
and `chan_can_recv` only read the channel: they return a `bool` and no state.) -/
theorem chan_calls_keep_arc {T : Type} [Inhabited T] (c : IChan T)
    (hint : is_int32 c.atomic_arc) (h1 : 1 ≤ c.atomic_arc) :
    (∀ v ch, chan_send c v = .returned () ch →
        ∃ c1, ch = .obj c1 ∧ c1.atomic_arc = c.atomic_arc) ∧
      (∀ rr ch, chan_recv c = .returned rr ch →
        ∃ c1, ch = .obj c1 ∧ c1.atomic_arc = c.atomic_arc) ∧
      (∀ v, (chan_send_try c v).2.atomic_arc = c.atomic_arc) ∧
      (∀ rr c1, chan_recv_try c = some (rr, c1) → c1.atomic_arc = c.atomic_arc) ∧
      (chan_close c).atomic_arc = c.atomic_arc := by
  have hlive : c.atomic_arc ≠ 0 := by omega
  refine ⟨fun v ch h => ?_, fun rr ch h => ?_, fun v => ?_, fun rr c1 h => ?_, rfl⟩
  · unfold chan_send at h
    simp only [chan_ref, chan_closed, decide_eq_true_eq] at h
    split_ifs at h
    simp only [Call.returned.injEq, true_and] at h
    rw [chan_unref_after_ref _ _ _ hint hlive] at h
    exact ⟨_, h.symm, rfl⟩
  · unfold chan_recv at h
    simp only [chan_ref, chan_closed, decide_eq_true_eq] at h
    split_ifs at h
    · split at h
      · simp only [Call.returned.injEq] at h
        rw [chan_unref_after_ref _ _ _ hint hlive] at h
        exact ⟨_, h.2.symm, rfl⟩
      · exact absurd h (by simp)
    · simp only [Call.returned.injEq] at h
      rw [chan_unref_after_ref _ _ _ hint hlive] at h
      exact ⟨_, h.2.symm, rfl⟩
  · unfold chan_send_try
    split <;> rfl
  · unfold chan_recv_try at h
    split at h
    · split at h
      · simp only [Option.some.injEq, Prod.mk.injEq] at h
        rw [← h.2]
      · exact absurd h (by simp)
    · simp only [Option.some.injEq, Prod.mk.injEq] at h
      rw [← h.2]

theorem chan_calls_keep_arc_witness :
    is_int32 sample_closed_full.atomic_arc ∧ sample_closed_full.atomic_arc = 2 ∧
      chan_send sample_fresh 4 =
        .returned () (.obj { sample_fresh with
          r := { ptr := [4], count := 1, cap := 1, head := 0 } }) ∧
      (∀ rr ch, chan_recv sample_closed_full = .returned rr ch →
        ∃ c1, ch = .obj c1 ∧ c1.atomic_arc = sample_closed_full.atomic_arc) ∧
      ∃ rr c1, chan_recv sample_closed_full = .returned rr (.obj c1) ∧ c1.atomic_arc = 2 :=
  ⟨by decide, by decide, by decide,
    (chan_calls_keep_arc sample_closed_full (by decide) (by decide)).2.1,
    ⟨{ res := 7, more := true },
      { sample_closed_full with r := { ptr := [8, 9, 7], count := 2, cap := 3, head := 0 } },
      by decide, by decide⟩⟩


/-! ## The tiles of `compute_tiled` -/

theorem eq_singleton_of_nodup {α : Type} (l : List α) (a : α) (hn : l.Nodup) (ha : a ∈ l)
    (hall : ∀ b ∈ l, b = a) : l = [a] := by
  cases l with
  | nil => simp at ha
  | cons x rest =>
    have hx : x = a := hall x (List.mem_cons_self _ _)
    subst hx
    cases rest with
    | nil => rfl
    | cons y rest2 =>
      have hy : y = x := hall y (by simp)
      subst hy
      simp at hn

theorem tile_axis {g G t total p : Nat} (ht : 1 ≤ t) (hG1 : total ≤ G * t)
    (hG2 : G * t < total + t) (hs : total < 2 ^ 64) :
    (g < G → sz (g * t) = g * t ∧ g * t < total) ∧
      (p < total → p / t < G ∧ p / t * t ≤ p ∧ p < p / t * t + t) ∧
      (g * t ≤ p → p < g * t + t → g = p / t) := by
  refine ⟨fun hg => ?_, fun hp => ⟨?_, Nat.div_mul_le_self p t, ?_⟩, fun h1 h2 => ?_⟩
  · have := mul_add_lt_mul (l := t - 1) (L := t) hg (by omega)
    have hlt : g * t < total := by omega
    exact ⟨sz_of_lt (by omega), hlt⟩
  · exact (Nat.div_lt_iff_lt_mul (by omega)).mpr (by omega)
  · have := Nat.lt_mul_div_succ p (b := t) (by omega)
    have e : t * (p / t + 1) = p / t * t + t := by ring
    omega
  · have e : (g + 1) * t = g * t + t := by ring
    exact (Nat.div_eq_of_lt_le h1 (by omega)).symm

/-- C28: for `total` and `tile` with every axis at least 1, the tiles that
single-threaded `compute_tiled` hands to `fn` partition the index space: the origin
(`global_invocation_id`) of every invocation is below `total` on each axis, and for
every point `p` below `total` exactly one invocation in the sequence has an origin
`o` with `o <= p < o + tile` on each axis. -/
theorem compute_tiled_partitions {F : Type}
    (multi : F → Compute_Dims → Compute_Dims → List Compute_Args)
    (total tile : Compute_Dims)
    (ht : 1 ≤ total.x ∧ 1 ≤ total.y ∧ 1 ≤ total.z)
    (hs : total.x < 2 ^ 64 ∧ total.y < 2 ^ 64 ∧ total.z < 2 ^ 64)
    (hl : 1 ≤ tile.x ∧ 1 ≤ tile.y ∧ 1 ≤ tile.z) :
    ∃ inv, compute_tiled multi none total tile = some inv ∧
      (∀ a ∈ inv, dims_lt a.global_invocation_id total) ∧
      ∀ p, dims_lt p total →
        ∃ a, inv.filter (fun a => decide (tile_covers tile a p)) = [a] := by
  obtain ⟨_, _, x1, x2, _, _⟩ := workgroup_count_spec total.x tile.x ht.1 hl.1 hs.1
  obtain ⟨_, _, y1, y2, _, _⟩ := workgroup_count_spec total.y tile.y ht.2.1 hl.2.1 hs.2.1
  obtain ⟨_, _, z1, z2, _, _⟩ := workgroup_count_spec total.z tile.z ht.2.2 hl.2.2 hs.2.2
  have mem := fun a => mem_loop_zyx
    { x := workgroup_count total.x tile.x, y := workgroup_count total.y tile.y,
      z := workgroup_count total.z tile.z }
    (fun gx gy gz =>
      [({ workgroup_size := tile
          workgroup_num := { x := workgroup_count total.x tile.x,
                             y := workgroup_count total.y tile.y,
                             z := workgroup_count total.z tile.z }
          workgroup_id := { x := gx, y := gy, z := gz }
          local_invocation_id := { x := 0, y := 0, z := 0 }
          global_invocation_id :=
            { x := sz (gx * tile.x), y := sz (gy * tile.y), z := sz (gz * tile.z) } } :
        Compute_Args)]) a
  refine ⟨_, compute_tiled_none multi total tile hl.1 hl.2.1 hl.2.2, fun a ha => ?_,
    fun p hp => ?_⟩
  · rw [single_threaded_compute_tiled_eq] at ha
    obtain ⟨gx, gy, gz, hx, hy, hz, ha⟩ := (mem a).mp ha
    rw [List.mem_singleton] at ha
    subst ha
    simp only at hx hy hz
    obtain ⟨ex, lx⟩ := (tile_axis (p := 0) hl.1 x1 x2 hs.1).1 hx
    obtain ⟨ey, ly⟩ := (tile_axis (p := 0) hl.2.1 y1 y2 hs.2.1).1 hy
    obtain ⟨ez, lz⟩ := (tile_axis (p := 0) hl.2.2 z1 z2 hs.2.2).1 hz
    exact ⟨by show sz (gx * tile.x) < total.x; omega,
      by show sz (gy * tile.y) < total.y; omega,
      by show sz (gz * tile.z) < total.z; omega⟩
  · obtain ⟨px, py, pz⟩ := hp
    obtain ⟨dx, lox, hix⟩ := (tile_axis (g := 0) hl.1 x1 x2 hs.1).2.1 px
    obtain ⟨dy, loy, hiy⟩ := (tile_axis (g := 0) hl.2.1 y1 y2 hs.2.1).2.1 py
    obtain ⟨dz, loz, hiz⟩ := (tile_axis (g := 0) hl.2.2 z1 z2 hs.2.2).2.1 pz
    obtain ⟨ex, _⟩ := (tile_axis (p := 0) hl.1 x1 x2 hs.1).1 dx
    obtain ⟨ey, _⟩ := (tile_axis (p := 0) hl.2.1 y1 y2 hs.2.1).1 dy
    obtain ⟨ez, _⟩ := (tile_axis (p := 0) hl.2.2 z1 z2 hs.2.2).1 dz
    refine ⟨{ workgroup_size := tile
              workgroup_num := { x := workgroup_count total.x tile.x,
                                 y := workgroup_count total.y tile.y,
                                 z := workgroup_count total.z tile.z }
              workgroup_id := { x := p.x / tile.x, y := p.y / tile.y, z := p.z / tile.z }
              local_invocation_id := { x := 0, y := 0, z := 0 }
              global_invocation_id :=
                { x := sz (p.x / tile.x * tile.x), y := sz (p.y / tile.y * tile.y),
                  z := sz (p.z / tile.z * tile.z) } }, ?_⟩
    apply eq_singleton_of_nodup
    · exact ((single_threaded_compute_tiled_ids _ _).1.of_map _).filter _
    · rw [List.mem_filter, single_threaded_compute_tiled_eq]
      refine ⟨(mem _).mpr ⟨_, _, _, dx, dy, dz, List.mem_singleton.mpr rfl⟩, ?_⟩
      simp only [decide_eq_true_eq, tile_covers]
      rw [ex, ey, ez]
      exact ⟨⟨lox, hix⟩, ⟨loy, hiy⟩, ⟨loz, hiz⟩⟩
    · intro b hb
      rw [List.mem_filter, single_threaded_compute_tiled_eq] at hb
      obtain ⟨hb, hcov⟩ := hb
      obtain ⟨gx, gy, gz, hx, hy, hz, hb⟩ := (mem b).mp hb
      rw [List.mem_singleton] at hb
      subst hb
      simp only at hx hy hz
      simp only [decide_eq_true_eq, tile_covers] at hcov
      obtain ⟨fx, _⟩ := (tile_axis (p := 0) hl.1 x1 x2 hs.1).1 hx
      obtain ⟨fy, _⟩ := (tile_axis (p := 0) hl.2.1 y1 y2 hs.2.1).1 hy
      obtain ⟨fz, _⟩ := (tile_axis (p := 0) hl.2.2 z1 z2 hs.2.2).1 hz
      rw [fx, fy, fz] at hcov
      obtain ⟨⟨a1, a2⟩, ⟨b1, b2⟩, ⟨c1, c2⟩⟩ := hcov
      have gx_eq := (tile_axis (G := workgroup_count total.x tile.x) hl.1 x1 x2 hs.1).2.2 a1 a2
      have gy_eq := (tile_axis (G := workgroup_count total.y tile.y) hl.2.1 y1 y2 hs.2.1).2.2
        b1 b2
      have gz_eq := (tile_axis (G := workgroup_count total.z tile.z) hl.2.2 z1 z2 hs.2.2).2.2
        c1 c2
      subst gx_eq
      subst gy_eq
      subst gz_eq
      rfl

theorem compute_tiled_partitions_witness :
    (compute_tiled no_fabric2 none { x := 5, y := 3, z := 1 }
        { x := 2, y := 2, z := 1 }).map invocation_ids =
        some [⟨0, 0, 0⟩, ⟨2, 0, 0⟩, ⟨4, 0, 0⟩, ⟨0, 2, 0⟩, ⟨2, 2, 0⟩, ⟨4, 2, 0⟩] ∧
      ∃ inv, compute_tiled no_fabric2 none { x := 5, y := 3, z := 1 }
          { x := 2, y := 2, z := 1 } = some inv ∧
        (∀ a ∈ inv, dims_lt a.global_invocation_id { x := 5, y := 3, z := 1 }) ∧
        ∀ p, dims_lt p { x := 5, y := 3, z := 1 } →
          ∃ a, inv.filter (fun a => decide (tile_covers { x := 2, y := 2, z := 1 } a p)) = [a] :=
  ⟨by decide,
    compute_tiled_partitions no_fabric2 { x := 5, y := 3, z := 1 } { x := 2, y := 2, z := 1 }
      (by decide) (by decide) (by decide)⟩


/-! ## `ring_reserve` and the ring invariant -/

theorem ring_items_getElem {T : Type} [Inhabited T] (r : Ring T) (i : Nat)
    (hi : i < r.count) :
    (ring_items r)[i]? = some (r.ptr.getD ((r.head + i) % r.cap) default) := by
  unfold ring_items
  rw [List.getElem?_map, List.getElem?_range hi]
  rfl

theorem ring_reserve_unchanged {T : Type} [Inhabited T] (r : Ring T) (added : Nat)
    (h : sz (r.count + added) ≤ r.cap) : ring_reserve r added = r := by
  unfold ring_reserve
  rw [if_pos h]

theorem ring_reserve_bytes_eq {T : Type} [Inhabited T] (size_of : Nat) (r : Ring T)
    (added : Nat) (hwf : ring_wf r) (hsize : 0 < size_of)
    (hbytes : r.cap < sz (r.count + added) → request_cap r added * size_of < 2 ^ 64) :
    ring_reserve_bytes size_of r added = some (ring_reserve r added) := by
  obtain ⟨_, hcnt, hhead, hcap⟩ := hwf
  by_cases h : sz (r.count + added) ≤ r.cap
  · unfold ring_reserve_bytes ring_reserve
    rw [if_pos h, if_pos h]
  · have hb := hbytes (by omega)
    have hreq : sz (r.count + added) ≤ request_cap r added := by
      unfold request_cap
      show sz (r.count + added) ≤
        (if next_cap_f32 r.cap > sz (r.count + added) then next_cap_f32 r.cap
          else sz (r.count + added))
      split <;> omega
    have hblock : (alloc_from (sz (request_cap r added * size_of)) size_of : List T) =
        List.replicate (request_cap r added) default := by
      unfold alloc_from
      rw [sz_of_lt hb, Nat.mul_div_cancel _ hsize]
    unfold ring_reserve_bytes ring_reserve
    rw [if_neg h, if_neg h]
    simp only [hblock, List.length_replicate]
    by_cases hc : r.count ≠ 0
    · have hlt : r.head < r.cap := hhead (by omega)
      have hfirst : sz_sub r.cap r.head = r.cap - r.head :=
        sz_sub_of_le (by omega) (by omega)
      have hfit : ¬ request_cap r added < sz_sub r.cap r.head + r.head := by
        rw [hfirst]
        omega
      rw [if_pos hc, if_neg hfit, if_pos hc]
      rfl
    · rw [if_neg hc, if_neg hc]
      rfl

/-- C24 (as stated, refuted): `count + added_size` is a `size_t` sum and the size of
the new block a `size_t` byte count. For the full ring of three `int` slots and
`added_size = 2^64 - 1` the sum wraps to 2, which is not above `cap = 3`, and the call
returns with `cap = 3`, below `count + added_size`. For `added_size = 2^62 - 1` the
request of `2^62 + 2` slots is `(2^62 + 2) * 4` bytes, which wraps to 8: the new
block has two slots and the copy of the three old slots runs past its end. -/
theorem ring_reserve_wraps :
    ring_wf sample_ring ∧ sample_ring.count = 3 ∧ sample_ring.cap = 3 ∧
      sz (sample_ring.count + (2 ^ 64 - 1)) = 2 ∧
      ring_reserve_bytes 4 sample_ring (2 ^ 64 - 1) = some sample_ring ∧
      ring_reserve sample_ring (2 ^ 64 - 1) = sample_ring ∧
      sample_ring.cap < sample_ring.count + (2 ^ 64 - 1) ∧
      request_cap sample_ring (2 ^ 62 - 1) = 2 ^ 62 + 2 ∧
      sz ((2 ^ 62 + 2) * 4) = 8 ∧
      (alloc_from (sz (request_cap sample_ring (2 ^ 62 - 1) * 4)) 4 : List Int) = [0, 0] ∧
      ring_reserve_bytes 4 sample_ring (2 ^ 62 - 1) = none := by
  decide

/-- C24: on a ring with `count <= cap`, `head < cap` when `cap > 0` and a buffer of
`cap` slots, and for an `added_size` such that `count + added_size` fits in `size_t`
and, when `count + added_size > cap`, the byte size `request_cap * sizeof(T)` of the
new block fits in `size_t`: `ring_reserve` returns, keeps the logical contents and the
count and ends with `cap >= count + added_size` and a buffer of `cap` slots; when it
reallocates, which it does exactly when `count + added_size > cap`, the new `head` is
0 and the `i`-th logical element is at index `i` of the new buffer, wrapped or not;
when `count + added_size <= cap` already the ring is unchanged. -/
theorem ring_reserve_keeps_contents {T : Type} [Inhabited T] (size_of : Nat) (r : Ring T)
    (added : Nat) (hwf : ring_wf r) (hsize : 0 < size_of) (hsum : r.count + added < 2 ^ 64)
    (hbytes : r.cap < r.count + added → request_cap r added * size_of < 2 ^ 64) :
    ∃ r1, ring_reserve_bytes size_of r added = some r1 ∧
      ring_items r1 = ring_items r ∧ r1.count = r.count ∧
      r.count + added ≤ r1.cap ∧ r1.ptr.length = r1.cap ∧
      (r.cap < r.count + added →
        r1.head = 0 ∧ r1.cap = request_cap r added ∧
        ∀ i, i < r.count → r1.ptr[i]? = (ring_items r)[i]?) ∧
      (r.count + added ≤ r.cap → r1 = r) := by
  have hs : sz (r.count + added) = r.count + added := sz_of_lt hsum
  have heq := ring_reserve_bytes_eq size_of r added hwf hsize (by rw [hs]; exact hbytes)
  obtain ⟨s1, s2, s3, s4, s5, s6⟩ := ring_reserve_spec r added hwf hsum
  refine ⟨ring_reserve r added, heq, s1, s2, s3, s4, fun hgrow => ?_, fun hle => ?_⟩
  · have h0 := s6 hgrow
    refine ⟨h0, ?_, fun i hi => ?_⟩
    · unfold ring_reserve
      rw [if_neg (by rw [hs]; omega)]
      rfl
    · have hi1 : i < (ring_reserve r added).count := by rw [s2]; exact hi
      have hlt : i < (ring_reserve r added).ptr.length := by rw [s4]; omega
      rw [← s1, ring_items_getElem _ i hi1, h0, Nat.zero_add, Nat.mod_eq_of_lt (by omega),
        List.getD_eq_getElem?_getD, List.getElem?_eq_getElem hlt]
      rfl
  · exact ring_reserve_unchanged r added (by rw [hs]; exact hle)

theorem ring_reserve_keeps_contents_witness :
    ring_wf sample_ring ∧ ring_items sample_ring = [7, 8, 9] ∧
      request_cap sample_ring 2 = 5 ∧
      ring_reserve_bytes 4 sample_ring 2 =
        some { ptr := [7, 8, 9, 0, 0], count := 3, cap := 5, head := 0 } ∧
      ring_reserve_bytes 4 sample_ring 0 = some sample_ring ∧
      ∃ r1, ring_reserve_bytes 4 sample_ring 2 = some r1 ∧
        ring_items r1 = ring_items sample_ring ∧ r1.count = sample_ring.count ∧
        sample_ring.count + 2 ≤ r1.cap ∧ r1.ptr.length = r1.cap ∧
        (sample_ring.cap < sample_ring.count + 2 →
          r1.head = 0 ∧ r1.cap = request_cap sample_ring 2 ∧
          ∀ i, i < sample_ring.count → r1.ptr[i]? = (ring_items sample_ring)[i]?) ∧
        (sample_ring.count + 2 ≤ sample_ring.cap → r1 = sample_ring) :=
  ⟨by decide, by decide, by decide, by decide, by decide,
    ring_reserve_keeps_contents 4 sample_ring 2 (by decide) (by decide) (by decide)
      (fun _ => by decide)⟩

theorem ring_inv_reserve {T : Type} [Inhabited T] (r : Ring T) (added : Nat)
    (hinv : ring_inv r) (hcap : r.cap < 2 ^ 64) :
    ring_inv (ring_reserve r added) ∧ (ring_reserve r added).cap < 2 ^ 64 ∧
      (ring_reserve r added).count = r.count ∧ r.cap ≤ (ring_reserve r added).cap ∧
      (r.cap < sz (r.count + added) → sz (r.count + added) ≤ (ring_reserve r added).cap) := by
  have hlt := ring_reserve_cap_lt r added hcap
  by_cases h : sz (r.count + added) ≤ r.cap
  · rw [ring_reserve_unchanged r added h]
    exact ⟨hinv, hcap, rfl, Nat.le_refl _, fun h1 => by omega⟩
  · have hcount : (ring_reserve r added).count = r.count := ring_reserve_count r added
    have hhead : (ring_reserve r added).head = 0 := by
      unfold ring_reserve
      rw [if_neg h]
    have hge : sz (r.count + added) ≤ (ring_reserve r added).cap := by
      unfold ring_reserve
      rw [if_neg h]
      show sz (r.count + added) ≤
        (if next_cap_f32 r.cap > sz (r.count + added) then next_cap_f32 r.cap
          else sz (r.count + added))
      split <;> omega
    have hc := hinv.1
    refine ⟨⟨by rw [hcount]; omega, fun _ => by rw [hhead]; omega⟩, hlt, hcount, by omega,
      fun _ => hge⟩

theorem ring_inv_push_prepare {T : Type} [Inhabited T] (r : Ring T) (hinv : ring_inv r)
    (hcap : r.cap < 2 ^ 64) :
    ring_inv (if r.count = r.cap then ring_reserve r (if r.cap ≠ 0 then 1 else 8) else r) ∧
      0 < (if r.count = r.cap then ring_reserve r (if r.cap ≠ 0 then 1 else 8) else r).cap ∧
      (if r.count = r.cap then ring_reserve r (if r.cap ≠ 0 then 1 else 8) else r).cap
        < 2 ^ 64 ∧
      sz ((if r.count = r.cap then ring_reserve r (if r.cap ≠ 0 then 1 else 8)
          else r).count + 1) ≤
        (if r.count = r.cap then ring_reserve r (if r.cap ≠ 0 then 1 else 8) else r).cap := by
  have hc := hinv.1
  by_cases hfull : r.count = r.cap
  · rw [if_pos hfull]
    obtain ⟨i1, i2, i3, i4, i5⟩ := ring_inv_reserve r (if r.cap ≠ 0 then 1 else 8) hinv hcap
    refine ⟨i1, ?_, i2, ?_⟩
    · by_cases h0 : r.cap ≠ 0
      · omega
      · have hz : r.cap = 0 := by omega
        have hcz : r.count = 0 := by omega
        rw [if_neg h0] at i5 ⊢
        have : sz (r.count + 8) = 8 := by rw [hcz]; decide
        rw [this] at i5
        have := i5 (by omega)
        omega
    · rw [i3]
      by_cases h0 : r.cap ≠ 0
      · rw [if_pos h0] at i5 i4 ⊢
        by_cases hw : r.cap < sz (r.count + 1)
        · exact i5 hw
        · have : sz (r.count + 1) ≤ r.cap := by omega
          omega
      · have hz : r.cap = 0 := by omega
        have hcz : r.count = 0 := by omega
        rw [if_neg h0] at i5 ⊢
        have e8 : sz (r.count + 8) = 8 := by rw [hcz]; decide
        have e1 : sz (r.count + 1) = 1 := by rw [hcz]; decide
        rw [e8] at i5
        have := i5 (by omega)
        omega
  · rw [if_neg hfull]
    have := sz_le (r.count + 1)
    exact ⟨hinv, by omega, hcap, by omega⟩

end mn
